import Mathlib

/-!
Verification model of the gitstatus index scanner (src/index.cc).

Paths are modelled as lists of characters (raw bytes of the C strings).
The filesystem, the directory-listing primitive and the racy-check oracle
are external collaborators and are modelled as explicit inputs.
-/

set_option maxHeartbeats 1000000

namespace Gitstatus

/-- Byte-wise three-way comparison of two paths, the semantics of
`std::strcmp` on NUL-terminated strings (a strict prefix is smaller).
Modelled from the spec: comparisons use simple lexicographic byte ordering
(`Cmp` of string_view.h, which is not under src/). -/
def cmpL : List Char → List Char → Ordering
  | [], [] => .eq
  | [], _ :: _ => .lt
  | _ :: _, [] => .gt
  | a :: as, b :: bs => if a < b then .lt else if b < a then .gt else cmpL as bs

/-- Strict byte order on paths. -/
def ltL (a b : List Char) : Prop := cmpL a b = .lt

/-- Non-strict byte order on paths. -/
def leL (a b : List Char) : Prop := cmpL a b ≠ .gt

instance (a b : List Char) : Decidable (ltL a b) :=
  inferInstanceAs (Decidable (cmpL a b = .lt))

instance (a b : List Char) : Decidable (leL a b) :=
  inferInstanceAs (Decidable (cmpL a b ≠ .gt))

/-- Propositional prefix test: `pfx p s` holds when `s` starts with `p`. -/
def pfx (p s : List Char) : Prop := ∃ t, s = p ++ t

/-! ### Data model: stats, tracked records, directory nodes, filesystem -/

/-- Filesystem metadata snapshot (the fields of `struct stat` the scanner
reads: device, inode, mtime seconds and nanoseconds, mode, group id, size).
A zero-valued `Stat` models the `st = {}` fallback of the code. -/
structure Stat where
  dev : Nat := 0
  ino : Nat := 0
  mtimeS : Int := 0
  mtimeN : Int := 0
  mode : Nat := 0
  gid : Nat := 0
  size : Nat := 0
deriving DecidableEq, Repr

/-- The zero stat used by the code on stat failure (`st = {}`). -/
def statZero : Stat := {}

/-- Modelled from the spec: `StatEq` (stat.h, not under src/) compares the
freshly observed stat with the cached one bit-for-bit on the fields
device, inode, mtime and size. -/
def StatEq (a b : Stat) : Bool :=
  a.dev == b.dev && a.ino == b.ino && a.mtimeS == b.mtimeS &&
    a.mtimeN == b.mtimeN && a.size == b.size

/-- A tracked record (`git_index_entry` as consumed by index.cc): path,
mtime, inode, mode, gid, size.  The field `racy` is the verdict of the
external oracle `git_index_entry_newer_than_index` for this record: whether
the record's timestamp is not provably older than the index's own
generation timestamp. -/
structure Entry where
  path : List Char
  mtimeS : Int := 0
  mtimeN : Int := 0
  ino : Nat := 0
  mode : Nat := 0
  gid : Nat := 0
  size : Nat := 0
  racy : Bool := false
deriving DecidableEq, Repr

/-- Mode normalization of index.cc: a regular file keeps only 0755/0644
permissions depending on any execute bit; other file kinds keep only the
file-type bits (`mode & S_IFMT`).  `0o170000` is S_IFMT, `0o100000` is
S_IFREG, `0o111` the execute bits. -/
def Mode (mode : Nat) : Nat :=
  if mode &&& 0o170000 == 0o100000 then
    0o100000 ||| (if mode &&& 0o111 != 0 then 0o755 else 0o644)
  else
    mode &&& 0o170000

/-- Metadata comparison of index.cc `IsModified`: mtime (seconds and
nanoseconds), inode, normalized mode, gid, size. -/
def IsModified (e : Entry) (st : Stat) : Bool :=
  e.mtimeS != st.mtimeS || e.mtimeN != st.mtimeN || e.ino != st.ino ||
    e.mode != Mode st.mode || e.gid != st.gid || e.size != st.size

/-- A directory node (`IndexDir` of index.h, as used by index.cc).
`path` is slash-terminated ([] for the root), `depth` the number of path
components, `subdirs` the immediate subdirectory names, `files` the tracked
records directly in this directory.  `st` is the cached stat (zero until
the first successful full rescan) and `unmatched` models the per-directory
arena plus offsets: the full paths recorded by `AddUnmached` during the
most recent full rescan (or the directory's own path after a failure). -/
structure IndexDir where
  path : List Char := []
  depth : Nat := 0
  subdirs : List (List Char) := []
  files : List Entry := []
  st : Stat := {}
  unmatched : List (List Char) := []
deriving DecidableEq, Repr

/-- One real directory as the filesystem reports it: its stat and, when the
listing primitive succeeds, the name/is-directory pairs of its entries
(`ListDir` of dir.h; a `none` listing models ListDir failure). -/
structure FsDir where
  st : Stat := {}
  listing : Option (List (List Char × Bool)) := some []
deriving Repr

/-- The filesystem as a deterministic oracle, keyed by repo-relative path.
`dirs` combines `openat` + `fstat` on a directory (`none` = open or fstat
failure); `fstat` is `fstatat(dir_fd, name, AT_SYMLINK_NOFOLLOW)` keyed by
the full path (`none` = failure, which the code turns into a zero stat). -/
structure Fs where
  dirs : List Char → Option FsDir
  fstat : List Char → Option Stat

/-- The stat the code ends up with for a file: zero on failure. -/
def fstatD (fs : Fs) (p : List Char) : Stat := (fs.fstat p).getD statZero

/-! ### The scanner (ScanDirs of index.cc) -/

/-- Basename of a tracked record relative to its directory
(`e->path + dir.path.len`). -/
def Basename (dlen : Nat) (e : Entry) : List Char := e.path.drop dlen

/-- Syscall log of one scan, used to state the claims about which
primitives are invoked: directories listed by `ListDir` and full paths
passed to `fstatat`. -/
structure ScanLog where
  listed : List (List Char) := []
  statted : List (List Char) := []
deriving Repr

/-- The inner file loop of the merge (index.cc lines 161-179): walk tracked
files while their basename is smaller than the current real entry, pushing
them as deleted; stop on an equal basename (match) or a greater one.
Returns (deleted-paths pushed, matched record if any, remaining files). -/
def fileRun (dlen : Nat) (n : List Char) :
    List Entry → List (List Char) × Option Entry × List Entry
  | [] => ([], none, [])
  | f :: fs =>
    match cmpL (Basename dlen f) n with
    | .lt =>
      let r := fileRun dlen n fs
      (f.path :: r.1, r.2.1, r.2.2)
    | .eq => ([], some f, fs)
    | .gt => ([], none, f :: fs)

/-- The subdirectory loop of the merge (index.cc lines 183-191): skip
subdirectory names smaller than the entry, consume an equal one.
Returns (matched?, remaining subdirectory names). -/
def subdirRun (n : List Char) : List (List Char) → Bool × List (List Char)
  | [] => (false, [])
  | s :: ss =>
    match cmpL s n with
    | .lt => subdirRun n ss
    | .eq => (true, ss)
    | .gt => (false, s :: ss)

/-- The name recorded for an unmatched real entry: a trailing slash is
appended when the entry is itself a directory (index.cc line 194). -/
def unmatchedName (n : List Char) (isDir : Bool) : List Char :=
  if isDir then n ++ ['/'] else n

/-- Output of the merge loop: inline result pushes (deleted/racy/modified
tracked paths, in push order), the unmatched full paths recorded by
`AddUnmached` (skipping `.git/`), and the full paths passed to fstatat. -/
structure MergeOut where
  res : List (List Char) := []
  unmatched : List (List Char) := []
  statted : List (List Char) := []
deriving Repr

/-- Outcome of processing one real entry in the merge: the pushes it makes
and the remaining tracked files and subdirectory names. -/
structure StepOut where
  res : List (List Char) := []
  unmatched : List (List Char) := []
  statted : List (List Char) := []
  files : List Entry := []
  subdirs : List (List Char) := []
deriving Repr

/-- Processing of a single real entry in the merge of index.cc lines
157-197: files smaller than the entry are pushed as deleted; a matched file
is pushed unconditionally when racy, otherwise re-stat'd and pushed only
when modified; an entry matching neither a remaining file nor a remaining
subdirectory name is recorded as unmatched (new), with `.git/` skipped. -/
def mergeStep (fs : Fs) (dpath : List Char) (dlen : Nat) (n : List Char)
    (isDir : Bool) (files : List Entry) (subdirs : List (List Char)) : StepOut :=
  let fr := fileRun dlen n files
  match fr.2.1 with
  | some f =>
    if f.racy then
      { res := fr.1 ++ [f.path], files := fr.2.2, subdirs := subdirs }
    else
      { res := fr.1 ++ (if IsModified f (fstatD fs (dpath ++ n)) then [f.path] else [])
        statted := [dpath ++ n]
        files := fr.2.2, subdirs := subdirs }
  | none =>
    let sr := subdirRun n subdirs
    if sr.1 then
      { res := fr.1, files := fr.2.2, subdirs := sr.2 }
    else
      let nm := unmatchedName n isDir
      { res := fr.1
        unmatched := if nm = ['.', 'g', 'i', 't', '/'] then [] else [dpath ++ nm]
        files := fr.2.2, subdirs := sr.2 }

/-- The merge loop over the sorted real entries (a single linear pass,
index.cc lines 157-197). -/
def mergeLoop (fs : Fs) (dpath : List Char) (dlen : Nat) :
    List (List Char × Bool) → List Entry → List (List Char) → MergeOut
  | [], _, _ => {}
  | (n, isDir) :: es, files, subdirs =>
    let s := mergeStep fs dpath dlen n isDir files subdirs
    let rest := mergeLoop fs dpath dlen es s.files s.subdirs
    { res := s.res ++ rest.res
      unmatched := s.unmatched ++ rest.unmatched
      statted := s.statted ++ rest.statted }

/-- Sort of the freshly listed entries by name (index.cc lines 150-151,
`std::sort` with `strcmp`). -/
def sortEntries (l : List (List Char × Bool)) : List (List Char × Bool) :=
  l.insertionSort (fun a b => leL a.1 b.1)

/-- Scan of a single directory node (one iteration of the loop of
`ScanDirs`).  Returns the updated node, the dirty candidates contributed by
this directory (inline pushes followed by the scope-exit push of the
unmatched paths), and the syscall log.  Directory handles are keyed by
path: the parent-chain fd reuse of lines 107-123 resolves to the same
directory as a fresh open of `dir.path`, so both open branches are a single
lookup here. -/
def scanOne (fs : Fs) (uc : Bool) (d : IndexDir) :
    IndexDir × List (List Char) × ScanLog :=
  match fs.dirs d.path with
  | none =>
    -- open or fstat failure: AddUnmached("") resets the node state and
    -- records the directory's own path (lines 124-133)
    ({ d with st := statZero, unmatched := [d.path] }, [d.path], {})
  | some fd =>
    if uc && StatEq fd.st d.st then
      -- fast path (lines 135-140): no listing; re-stat each tracked file
      let mod := d.files.filter (fun f =>
        IsModified f (fstatD fs (d.path ++ Basename d.path.length f)))
      (d, mod.map (·.path) ++ d.unmatched,
        { listed := [],
          statted := d.files.map (fun f => d.path ++ Basename d.path.length f) })
    else
      match fd.listing with
      | none =>
        -- ListDir failure (lines 142-145)
        ({ d with st := statZero, unmatched := [d.path] }, [d.path],
          { listed := [d.path], statted := [] })
      | some raw =>
        -- full rescan (lines 142-197)
        let entries := sortEntries raw
        let mo := mergeLoop fs d.path d.path.length entries d.files d.subdirs
        ({ d with st := fd.st, unmatched := mo.unmatched },
          mo.res ++ mo.unmatched,
          { listed := [d.path], statted := mo.statted })

/-- ScanDirs over a range of directory nodes: candidates and logs are
concatenated in order; each node's mutation is independent of the others. -/
def ScanDirs (fs : Fs) (uc : Bool) : List IndexDir → List IndexDir × List (List Char) × ScanLog
  | [] => ([], [], {})
  | d :: ds =>
    let r1 := scanOne fs uc d
    let rest := ScanDirs fs uc ds
    (r1.1 :: rest.1, r1.2.1 ++ rest.2.1,
      { listed := r1.2.2.listed ++ rest.2.2.listed,
        statted := r1.2.2.statted ++ rest.2.2.statted })

/-! ### Tree construction (Index::InitDirs) -/

/-- CommonDir of index.cc: length of the common directory prefix of two
paths (up to and including its last slash) and its slash count. -/
def CommonDir : List Char → List Char → Nat × Nat
  | a :: as, b :: bs =>
    if a = b then
      let r := CommonDir as bs
      if a = '/' then (r.1 + 1, r.2 + 1)
      else if r.2 = 0 then (0, 0) else (r.1 + 1, r.2)
    else (0, 0)
  | _, _ => (0, 0)

/-- Weight of a directory node: 1 + subdirectory count + file count. -/
def Weight (d : IndexDir) : Nat := 1 + d.subdirs.length + d.files.length

/-- The `std::is_sorted` test PopDir applies to a node's subdirectory
names (adjacent pairs in non-strict byte order). -/
def subdirsSorted : List (List Char) → Bool
  | a :: b :: rest => !(cmpL a b == Ordering.gt) && subdirsSorted (b :: rest)
  | _ => true

/-- Finalization of a popped node: sort its subdirectory names if they are
not already sorted (`std::is_sorted` / `Sort` at line 223). -/
def finalizeDir (t : IndexDir) : IndexDir :=
  { t with subdirs :=
      if subdirsSorted t.subdirs = true then t.subdirs
      else t.subdirs.insertionSort leL }

/-- PopDir (index.cc lines 219-227): finalize the top of the stack and
append it to the output list.  An empty stack cannot occur (CHECK); it is a
no-op here. -/
def popDir (st : List IndexDir) (out : List IndexDir) :
    List IndexDir × List IndexDir :=
  match st with
  | [] => ([], out)
  | t :: rest => (rest, out ++ [finalizeDir t])

/-- Repeated PopDir. -/
def popN : Nat → List IndexDir → List IndexDir → List IndexDir × List IndexDir
  | 0, st, out => (st, out)
  | k + 1, st, out =>
    let r := popDir st out
    popN k r.1 r.2

/-- Helper for `slashPositionsFrom`: slash indices of the given suffix,
offset by the index where the suffix starts. -/
def slashPosAux : List Char → Nat → List Nat
  | [], _ => []
  | c :: rest, i =>
    if c = '/' then i :: slashPosAux rest (i + 1) else slashPosAux rest (i + 1)

/-- The positions (indices) of the slashes of `p` at index ≥ `start`, in
increasing order: the iterations of the strchr loop of lines 238-247. -/
def slashPositionsFrom (p : List Char) (start : Nat) : List Nat :=
  slashPosAux (p.drop start) start

/-- Push one new directory node for the slash of `epath` at index `j`
(index.cc lines 239-246): register the new segment in the parent's subdir
list and push the child, whose path is `epath` through the slash and whose
depth is the stack size before the push. -/
def pushOne (epath : List Char) (st : List IndexDir) (j : Nat) : List IndexDir :=
  match st with
  | [] => []
  | top :: rest =>
    let seg := (epath.take j).drop top.path.length
    let top' := { top with subdirs := top.subdirs ++ [seg] }
    let nd : IndexDir := { path := epath.take (j + 1), depth := st.length }
    nd :: top' :: rest

/-- Append the record to the files of the stack top (line 251). -/
def addFile (e : Entry) (st : List IndexDir) : List IndexDir :=
  match st with
  | [] => []
  | top :: rest => { top with files := top.files ++ [e] } :: rest

/-- One iteration of the record loop of InitDirs (lines 229-252): compute
the common directory with the stack top, pop the stack down to the common
depth, push a node for every further slash of the record's path, and attach
the record to the resulting top. -/
def stepEntry (s : List IndexDir × List IndexDir) (e : Entry) :
    List IndexDir × List IndexDir :=
  match s.1 with
  | [] => s
  | prev :: _ =>
    let c := CommonDir prev.path e.path
    let r := popN (prev.depth - c.2) s.1 s.2
    let st2 := (slashPositionsFrom e.path c.1).foldl (pushOne e.path) r.1
    (addFile e st2, r.2)

/-- Pop every remaining open directory (lines 254-257). -/
def popAll : List IndexDir → List IndexDir → List IndexDir
  | [], out => out
  | t :: rest, out => popAll rest (out ++ [finalizeDir t])

/-- InitDirs: build the directory tree from the sorted record list.  The
finalized list is reversed at the end (line 258) so parents precede
children. -/
def InitDirs (es : List Entry) : List IndexDir :=
  let s := es.foldl stepEntry ([{}], [])
  (popAll s.1 s.2).reverse

/-! ### Structural predicates for the tree-construction proof -/

/-- A well-formed path segment: nonempty and slash-free. -/
def SegOk (s : List Char) : Prop := s ≠ [] ∧ '/' ∉ s

/-- The slash-terminated directory path spelled by a segment list. -/
def SegsToPath (segs : List (List Char)) : List Char :=
  (segs.map (fun s => s ++ ['/'])).flatten

/-- Longest common prefix of two segment lists. -/
def commonSegs : List (List Char) → List (List Char) → List (List Char)
  | s :: ss, t :: ts => if s = t then s :: commonSegs ss ts else []
  | _, _ => []

/-- A valid tracked-record path: optional directory segments followed by a
nonempty slash-free basename. -/
def ValidPath (p : List Char) : Prop :=
  ∃ segs base, (∀ s ∈ segs, SegOk s) ∧ SegOk base ∧ p = SegsToPath segs ++ base

/-- The open-directory stack of InitDirs, head = deepest: the root at the
bottom, and every element one well-formed segment deeper than the one
below it. -/
def StackChain : List IndexDir → Prop
  | [] => True
  | [d] => d.path = [] ∧ d.depth = 0
  | c :: p :: rest =>
    (∃ seg, SegOk seg ∧ c.path = p.path ++ seg ++ ['/']) ∧
      c.depth = p.depth + 1 ∧ StackChain (p :: rest)

/-- Shape and order of a node's files: every record's path extends the
node's path by a slash-free basename, and basenames strictly increase. -/
def FilesOk (d : IndexDir) : Prop :=
  (∀ f ∈ d.files, ∃ b, SegOk b ∧ f.path = d.path ++ b) ∧
  d.files.Pairwise (fun f g =>
    ltL (Basename d.path.length f) (Basename d.path.length g))

/-- Shape and order of an open node's subdirectory names, as appended
during construction: well-formed segments, strictly increasing in
slash-augmented byte order (the order of first appearance). -/
def SubdirsRawOk (d : IndexDir) : Prop :=
  (∀ s ∈ d.subdirs, SegOk s) ∧
  d.subdirs.Pairwise (fun a b => ltL (a ++ ['/']) (b ++ ['/']))

/-- Shape and order of a finalized node's subdirectory names: well-formed,
sorted by name, no duplicates. -/
def SubdirsFinOk (d : IndexDir) : Prop :=
  (∀ s ∈ d.subdirs, SegOk s) ∧ d.subdirs.Pairwise leL ∧ d.subdirs.Nodup

/-- The invariant of the InitDirs record loop.  `stack` is the open chain
(head = deepest), `out` the finalized nodes in pop order, `h` an upper
bound of every record consumed so far (every future record is strictly
greater). -/
structure BuildInv (stack : List IndexDir) (out : List IndexDir) (h : List Char) : Prop where
  ne : stack ≠ []
  chain : StackChain stack
  stack_pfx_h : ∀ d ∈ stack, pfx d.path h
  stack_files : ∀ d ∈ stack, FilesOk d
  stack_files_le : ∀ d ∈ stack, ∀ f ∈ d.files, leL f.path h
  stack_sub : ∀ d ∈ stack, SubdirsRawOk d
  stack_sub_le : ∀ d ∈ stack, ∀ s ∈ d.subdirs, leL (d.path ++ s ++ ['/']) h
  stack_sub_child : ∀ d ∈ stack, ∀ s ∈ d.subdirs,
    (∃ x ∈ out, x.path = d.path ++ s ++ ['/']) ∨
    (∃ t ∈ stack, t.path = d.path ++ s ++ ['/'])
  out_files : ∀ x ∈ out, FilesOk x
  out_sub : ∀ x ∈ out, SubdirsFinOk x
  out_no_pfx_stack : ∀ x ∈ out, ∀ t ∈ stack, ¬ pfx x.path t.path
  out_pairwise : out.Pairwise (fun a b => ¬ pfx a.path b.path)
  out_adj : out.Chain' (fun a b => a.depth = b.depth + 1 → pfx b.path a.path)
  out_last : ∀ y, out.getLast? = some y → ∀ t, stack.head? = some t →
    y.depth ≤ t.depth + 1 ∧ (y.depth = t.depth + 1 → pfx t.path y.path)
  out_sep : ∀ x ∈ out, ∀ f, ltL h f → ¬ pfx x.path f

/-- Intermediate invariant for the pop phase of one stepEntry iteration:
the BuildInv fields relative to the previous bound `h`, plus the
common-depth classification `far` against the incoming record path `e`
(nodes deeper than the common depth `c2` are not prefixes of `e`, nodes at
most that deep are), and the output separation strengthened to `e`. -/
structure PopInv (c2 : Nat) (stack out : List IndexDir) (h e : List Char) : Prop where
  ne : stack ≠ []
  chain : StackChain stack
  stack_pfx_h : ∀ d ∈ stack, pfx d.path h
  far : ∀ d ∈ stack, (c2 < d.depth → ¬ pfx d.path e) ∧ (d.depth ≤ c2 → pfx d.path e)
  stack_files : ∀ d ∈ stack, FilesOk d
  stack_files_le : ∀ d ∈ stack, ∀ f ∈ d.files, leL f.path h
  stack_sub : ∀ d ∈ stack, SubdirsRawOk d
  stack_sub_le : ∀ d ∈ stack, ∀ s ∈ d.subdirs, leL (d.path ++ s ++ ['/']) h
  stack_sub_child : ∀ d ∈ stack, ∀ s ∈ d.subdirs,
    (∃ x ∈ out, x.path = d.path ++ s ++ ['/']) ∨
    (∃ t ∈ stack, t.path = d.path ++ s ++ ['/'])
  out_files : ∀ x ∈ out, FilesOk x
  out_sub : ∀ x ∈ out, SubdirsFinOk x
  out_no_pfx_stack : ∀ x ∈ out, ∀ t ∈ stack, ¬ pfx x.path t.path
  out_pairwise : out.Pairwise (fun a b => ¬ pfx a.path b.path)
  out_adj : out.Chain' (fun a b => a.depth = b.depth + 1 → pfx b.path a.path)
  out_last : ∀ y, out.getLast? = some y → ∀ t, stack.head? = some t →
    y.depth ≤ t.depth + 1 ∧ (y.depth = t.depth + 1 → pfx t.path y.path)
  out_sep2 : ∀ x ∈ out, ∀ f, leL e f → ¬ pfx x.path f

/-- Intermediate invariant for the push phase of one stepEntry iteration:
every open node's path is a prefix of the incoming record path `e`, file
paths and subdirectory paths on the stack are strictly below `e`, and the
output side is as in `PopInv`. -/
structure MidInv (stack out : List IndexDir) (e : List Char) : Prop where
  ne : stack ≠ []
  chain : StackChain stack
  pfx_e : ∀ d ∈ stack, pfx d.path e
  stack_files : ∀ d ∈ stack, FilesOk d
  files_lt : ∀ d ∈ stack, ∀ f ∈ d.files, ltL f.path e
  stack_sub : ∀ d ∈ stack, SubdirsRawOk d
  sub_lt : ∀ d ∈ stack, ∀ s ∈ d.subdirs, ltL (d.path ++ s ++ ['/']) e
  sub_child : ∀ d ∈ stack, ∀ s ∈ d.subdirs,
    (∃ x ∈ out, x.path = d.path ++ s ++ ['/']) ∨
    (∃ t ∈ stack, t.path = d.path ++ s ++ ['/'])
  out_files : ∀ x ∈ out, FilesOk x
  out_sub : ∀ x ∈ out, SubdirsFinOk x
  out_no_pfx_stack : ∀ x ∈ out, ∀ t ∈ stack, ¬ pfx x.path t.path
  out_pairwise : out.Pairwise (fun a b => ¬ pfx a.path b.path)
  out_adj : out.Chain' (fun a b => a.depth = b.depth + 1 → pfx b.path a.path)
  out_last : ∀ y, out.getLast? = some y → ∀ t, stack.head? = some t →
    y.depth ≤ t.depth + 1 ∧ (y.depth = t.depth + 1 → pfx t.path y.path)
  out_sep2 : ∀ x ∈ out, ∀ f, leL e f → ¬ pfx x.path f

/-- Explicit form of the slash-loop fold of stepEntry: push one node per
remaining segment, registering each segment in its parent. -/
def pushSegs : List Char → List (List Char) → List IndexDir → List IndexDir
  | _, [], st => st
  | pref, t :: ts, st =>
    match st with
    | [] => []
    | top :: rest =>
      pushSegs (pref ++ t ++ ['/']) ts
        ({ path := pref ++ t ++ ['/'], depth := st.length } ::
          { top with subdirs := top.subdirs ++ [t] } :: rest)

/-! ### Shard planning (Index::InitSplits) -/

/-- The boundary-cut loop of InitSplits (lines 271-277) over the directory
weights: cut after directory `i` whenever the weight accumulated since the
last cut reaches the shard weight. -/
def splitCuts (sw : Nat) : List Nat → Nat → Nat → List Nat
  | [], _, _ => []
  | x :: xs, i, w =>
    if w + x ≥ sw then (i + 1) :: splitCuts sw xs (i + 1) 0
    else splitCuts sw xs (i + 1) (w + x)

/-- InitSplits over the directory weights and the worker capacity
(`GlobalThreadPool()->num_threads()`): shard weight is
max(512, total/(16*threads)); boundaries start at 0 and always end at the
directory count. -/
def InitSplits (ws : List Nat) (numThreads : Nat) : List Nat :=
  let kNumShards := 16 * numThreads
  let shardWeight := max 512 (ws.sum / kNumShards)
  let base := 0 :: splitCuts shardWeight ws 0 0
  if base.getLastD 0 ≠ ws.length then base ++ [ws.length] else base

/-- The CHECK of line 280: the boundary list must have at most
16*threads + 1 entries. -/
def splitsSizeOk (ws : List Nat) (numThreads : Nat) : Bool :=
  (InitSplits ws numThreads).length ≤ 16 * numThreads + 1

/-! ### Orchestration (Index::GetDirtyCandidates) -/

/-- The contiguous shard slices determined by the boundary list. -/
def shardSlices (dirs : List IndexDir) (splits : List Nat) : List (List IndexDir) :=
  (splits.zip splits.tail).map (fun p => ((dirs.drop p.1).take (p.2 - p.1)))

/-- GetDirtyCandidates: scan every shard, concatenate the candidates, sort
the merged output (line 332).  The thread-pool fan-out mutates disjoint
shards and merges under a mutex; its observable result equals this
sequential composition.  Returns the updated nodes and the sorted
candidate list. -/
def GetDirtyCandidates (fs : Fs) (uc : Bool) (dirs : List IndexDir)
    (splits : List Nat) : List IndexDir × List (List Char) :=
  let rs := (shardSlices dirs splits).map (ScanDirs fs uc)
  ((rs.map (·.1)).flatten,
    ((rs.map (fun r => r.2.1)).flatten).insertionSort leL)

/-- Modelled from the spec: any unexpected internal error inside a shard's
processing (an `Exception` caught at lines 313-316; the throwing code is
not under src/) is injected by the oracle `fail`.  A failing shard
contributes neither candidates nor node mutations; after all shards have
run, the call fails as a whole (`VERIFY(!error)` at line 331) and no
candidate list is produced. -/
def GetDirtyCandidatesE (fs : Fs) (uc : Bool) (dirs : List IndexDir)
    (splits : List Nat) (fail : Nat → Bool) :
    List IndexDir × Except Unit (List (List Char)) :=
  let slices := shardSlices dirs splits
  let n := slices.length
  let rs := (List.range n).map (fun i =>
    if fail i then ((slices.getD i []), none)
    else
      let r := ScanDirs fs uc (slices.getD i [])
      (r.1, some r.2.1))
  ((rs.map (·.1)).flatten,
    if (List.range n).any fail then Except.error ()
    else Except.ok (((rs.map (fun r => (r.2.getD []))).flatten).insertionSort leL))

/-- Well-formedness of a directory node and of what the filesystem lists
for it, as maintained by the program: the node path is a slash-terminated
segment path (InitDirs), files live directly in the node with strictly
sorted basenames (InitDirs), the cached unmatched paths are the
single-name extensions recorded by the previous full rescan (no cached
name collides with a subdirectory name, a cached file name matches no
tracked basename, and the cache is duplicate-free), the subdirectory names
are strictly sorted, and any successful listing yields duplicate-free,
slash-free entry names. -/
def DirWF (fs : Fs) (d : IndexDir) : Prop :=
  (∃ segs, (∀ s ∈ segs, SegOk s) ∧ d.path = SegsToPath segs) ∧
  (∀ f ∈ d.files, ∃ b, SegOk b ∧ f.path = d.path ++ b) ∧
  d.files.Pairwise (fun f g =>
    ltL (Basename d.path.length f) (Basename d.path.length g)) ∧
  d.subdirs.Pairwise ltL ∧
  (∀ u ∈ d.unmatched, ∃ nm, SegOk nm ∧ nm ∉ d.subdirs ∧
    ((u = d.path ++ nm ∧ ∀ f ∈ d.files, Basename d.path.length f ≠ nm) ∨
     u = d.path ++ nm ++ ['/'])) ∧
  d.unmatched.Nodup ∧
  (∀ fd raw, fs.dirs d.path = some fd → fd.listing = some raw →
    (raw.map Prod.fst).Nodup ∧ ∀ p ∈ raw, SegOk p.1)

/-- The possible shapes of a dirty candidate contributed by one directory
node: the node's own path (scan failure), the node path extended by one
slash-free name (a tracked or listed file), or the node path extended by a
name and a slash (a listed directory that is not one of the node's
subdirectories). -/
def CandShape (d : IndexDir) (c : List Char) : Prop :=
  c = d.path ∨ ∃ nm, SegOk nm ∧
    (c = d.path ++ nm ∨ (c = d.path ++ nm ++ ['/'] ∧ nm ∉ d.subdirs))

/-! ### Concrete fixtures for the worked examples -/

/-- Tracked record `a.txt` of the deletion/addition scenario. -/
def exA : Entry := { path := "a.txt".toList, ino := 1, size := 10 }

/-- Tracked record `dir/b.txt` of the deletion/addition scenario. -/
def exB : Entry := { path := "dir/b.txt".toList, ino := 2, size := 20 }

/-- Tracked record `z.txt`, deleted on disk in the counterexample. -/
def exZ : Entry := { path := "z.txt".toList, ino := 3, size := 5 }

/-- Filesystem of the deletion/addition scenario: `a.txt` unchanged on
disk, `dir/` contains only the new `c.txt`. -/
def exFsC1 : Fs :=
  { dirs := fun p =>
      if p = [] then
        some { st := { ino := 100 },
               listing := some [("a.txt".toList, false), ("dir".toList, true)] }
      else if p = "dir/".toList then
        some { st := { ino := 101 }, listing := some [("c.txt".toList, false)] }
      else none
    fstat := fun p => if p = "a.txt".toList then some { ino := 1, size := 10 } else none }

/-- Filesystem of the C1 counterexample: the only real entry `a.txt` is
untracked; tracked `z.txt` is deleted from disk but byte-greater than
every real entry. -/
def exFsZ : Fs :=
  { dirs := fun p =>
      if p = [] then some { st := { ino := 100 }, listing := some [("a.txt".toList, false)] }
      else none
    fstat := fun _ => none }

/-- Filesystem of the C7 counterexample: tracked `a.txt` clean, untracked
`b.txt` present; nothing changes between the two scan calls. -/
def exFsU : Fs :=
  { dirs := fun p =>
      if p = [] then
        some { st := { ino := 100 },
               listing := some [("a.txt".toList, false), ("b.txt".toList, false)] }
      else none
    fstat := fun p => if p = "a.txt".toList then some { ino := 1, size := 10 } else none }

/-- Filesystem matching tracked `a.txt` exactly: both scan calls of the
C7 witness return no candidates. -/
def exFsClean : Fs :=
  { dirs := fun p =>
      if p = [] then
        some { st := { ino := 100 }, listing := some [("a.txt".toList, false)] }
      else none
    fstat := fun p => if p = "a.txt".toList then some { ino := 1, size := 10 } else none }

/-- The root node of the two-directory tree built from {a.txt, dir/b.txt}. -/
def exRoot8 : IndexDir := { subdirs := [['d', 'i', 'r']], files := [exA] }

/-- The `dir/` node of the two-directory tree. -/
def exDir8 : IndexDir := { path := "dir/".toList, depth := 1, files := [exB] }

/-- The record `a.txt` with the racy flag set, for the C2 witness. -/
def exARacy : Entry := { path := "a.txt".toList, ino := 1, size := 10, racy := true }

/-- The root node holding the racy `a.txt` record, for the C2 witness. -/
def exRootRacy : IndexDir :=
  { subdirs := ["dir".toList], files := [exARacy] }

/-! ### Order lemmas for byte-wise path comparison -/

theorem pfx_refl (p : List Char) : pfx p p := ⟨[], by simp⟩

theorem pfx_append (p t : List Char) : pfx p (p ++ t) := ⟨t, rfl⟩

theorem pfx_nil (s : List Char) : pfx [] s := ⟨s, rfl⟩

theorem pfx_trans {a b c : List Char} (h1 : pfx a b) (h2 : pfx b c) : pfx a c := by
  obtain ⟨t, rfl⟩ := h1; obtain ⟨u, rfl⟩ := h2
  exact ⟨t ++ u, by simp⟩

theorem pfx_length {p s : List Char} (h : pfx p s) : p.length ≤ s.length := by
  obtain ⟨t, rfl⟩ := h; simp

theorem pfx_antisymm {a b : List Char} (h1 : pfx a b) (h2 : pfx b a) : a = b := by
  obtain ⟨t, rfl⟩ := h1
  have ht := pfx_length h2
  simp at ht
  subst ht; simp

/-- Two prefixes of the same list are comparable. -/
theorem pfx_comparable {a b s : List Char} (ha : pfx a s) (hb : pfx b s)
    (h : a.length ≤ b.length) : pfx a b := by
  induction s generalizing a b with
  | nil =>
    obtain ⟨t, ht⟩ := ha
    have ha0 : a = [] := (List.append_eq_nil.mp ht.symm).1
    subst ha0; exact pfx_nil b
  | cons c cs ih =>
    obtain ⟨t, ht⟩ := ha
    cases a with
    | nil => exact pfx_nil b
    | cons x as =>
      injection ht with hx ht'
      cases b with
      | nil => simp at h
      | cons y bs =>
        obtain ⟨u, hu⟩ := hb
        injection hu with hy hu'
        simp only [List.length_cons, Nat.succ_le_succ_iff] at h
        obtain ⟨v, hv⟩ := ih ⟨t, ht'⟩ ⟨u, hu'⟩ h
        have hxy : x = y := hx.symm.trans hy
        exact ⟨v, by rw [← hxy, hv]; simp⟩

theorem cmpL_eq_iff (a b : List Char) : cmpL a b = .eq ↔ a = b := by
  induction a generalizing b with
  | nil => cases b <;> simp [cmpL]
  | cons x xs ih =>
    cases b with
    | nil => simp [cmpL]
    | cons y ys =>
      simp only [cmpL]
      rcases lt_trichotomy x y with h1 | h1 | h1
      · rw [if_pos h1]
        constructor
        · intro h; exact absurd h (by decide)
        · intro h
          injection h with hxy _
          exact absurd (hxy ▸ h1) (lt_irrefl y)
      · subst h1
        rw [if_neg (lt_irrefl x), if_neg (lt_irrefl x), ih]
        simp
      · rw [if_neg (lt_asymm h1), if_pos h1]
        constructor
        · intro h; exact absurd h (by decide)
        · intro h; injection h with hxy _; exact absurd (hxy ▸ h1) (lt_irrefl x)

theorem cmpL_self (a : List Char) : cmpL a a = .eq := (cmpL_eq_iff a a).mpr rfl

theorem cmpL_swap (a b : List Char) : cmpL a b = .lt ↔ cmpL b a = .gt := by
  induction a generalizing b with
  | nil => cases b <;> simp [cmpL]
  | cons x xs ih =>
    cases b with
    | nil => simp [cmpL]
    | cons y ys =>
      simp only [cmpL]
      rcases lt_trichotomy x y with h1 | h1 | h1
      · rw [if_pos h1, if_neg (lt_asymm h1), if_pos h1]; simp
      · subst h1
        rw [if_neg (lt_irrefl x), if_neg (lt_irrefl x), if_neg (lt_irrefl x),
          if_neg (lt_irrefl x)]
        exact ih ys
      · rw [if_neg (lt_asymm h1), if_pos h1, if_pos h1]; simp

theorem ltL_asymm {a b : List Char} (h : ltL a b) : ¬ ltL b a := by
  unfold ltL at *
  rw [cmpL_swap] at h
  intro h2; rw [h2] at h; cases h

theorem ltL_irrefl (a : List Char) : ¬ ltL a a := by
  intro h; unfold ltL at h; rw [cmpL_self a] at h; cases h

theorem ltL_ne {a b : List Char} (h : ltL a b) : a ≠ b := by
  rintro rfl; exact ltL_irrefl a h

theorem ltL_trans {a b c : List Char} (h1 : ltL a b) (h2 : ltL b c) : ltL a c := by
  unfold ltL at *
  induction a generalizing b c with
  | nil =>
    cases c with
    | nil =>
      cases b with
      | nil => exact h1
      | cons y ys => simp [cmpL] at h2
    | cons z zs => rfl
  | cons x xs ih =>
    cases b with
    | nil => simp [cmpL] at h1
    | cons y ys =>
      cases c with
      | nil => simp [cmpL] at h2
      | cons z zs =>
        simp only [cmpL] at h1 h2 ⊢
        rcases lt_trichotomy x y with hxy | hxy | hxy
        · rcases lt_trichotomy y z with hyz | hyz | hyz
          · rw [if_pos (lt_trans hxy hyz)]
          · subst hyz; rw [if_pos hxy]
          · rw [if_neg (lt_asymm hyz), if_pos hyz] at h2
            exact absurd h2 (by decide)
        · subst hxy
          rw [if_neg (lt_irrefl x), if_neg (lt_irrefl x)] at h1
          rcases lt_trichotomy x z with hxz | hxz | hxz
          · rw [if_pos hxz]
          · subst hxz
            rw [if_neg (lt_irrefl x), if_neg (lt_irrefl x)] at h2 ⊢
            exact ih h1 h2
          · rw [if_neg (lt_asymm hxz), if_pos hxz] at h2
            exact absurd h2 (by decide)
        · rw [if_neg (lt_asymm hxy), if_pos hxy] at h1
          exact absurd h1 (by decide)

theorem ltL_total (a b : List Char) : ltL a b ∨ a = b ∨ ltL b a := by
  rcases h : cmpL a b with _ | _ | _
  · exact Or.inl h
  · exact Or.inr (Or.inl ((cmpL_eq_iff a b).mp h))
  · exact Or.inr (Or.inr ((cmpL_swap b a).mpr h))

theorem leL_iff (a b : List Char) : leL a b ↔ ltL a b ∨ a = b := by
  unfold leL ltL
  rcases h : cmpL a b with _ | _ | _
  · simp
  · simp [(cmpL_eq_iff a b).mp h]
  · constructor
    · intro hc; exact absurd rfl hc
    · rintro (hc | rfl)
      · exact absurd hc (by decide)
      · rw [cmpL_self] at h; exact absurd h (by decide)

theorem ltL_le_trans {a b c : List Char} (h1 : ltL a b) (h2 : leL b c) : ltL a c := by
  rcases (leL_iff b c).mp h2 with h | rfl
  · exact ltL_trans h1 h
  · exact h1

theorem leL_lt_trans {a b c : List Char} (h1 : leL a b) (h2 : ltL b c) : ltL a c := by
  rcases (leL_iff a b).mp h1 with h | rfl
  · exact ltL_trans h h2
  · exact h2

theorem leL_refl (a : List Char) : leL a a := by
  unfold leL; rw [cmpL_self]; intro h; cases h

theorem ltL_le {a b : List Char} (h : ltL a b) : leL a b := by
  unfold leL ltL at *; rw [h]; intro hc; cases hc

theorem leL_trans {a b c : List Char} (h1 : leL a b) (h2 : leL b c) : leL a c := by
  rcases (leL_iff a b).mp h1 with h | rfl
  · rcases (leL_iff b c).mp h2 with h' | rfl
    · exact ltL_le (ltL_trans h h')
    · exact ltL_le h
  · exact h2

theorem leL_total (a b : List Char) : leL a b ∨ leL b a := by
  rcases ltL_total a b with h | rfl | h
  · exact Or.inl (ltL_le h)
  · exact Or.inl (leL_refl a)
  · exact Or.inr (ltL_le h)

theorem not_leL {a b : List Char} (h : ¬ leL a b) : ltL b a := by
  unfold leL at h
  push_neg at h
  exact (cmpL_swap b a).mpr h

theorem not_ltL {a b : List Char} (h : ¬ ltL a b) : leL b a := by
  rcases ltL_total a b with h' | rfl | h'
  · exact absurd h' h
  · exact leL_refl a
  · exact ltL_le h'

theorem leL_antisymm {a b : List Char} (h1 : leL a b) (h2 : leL b a) : a = b := by
  rcases (leL_iff a b).mp h1 with h | rfl
  · exact absurd ((cmpL_swap a b).mp h) h2
  · rfl

/-- Dropping a common front preserves the comparison verdict. -/
theorem cmpL_append_same (p a b : List Char) : cmpL (p ++ a) (p ++ b) = cmpL a b := by
  induction p with
  | nil => rfl
  | cons x xs ih => simp [cmpL, ih]

theorem ltL_append_iff (p a b : List Char) : ltL (p ++ a) (p ++ b) ↔ ltL a b := by
  unfold ltL; rw [cmpL_append_same]

theorem leL_append_iff (p a b : List Char) : leL (p ++ a) (p ++ b) ↔ leL a b := by
  unfold leL; rw [cmpL_append_same]

theorem append_left_cancel_ch {p a b : List Char} (h : p ++ a = p ++ b) : a = b := by
  induction p with
  | nil => exact h
  | cons x xs ih => injection h with _ h'; exact ih h'

/-- A proper prefix is strictly smaller in byte order. -/
theorem ltL_of_pfx_ne {p s : List Char} (h : pfx p s) (hne : p ≠ s) : ltL p s := by
  obtain ⟨t, rfl⟩ := h
  cases t with
  | nil => simp at hne
  | cons x xs =>
    have h0 : ltL [] (x :: xs) := by unfold ltL cmpL; rfl
    have h1 := (ltL_append_iff p [] (x :: xs)).mpr h0
    simpa using h1

theorem leL_of_pfx {p s : List Char} (h : pfx p s) : leL p s := by
  by_cases he : p = s
  · subst he; exact leL_refl p
  · exact ltL_le (ltL_of_pfx_ne h he)

/-- Interval lemma: a list sandwiched between two lists sharing a prefix
also carries that prefix. -/
theorem pfx_of_between {p a b c : List Char} (ha : pfx p a) (hc : pfx p c)
    (h1 : leL a b) (h2 : leL b c) : pfx p b := by
  induction p generalizing a b c with
  | nil => exact pfx_nil b
  | cons x xs ih =>
    obtain ⟨ta, rfl⟩ := ha
    obtain ⟨tc, rfl⟩ := hc
    cases b with
    | nil =>
      exfalso
      unfold leL at h1
      simp [cmpL] at h1
    | cons y ys =>
      have hxy : x = y := by
        unfold leL at h1 h2
        simp only [List.cons_append, cmpL] at h1 h2
        rcases lt_trichotomy x y with hlt | hlt | hlt
        · rw [if_neg (lt_asymm hlt), if_pos hlt] at h2
          exact absurd rfl h2
        · exact hlt
        · rw [if_neg (lt_asymm hlt), if_pos hlt] at h1
          exact absurd rfl h1
      subst hxy
      unfold leL at h1 h2
      simp only [List.cons_append, cmpL, if_neg (lt_irrefl x)] at h1 h2
      obtain ⟨t, ht⟩ := ih (pfx_append xs ta) (pfx_append xs tc) h1 h2
      exact ⟨t, by rw [List.cons_append, ht]⟩

/-! ### Basic facts about the model -/

theorem StatEq_refl (a : Stat) : StatEq a a = true := by
  simp [StatEq]

theorem subdirsSorted_iff (l : List (List Char)) :
    subdirsSorted l = true ↔ List.Chain' leL l := by
  match l with
  | [] => simp [subdirsSorted]
  | [a] => simp [subdirsSorted]
  | a :: b :: rest =>
    rw [List.chain'_cons]
    simp only [subdirsSorted, Bool.and_eq_true, Bool.not_eq_true']
    rw [subdirsSorted_iff (b :: rest)]
    unfold leL
    constructor
    · rintro ⟨h1, h2⟩
      refine ⟨?_, h2⟩
      intro hc
      rw [hc] at h1
      exact absurd h1 (by decide)
    · rintro ⟨h1, h2⟩
      refine ⟨?_, h2⟩
      rcases hcm : cmpL a b with _ | _ | _
      · decide
      · decide
      · exact absurd hcm h1

theorem scanOne_failure (fs : Fs) (uc : Bool) (d : IndexDir)
    (h : fs.dirs d.path = none) :
    scanOne fs uc d = ({ d with st := statZero, unmatched := [d.path] }, [d.path], {}) := by
  simp [scanOne, h]

theorem ScanDirs_append (fs : Fs) (uc : Bool) (l1 l2 : List IndexDir) :
    ScanDirs fs uc (l1 ++ l2) =
      ((ScanDirs fs uc l1).1 ++ (ScanDirs fs uc l2).1,
       (ScanDirs fs uc l1).2.1 ++ (ScanDirs fs uc l2).2.1,
       { listed := (ScanDirs fs uc l1).2.2.listed ++ (ScanDirs fs uc l2).2.2.listed,
         statted := (ScanDirs fs uc l1).2.2.statted ++ (ScanDirs fs uc l2).2.2.statted }) := by
  induction l1 with
  | nil => simp [ScanDirs]
  | cons d ds ih => simp [ScanDirs, ih]

theorem map_range_getD {α β : Type} (l : List α) (a : α) (f : α → β) :
    (List.range l.length).map (fun i => f (l.getD i a)) = l.map f := by
  induction l with
  | nil => simp
  | cons x xs ih =>
    rw [List.length_cons, List.range_succ_eq_map, List.map_cons, List.map_map]
    have hc : ((fun i => f ((x :: xs).getD i a)) ∘ Nat.succ) = fun i => f (xs.getD i a) := by
      funext i; simp
    rw [hc, ih]
    simp

/-! ### Characterization of the merge loop -/

theorem fileRun_lt (dlen : Nat) (n : List Char) (f : Entry) (fs : List Entry)
    (h : cmpL (Basename dlen f) n = .lt) :
    fileRun dlen n (f :: fs) =
      (f.path :: (fileRun dlen n fs).1, (fileRun dlen n fs).2.1, (fileRun dlen n fs).2.2) := by
  simp [fileRun, h]

theorem fileRun_eq (dlen : Nat) (n : List Char) (f : Entry) (fs : List Entry)
    (h : cmpL (Basename dlen f) n = .eq) :
    fileRun dlen n (f :: fs) = ([], some f, fs) := by
  simp [fileRun, h]

theorem fileRun_gt (dlen : Nat) (n : List Char) (f : Entry) (fs : List Entry)
    (h : cmpL (Basename dlen f) n = .gt) :
    fileRun dlen n (f :: fs) = ([], none, f :: fs) := by
  simp [fileRun, h]

/-- Decomposition of the inner file loop: the walked-over files `pre` all
have basenames below the entry, they are exactly the deleted pushes, a
matched file has the entry as basename, and the remaining files are the
untouched suffix. -/
theorem fileRun_spec (dlen : Nat) (n : List Char) (files : List Entry) :
    ∃ pre,
      files = pre ++ (fileRun dlen n files).2.1.toList ++ (fileRun dlen n files).2.2 ∧
      (fileRun dlen n files).1 = pre.map (fun f => f.path) ∧
      (∀ g ∈ pre, ltL (Basename dlen g) n) ∧
      (∀ f, (fileRun dlen n files).2.1 = some f → Basename dlen f = n) := by
  induction files with
  | nil => exact ⟨[], by simp [fileRun], by simp [fileRun], by simp, by simp [fileRun]⟩
  | cons f fs ih =>
    rcases hcmp : cmpL (Basename dlen f) n with _ | _ | _
    · obtain ⟨pre, h1, h2, h3, h4⟩ := ih
      rw [fileRun_lt dlen n f fs hcmp]
      refine ⟨f :: pre, ?_, ?_, ?_, ?_⟩
      · simpa using h1
      · simpa using h2
      · intro g hg
        rcases List.mem_cons.mp hg with rfl | hg2
        · exact hcmp
        · exact h3 g hg2
      · simpa using h4
    · rw [fileRun_eq dlen n f fs hcmp]
      refine ⟨[], by simp, by simp, by simp, ?_⟩
      intro g hg
      injection hg with hg
      exact hg ▸ (cmpL_eq_iff _ _).mp hcmp
    · rw [fileRun_gt dlen n f fs hcmp]
      exact ⟨[], by simp, by simp, by simp, by simp⟩

/-- With strictly sorted basenames, the inner loop matches exactly the file
whose basename equals the entry, whenever one is present. -/
theorem fileRun_finds (dlen : Nat) (n : List Char) (files : List Entry)
    (hp : files.Pairwise (fun f g => ltL (Basename dlen f) (Basename dlen g)))
    (f : Entry) (hf : f ∈ files) (hbase : Basename dlen f = n) :
    (fileRun dlen n files).2.1 = some f := by
  induction files with
  | nil => cases hf
  | cons g gs ih =>
    rcases List.pairwise_cons.mp hp with ⟨hg, hp'⟩
    rcases List.mem_cons.mp hf with rfl | hf2
    · rw [fileRun_eq dlen n f gs (by rw [hbase]; exact cmpL_self n)]
    · have hlt : ltL (Basename dlen g) n := hbase ▸ hg f hf2
      rw [fileRun_lt dlen n g gs hlt]
      exact ih hp' hf2

/-- The recursive tail of the merge appears at the end of every branch. -/
theorem mergeLoop_cons (fs : Fs) (dpath : List Char) (dlen : Nat)
    (n : List Char) (isDir : Bool) (es : List (List Char × Bool))
    (files : List Entry) (subdirs : List (List Char)) :
    mergeLoop fs dpath dlen ((n, isDir) :: es) files subdirs =
      { res := (mergeStep fs dpath dlen n isDir files subdirs).res ++
          (mergeLoop fs dpath dlen es (mergeStep fs dpath dlen n isDir files subdirs).files
            (mergeStep fs dpath dlen n isDir files subdirs).subdirs).res
        unmatched := (mergeStep fs dpath dlen n isDir files subdirs).unmatched ++
          (mergeLoop fs dpath dlen es (mergeStep fs dpath dlen n isDir files subdirs).files
            (mergeStep fs dpath dlen n isDir files subdirs).subdirs).unmatched
        statted := (mergeStep fs dpath dlen n isDir files subdirs).statted ++
          (mergeLoop fs dpath dlen es (mergeStep fs dpath dlen n isDir files subdirs).files
            (mergeStep fs dpath dlen n isDir files subdirs).subdirs).statted } := by
  rfl

/-- Case analysis for one merge step: the four branches of the merge. -/
theorem mergeStep_cases (fs : Fs) (dpath : List Char) (dlen : Nat)
    (n : List Char) (isDir : Bool) (files : List Entry) (subdirs : List (List Char)) :
    (∃ f, (fileRun dlen n files).2.1 = some f ∧ f.racy = true ∧
      mergeStep fs dpath dlen n isDir files subdirs =
        { res := (fileRun dlen n files).1 ++ [f.path],
          files := (fileRun dlen n files).2.2, subdirs := subdirs }) ∨
    (∃ f, (fileRun dlen n files).2.1 = some f ∧ f.racy = false ∧
      mergeStep fs dpath dlen n isDir files subdirs =
        { res := (fileRun dlen n files).1 ++
            (if IsModified f (fstatD fs (dpath ++ n)) then [f.path] else []),
          statted := [dpath ++ n],
          files := (fileRun dlen n files).2.2, subdirs := subdirs }) ∨
    ((fileRun dlen n files).2.1 = none ∧ (subdirRun n subdirs).1 = true ∧
      mergeStep fs dpath dlen n isDir files subdirs =
        { res := (fileRun dlen n files).1,
          files := (fileRun dlen n files).2.2, subdirs := (subdirRun n subdirs).2 }) ∨
    ((fileRun dlen n files).2.1 = none ∧ (subdirRun n subdirs).1 = false ∧
      mergeStep fs dpath dlen n isDir files subdirs =
        { res := (fileRun dlen n files).1,
          unmatched := if unmatchedName n isDir = ['.', 'g', 'i', 't', '/'] then []
            else [dpath ++ unmatchedName n isDir],
          files := (fileRun dlen n files).2.2, subdirs := (subdirRun n subdirs).2 }) := by
  rcases hm : (fileRun dlen n files).2.1 with _ | f
  · rcases hs : (subdirRun n subdirs).1 with _ | _
    · refine Or.inr (Or.inr (Or.inr ⟨rfl, rfl, ?_⟩))
      simp [mergeStep, hm, hs]
    · refine Or.inr (Or.inr (Or.inl ⟨rfl, rfl, ?_⟩))
      simp [mergeStep, hm, hs]
  · rcases hr : f.racy with _ | _
    · refine Or.inr (Or.inl ⟨f, rfl, hr, ?_⟩)
      simp [mergeStep, hm, hr]
    · refine Or.inl ⟨f, rfl, hr, ?_⟩
      simp [mergeStep, hm, hr]

/-- Every file left over by the inner loop has its basename above the
entry (given sorted basenames). -/
theorem fileRun_rest_gt (dlen : Nat) (n : List Char) (files : List Entry)
    (hp : files.Pairwise (fun f g => ltL (Basename dlen f) (Basename dlen g))) :
    ∀ g ∈ (fileRun dlen n files).2.2, ltL n (Basename dlen g) := by
  induction files with
  | nil => simp [fileRun]
  | cons f fs ih =>
    rcases List.pairwise_cons.mp hp with ⟨hg, hp'⟩
    rcases hcmp : cmpL (Basename dlen f) n with _ | _ | _
    · rw [fileRun_lt dlen n f fs hcmp]
      exact ih hp'
    · rw [fileRun_eq dlen n f fs hcmp]
      intro g hgm
      have := hg g hgm
      rw [(cmpL_eq_iff _ _).mp hcmp] at this
      exact this
    · rw [fileRun_gt dlen n f fs hcmp]
      intro g hgm
      have hnf : ltL n (Basename dlen f) := (cmpL_swap n (Basename dlen f)).mpr hcmp
      rcases List.mem_cons.mp hgm with rfl | hgm2
      · exact hnf
      · exact ltL_trans hnf (hg g hgm2)

/-- Every merge branch keeps the deleted pushes of the inner loop at the
front of its result pushes. -/
theorem mergeStep_res_fr (fs : Fs) (dpath : List Char) (dlen : Nat)
    (n : List Char) (isDir : Bool) (files : List Entry) (subdirs : List (List Char)) :
    ∃ t, (mergeStep fs dpath dlen n isDir files subdirs).res =
      (fileRun dlen n files).1 ++ t := by
  rcases mergeStep_cases fs dpath dlen n isDir files subdirs with
    ⟨f, _, _, heq⟩ | ⟨f, _, _, heq⟩ | ⟨_, _, heq⟩ | ⟨_, _, heq⟩
  · rw [heq]; exact ⟨_, rfl⟩
  · rw [heq]; exact ⟨_, rfl⟩
  · rw [heq]; exact ⟨[], by simp⟩
  · rw [heq]; exact ⟨[], by simp⟩

/-- Every merge branch passes the remaining files of the inner loop on. -/
theorem mergeStep_files_eq (fs : Fs) (dpath : List Char) (dlen : Nat)
    (n : List Char) (isDir : Bool) (files : List Entry) (subdirs : List (List Char)) :
    (mergeStep fs dpath dlen n isDir files subdirs).files =
      (fileRun dlen n files).2.2 := by
  rcases mergeStep_cases fs dpath dlen n isDir files subdirs with
    ⟨f, _, _, heq⟩ | ⟨f, _, _, heq⟩ | ⟨_, _, heq⟩ | ⟨_, _, heq⟩ <;> rw [heq]

/-- The remaining files form a sublist (suffix) of the files. -/
theorem fileRun_rest_sublist (dlen : Nat) (n : List Char) (files : List Entry) :
    (fileRun dlen n files).2.2.Sublist files := by
  obtain ⟨pre, hdec, _, _, _⟩ := fileRun_spec dlen n files
  conv_rhs => rw [hdec]
  exact List.sublist_append_right _ _

/-- With sorted basenames, a tracked file that matches no real entry by
basename and is smaller than some real entry is pushed by the merge
(the deletion report of index.cc line 164). -/
theorem mergeLoop_deleted_mem (fs : Fs) (dpath : List Char) (dlen : Nat)
    (entries : List (List Char × Bool)) (files : List Entry) (subdirs : List (List Char))
    (hp : files.Pairwise (fun f g => ltL (Basename dlen f) (Basename dlen g)))
    (f : Entry) (hf : f ∈ files)
    (hno : ∀ p ∈ entries, p.1 ≠ Basename dlen f)
    (hgt : ∃ p ∈ entries, ltL (Basename dlen f) p.1) :
    f.path ∈ (mergeLoop fs dpath dlen entries files subdirs).res := by
  induction entries generalizing files subdirs with
  | nil => obtain ⟨p, hmem, _⟩ := hgt; cases hmem
  | cons e es ih =>
    obtain ⟨n, isDir⟩ := e
    rw [mergeLoop_cons]
    obtain ⟨pre, hdec, hdel, hprelt, hmeq⟩ := fileRun_spec dlen n files
    rcases (by rw [hdec] at hf; simpa using hf :
        f ∈ pre ∨ f ∈ (fileRun dlen n files).2.1.toList ∨ f ∈ (fileRun dlen n files).2.2)
      with hfp | hfm | hfr
    · -- pushed as deleted at this entry
      obtain ⟨t, ht⟩ := mergeStep_res_fr fs dpath dlen n isDir files subdirs
      have : f.path ∈ (mergeStep fs dpath dlen n isDir files subdirs).res := by
        rw [ht, hdel]
        exact List.mem_append_left _ (List.mem_map_of_mem _ hfp)
      simpa using Or.inl this
    · -- impossible: a matched file has the entry as basename
      exfalso
      rcases hm : (fileRun dlen n files).2.1 with _ | g
      · rw [hm] at hfm; cases hfm
      · rw [hm] at hfm
        simp at hfm
        subst hfm
        exact hno (n, isDir) (List.mem_cons_self _ _) ((hmeq f hm).symm)
    · -- still pending: recurse
      have hres := ih (mergeStep fs dpath dlen n isDir files subdirs).files
        (mergeStep fs dpath dlen n isDir files subdirs).subdirs
        ?_ ?_ ?_ ?_
      · simpa using Or.inr hres
      · rw [mergeStep_files_eq]
        exact hp.sublist (fileRun_rest_sublist dlen n files)
      · rw [mergeStep_files_eq]; exact hfr
      · intro p hpe; exact hno p (List.mem_cons_of_mem _ hpe)
      · obtain ⟨p, hmem, hplt⟩ := hgt
        rcases List.mem_cons.mp hmem with rfl | hmem2
        · exfalso
          have := fileRun_rest_gt dlen n files hp f hfr
          exact ltL_asymm this hplt
        · exact ⟨p, hmem2, hplt⟩

/-- With sorted basenames, a racy tracked file whose basename matches a
real entry is pushed by the merge without regard to its stat (the racy
report of index.cc line 167). -/
theorem mergeLoop_racy_mem (fs : Fs) (dpath : List Char) (dlen : Nat)
    (entries : List (List Char × Bool)) (files : List Entry) (subdirs : List (List Char))
    (hp : files.Pairwise (fun f g => ltL (Basename dlen f) (Basename dlen g)))
    (f : Entry) (hf : f ∈ files) (hr : f.racy = true)
    (hpres : ∃ b, (Basename dlen f, b) ∈ entries) :
    f.path ∈ (mergeLoop fs dpath dlen entries files subdirs).res := by
  induction entries generalizing files subdirs with
  | nil => obtain ⟨b, hmem⟩ := hpres; cases hmem
  | cons e es ih =>
    obtain ⟨n, isDir⟩ := e
    rw [mergeLoop_cons]
    by_cases hbn : Basename dlen f = n
    · -- matched here; racy, so pushed
      have hfind := fileRun_finds dlen n files hp f hf hbn
      rcases mergeStep_cases fs dpath dlen n isDir files subdirs with
        ⟨g, hg, hgr, heq⟩ | ⟨g, hg, hgr, heq⟩ | ⟨hg, _, _⟩ | ⟨hg, _, _⟩
      · rw [hfind] at hg
        injection hg with hg
        subst hg
        rw [heq]
        simp
      · rw [hfind] at hg
        injection hg with hg
        subst hg
        rw [hr] at hgr
        cases hgr
      · rw [hfind] at hg; cases hg
      · rw [hfind] at hg; cases hg
    · obtain ⟨pre, hdec, hdel, hprelt, hmeq⟩ := fileRun_spec dlen n files
      rcases (by rw [hdec] at hf; simpa using hf :
          f ∈ pre ∨ f ∈ (fileRun dlen n files).2.1.toList ∨ f ∈ (fileRun dlen n files).2.2)
        with hfp | hfm | hfr
      · obtain ⟨t, ht⟩ := mergeStep_res_fr fs dpath dlen n isDir files subdirs
        have : f.path ∈ (mergeStep fs dpath dlen n isDir files subdirs).res := by
          rw [ht, hdel]
          exact List.mem_append_left _ (List.mem_map_of_mem _ hfp)
        simpa using Or.inl this
      · exfalso
        rcases hm : (fileRun dlen n files).2.1 with _ | g
        · rw [hm] at hfm; cases hfm
        · rw [hm] at hfm
          simp at hfm
          subst hfm
          exact hbn (hmeq f hm)
      · have hres := ih (mergeStep fs dpath dlen n isDir files subdirs).files
          (mergeStep fs dpath dlen n isDir files subdirs).subdirs
          ?_ ?_ ?_
        · simpa using Or.inr hres
        · rw [mergeStep_files_eq]
          exact hp.sublist (fileRun_rest_sublist dlen n files)
        · rw [mergeStep_files_eq]; exact hfr
        · obtain ⟨b, hmem⟩ := hpres
          rcases List.mem_cons.mp hmem with hh | hmem2
          · exfalso; exact hbn (congrArg Prod.fst hh)
          · exact ⟨b, hmem2⟩

/-- With sorted basenames, a matched non-racy file whose fresh stat
mismatches its record is pushed by the merge (the modified report of
index.cc line 171). -/
theorem mergeLoop_modified_mem (fs : Fs) (dpath : List Char) (dlen : Nat)
    (entries : List (List Char × Bool)) (files : List Entry) (subdirs : List (List Char))
    (hp : files.Pairwise (fun f g => ltL (Basename dlen f) (Basename dlen g)))
    (f : Entry) (hf : f ∈ files) (hr : f.racy = false)
    (hmod : IsModified f (fstatD fs (dpath ++ Basename dlen f)) = true)
    (hpres : ∃ b, (Basename dlen f, b) ∈ entries) :
    f.path ∈ (mergeLoop fs dpath dlen entries files subdirs).res := by
  induction entries generalizing files subdirs with
  | nil => obtain ⟨b, hmem⟩ := hpres; cases hmem
  | cons e es ih =>
    obtain ⟨n, isDir⟩ := e
    rw [mergeLoop_cons]
    by_cases hbn : Basename dlen f = n
    · have hfind := fileRun_finds dlen n files hp f hf hbn
      rcases mergeStep_cases fs dpath dlen n isDir files subdirs with
        ⟨g, hg, hgr, heq⟩ | ⟨g, hg, hgr, heq⟩ | ⟨hg, _, _⟩ | ⟨hg, _, _⟩
      · rw [hfind] at hg
        injection hg with hg
        subst hg
        rw [hr] at hgr
        cases hgr
      · rw [hfind] at hg
        injection hg with hg
        subst hg
        rw [heq]
        rw [hbn] at hmod
        simp [hmod]
      · rw [hfind] at hg; cases hg
      · rw [hfind] at hg; cases hg
    · obtain ⟨pre, hdec, hdel, hprelt, hmeq⟩ := fileRun_spec dlen n files
      rcases (by rw [hdec] at hf; simpa using hf :
          f ∈ pre ∨ f ∈ (fileRun dlen n files).2.1.toList ∨ f ∈ (fileRun dlen n files).2.2)
        with hfp | hfm | hfr
      · obtain ⟨t, ht⟩ := mergeStep_res_fr fs dpath dlen n isDir files subdirs
        have : f.path ∈ (mergeStep fs dpath dlen n isDir files subdirs).res := by
          rw [ht, hdel]
          exact List.mem_append_left _ (List.mem_map_of_mem _ hfp)
        simpa using Or.inl this
      · exfalso
        rcases hm : (fileRun dlen n files).2.1 with _ | g
        · rw [hm] at hfm; cases hfm
        · rw [hm] at hfm
          simp at hfm
          subst hfm
          exact hbn (hmeq f hm)
      · have hres := ih (mergeStep fs dpath dlen n isDir files subdirs).files
          (mergeStep fs dpath dlen n isDir files subdirs).subdirs
          ?_ ?_ ?_
        · simpa using Or.inr hres
        · rw [mergeStep_files_eq]
          exact hp.sublist (fileRun_rest_sublist dlen n files)
        · rw [mergeStep_files_eq]; exact hfr
        · obtain ⟨b, hmem⟩ := hpres
          rcases List.mem_cons.mp hmem with hh | hmem2
          · exfalso; exact hbn (congrArg Prod.fst hh)
          · exact ⟨b, hmem2⟩

/-- The merge never stats a path whose matching files are all racy: the
racy report skips the stat altogether. -/
theorem mergeLoop_nostat (fs : Fs) (dpath : List Char) (dlen : Nat)
    (entries : List (List Char × Bool)) (files : List Entry) (subdirs : List (List Char))
    (b : List Char)
    (hracy : ∀ g ∈ files, Basename dlen g = b → g.racy = true) :
    (dpath ++ b) ∉ (mergeLoop fs dpath dlen entries files subdirs).statted := by
  induction entries generalizing files subdirs with
  | nil => simp [mergeLoop, MergeOut.statted]
  | cons e es ih =>
    obtain ⟨n, isDir⟩ := e
    rw [mergeLoop_cons]
    intro hmem
    simp only [List.mem_append] at hmem
    have hfsub : ∀ g ∈ (mergeStep fs dpath dlen n isDir files subdirs).files, g ∈ files := by
      rw [mergeStep_files_eq]
      exact fun g hg => (fileRun_rest_sublist dlen n files).mem hg
    rcases hmem with hmem | hmem
    · rcases mergeStep_cases fs dpath dlen n isDir files subdirs with
        ⟨g, hg, hgr, heq⟩ | ⟨g, hg, hgr, heq⟩ | ⟨_, _, heq⟩ | ⟨_, _, heq⟩
      · rw [heq] at hmem; cases hmem
      · rw [heq] at hmem
        simp only [List.mem_singleton] at hmem
        have hnb : n = b := (append_left_cancel_ch hmem).symm
        obtain ⟨pre, hdec, _, _, hmeq⟩ := fileRun_spec dlen n files
        have hgf : g ∈ files := by
          rw [hdec, hg]
          simp
        have := hracy g hgf (by rw [hmeq g hg]; exact hnb)
        rw [this] at hgr
        cases hgr
      · rw [heq] at hmem; cases hmem
      · rw [heq] at hmem; cases hmem
    · exact ih (mergeStep fs dpath dlen n isDir files subdirs).files
        (mergeStep fs dpath dlen n isDir files subdirs).subdirs
        (fun g hg hb => hracy g (hfsub g hg) hb) hmem

/-- Distinct files of a sorted directory have distinct basenames. -/
theorem pairwise_base_uniq (dlen : Nat) (files : List Entry)
    (hp : files.Pairwise (fun f g => ltL (Basename dlen f) (Basename dlen g))) :
    ∀ f ∈ files, ∀ g ∈ files, Basename dlen f = Basename dlen g → f = g := by
  induction files with
  | nil => intro f hf; cases hf
  | cons x xs ih =>
    rcases List.pairwise_cons.mp hp with ⟨hx, hp'⟩
    intro f hf g hg heq
    rcases List.mem_cons.mp hf with rfl | hf2 <;> rcases List.mem_cons.mp hg with rfl | hg2
    · rfl
    · exact absurd (heq ▸ hx g hg2) (ltL_irrefl _)
    · exact absurd (heq ▸ hx f hf2) (ltL_irrefl _)
    · exact ih hp' f hf2 g hg2 heq

/-- Full-rescan branch of scanOne, spelled out. -/
theorem scanOne_full (fs : Fs) (uc : Bool) (d : IndexDir) (fd : FsDir)
    (raw : List (List Char × Bool)) (hd : fs.dirs d.path = some fd)
    (hlist : fd.listing = some raw) (hnc : (uc && StatEq fd.st d.st) = false) :
    scanOne fs uc d =
      ({ d with
          st := fd.st
          unmatched := (mergeLoop fs d.path d.path.length (sortEntries raw)
            d.files d.subdirs).unmatched },
       (mergeLoop fs d.path d.path.length (sortEntries raw) d.files d.subdirs).res ++
         (mergeLoop fs d.path d.path.length (sortEntries raw) d.files d.subdirs).unmatched,
       { listed := [d.path],
         statted := (mergeLoop fs d.path d.path.length (sortEntries raw)
           d.files d.subdirs).statted }) := by
  simp [scanOne, hd, hnc, hlist]

/-! ### Claim C2: racy entries -/

/-- C2: on a full rescan (cache fast path not taken), a tracked record
that is racy (timestamp not older than the index's generation time) and
whose basename matches a real directory entry is reported as a dirty
candidate, and its path is never passed to fstatat — no stat comparison is
made, so it is reported even when its on-disk metadata matches exactly. -/
theorem racy_reported_c2 (fs : Fs) (uc : Bool) (d : IndexDir) (fd : FsDir)
    (raw : List (List Char × Bool))
    (hd : fs.dirs d.path = some fd) (hlist : fd.listing = some raw)
    (hnc : (uc && StatEq fd.st d.st) = false)
    (hp : d.files.Pairwise (fun f g =>
      ltL (Basename d.path.length f) (Basename d.path.length g)))
    (f : Entry) (hf : f ∈ d.files) (hr : f.racy = true)
    (hpres : ∃ b, (Basename d.path.length f, b) ∈ raw) :
    f.path ∈ (scanOne fs uc d).2.1 ∧
    (d.path ++ Basename d.path.length f) ∉ (scanOne fs uc d).2.2.statted := by
  rw [scanOne_full fs uc d fd raw hd hlist hnc]
  constructor
  · apply List.mem_append_left
    apply mergeLoop_racy_mem fs d.path d.path.length (sortEntries raw)
      d.files d.subdirs hp f hf hr
    obtain ⟨b, hb⟩ := hpres
    exact ⟨b, by simpa [sortEntries] using hb⟩
  · apply mergeLoop_nostat
    intro g hg hbase
    have hgf : g = f :=
      pairwise_base_uniq d.path.length d.files hp g hg f hf hbase
    rw [hgf, hr]

/-- Witness for C2 at the deletion/addition fixture with `a.txt` made
racy: it is reported although its on-disk metadata matches its record, and
its path is never stat'd. -/
theorem racy_reported_c2_witness :
    "a.txt".toList ∈ (scanOne exFsC1 false exRootRacy).2.1 ∧
    ([] ++ "a.txt".toList) ∉ (scanOne exFsC1 false exRootRacy).2.2.statted :=
  racy_reported_c2 exFsC1 false exRootRacy
    { st := { ino := 100 }, listing := some [("a.txt".toList, false), ("dir".toList, true)] }
    [("a.txt".toList, false), ("dir".toList, true)]
    rfl rfl (by decide) (by decide)
    exARacy (by decide) rfl ⟨false, by decide⟩

/-! ### Claim C1: deletions in the merge -/

/-- C1 (amended): on a full rescan, a tracked file whose basename matches
no real directory entry is reported as deleted provided its basename is
byte-smaller than some real entry (a tracked file greater than every real
entry is silently skipped by the merge loop — see the counterexample); in
particular, for tracked `a.txt` (clean) and `dir/b.txt` against a real
tree with only `a.txt` and `dir/c.txt`, the candidates are exactly
`dir/b.txt` and `dir/c.txt`, sorted. -/
theorem deletion_reported_c1 :
    (∀ (fs : Fs) (uc : Bool) (d : IndexDir) (fd : FsDir)
        (raw : List (List Char × Bool)),
      fs.dirs d.path = some fd → fd.listing = some raw →
      (uc && StatEq fd.st d.st) = false →
      d.files.Pairwise (fun f g =>
        ltL (Basename d.path.length f) (Basename d.path.length g)) →
      ∀ f ∈ d.files,
        (∀ p ∈ raw, p.1 ≠ Basename d.path.length f) →
        (∃ p ∈ raw, ltL (Basename d.path.length f) p.1) →
        f.path ∈ (scanOne fs uc d).2.1) ∧
    (GetDirtyCandidates exFsC1 true (InitDirs [exA, exB])
        (InitSplits ((InitDirs [exA, exB]).map Weight) 1)).2 =
      ["dir/b.txt".toList, "dir/c.txt".toList] := by
  constructor
  · intro fs uc d fd raw hd hlist hnc hp f hf hno hgt
    rw [scanOne_full fs uc d fd raw hd hlist hnc]
    apply List.mem_append_left
    apply mergeLoop_deleted_mem fs d.path d.path.length (sortEntries raw)
      d.files d.subdirs hp f hf
    · intro p hpe
      exact hno p (by simpa [sortEntries] using hpe)
    · obtain ⟨p, hpe, hplt⟩ := hgt
      exact ⟨p, by simpa [sortEntries] using hpe, hplt⟩
  · decide

/-- Counterexample to C1 as stated: tracked `z.txt` is deleted from disk
and matches no real entry, yet it is not reported, because the merge loop
visits tracked files only while a real entry beyond them exists (`a.txt`
sorts below `z.txt`).  Only the untracked `a.txt` is reported. -/
theorem deletion_unreported_c1_counterexample :
    exZ ∈ ((InitDirs [exZ]).headD {}).files ∧
    (∀ p ∈ [("a.txt".toList, false)], p.1 ≠ "z.txt".toList) ∧
    (GetDirtyCandidates exFsZ true (InitDirs [exZ])
        (InitSplits ((InitDirs [exZ]).map Weight) 1)).2 = ["a.txt".toList] ∧
    "z.txt".toList ∉ (GetDirtyCandidates exFsZ true (InitDirs [exZ])
        (InitSplits ((InitDirs [exZ]).map Weight) 1)).2 := by
  refine ⟨by decide, by decide, by decide, by decide⟩

/-- Witness for C1: the general deletion statement applied to the node
`dir/` of the worked example, whose tracked `dir/b.txt` is reported. -/
theorem deletion_reported_c1_witness :
    "dir/b.txt".toList ∈
      (scanOne exFsC1 true { path := "dir/".toList, depth := 1, files := [exB] }).2.1 :=
  deletion_reported_c1.1 exFsC1 true
    { path := "dir/".toList, depth := 1, files := [exB] }
    { st := { ino := 101 }, listing := some [("c.txt".toList, false)] }
    [("c.txt".toList, false)]
    rfl rfl (by decide) (by decide)
    exB (by decide) (by decide)
    ⟨("c.txt".toList, false), by decide, by decide⟩

/-! ### Claim C7: idempotence under no filesystem change -/

/-- A directory whose scan reported nothing reports nothing again on an
unchanged filesystem: after a full rescan its cached stat matches, the
fast path triggers, and every re-stat'd file is clean; after a fast path
the node is unchanged, so the call repeats itself. -/
theorem scanOne_empty_stable (fs : Fs) (d : IndexDir)
    (hp : d.files.Pairwise (fun f g =>
      ltL (Basename d.path.length f) (Basename d.path.length g)))
    (hpres : ∀ f ∈ d.files, ∀ fd raw, fs.dirs d.path = some fd →
      fd.listing = some raw → ∃ b, (Basename d.path.length f, b) ∈ raw)
    (h1 : (scanOne fs true d).2.1 = []) :
    (scanOne fs true (scanOne fs true d).1).2.1 = [] := by
  rcases hfd : fs.dirs d.path with _ | fd
  · rw [scanOne_failure fs true d hfd] at h1
    cases h1
  · rcases hbr : StatEq fd.st d.st with _ | _
    · rcases hls : fd.listing with _ | raw
      · have heq : scanOne fs true d =
            ({ d with st := statZero, unmatched := [d.path] }, [d.path],
             { listed := [d.path], statted := [] }) := by
          simp [scanOne, hfd, hbr, hls]
        rw [heq] at h1
        cases h1
      · have hnc : (true && StatEq fd.st d.st) = false := by simp [hbr]
        have heq := scanOne_full fs true d fd raw hfd hls hnc
        rw [heq] at h1 ⊢
        obtain ⟨hres, hunm⟩ := List.append_eq_nil.mp h1
        simp only [hunm]
        have hclean : ∀ f ∈ d.files,
            IsModified f (fstatD fs (d.path ++ Basename d.path.length f)) = false := by
          intro f hf
          obtain ⟨b, hb⟩ := hpres f hf fd raw hfd hls
          have hbS : (Basename d.path.length f, b) ∈ sortEntries raw := by
            simpa [sortEntries] using hb
          rcases hracy : f.racy with _ | _
          · by_contra hmod
            rw [Bool.not_eq_false] at hmod
            have := mergeLoop_modified_mem fs d.path d.path.length (sortEntries raw)
              d.files d.subdirs hp f hf hracy hmod ⟨b, hbS⟩
            rw [hres] at this
            cases this
          · exfalso
            have := mergeLoop_racy_mem fs d.path d.path.length (sortEntries raw)
              d.files d.subdirs hp f hf hracy ⟨b, hbS⟩
            rw [hres] at this
            cases this
        have hfilter : (d.files.filter (fun f =>
            IsModified f (fstatD fs (d.path ++ Basename d.path.length f)))) = [] := by
          apply List.filter_eq_nil_iff.mpr
          intro f hf
          rw [hclean f hf]
          exact Bool.false_ne_true
        simp [scanOne, hfd, StatEq_refl, hfilter]
    · -- fast path taken on the first call: the node is unchanged and the
      -- second call repeats the first verbatim
      have heq : (scanOne fs true d).1 = d := by
        simp [scanOne, hfd, hbr]
      rw [heq]
      exact h1

/-- C7 (amended): with the untracked-cache fast path enabled and an
unchanged filesystem, if the first scan call returns no candidates and
every tracked file's basename appears among its directory's real entries,
the second scan call also returns no candidates.  (As stated the claim is
false: the fast path re-reports cached unmatched paths, see the
counterexample.)  Second conjunct: a freshly built node (cached stat zero)
never takes the fast path against a real directory stat with a nonzero
inode, so the first call is a full rescan. -/
theorem second_scan_empty_c7 :
    (∀ (fs : Fs) (ds : List IndexDir),
      (∀ d ∈ ds, d.files.Pairwise (fun f g =>
        ltL (Basename d.path.length f) (Basename d.path.length g))) →
      (∀ d ∈ ds, ∀ f ∈ d.files, ∀ fd raw, fs.dirs d.path = some fd →
        fd.listing = some raw → ∃ b, (Basename d.path.length f, b) ∈ raw) →
      (ScanDirs fs true ds).2.1 = [] →
      (ScanDirs fs true (ScanDirs fs true ds).1).2.1 = []) ∧
    (∀ st : Stat, st.ino ≠ 0 → StatEq st statZero = false) := by
  constructor
  · intro fs ds hp hpres h1
    induction ds with
    | nil => simp [ScanDirs]
    | cons d ds ih =>
      have hcons : (ScanDirs fs true (d :: ds)).2.1 =
          (scanOne fs true d).2.1 ++ (ScanDirs fs true ds).2.1 := rfl
      rw [hcons] at h1
      obtain ⟨hd1, hds1⟩ := List.append_eq_nil.mp h1
      have hgoal : (ScanDirs fs true (ScanDirs fs true (d :: ds)).1).2.1 =
          (scanOne fs true (scanOne fs true d).1).2.1 ++
            (ScanDirs fs true (ScanDirs fs true ds).1).2.1 := rfl
      rw [hgoal]
      rw [scanOne_empty_stable fs d (hp d (List.mem_cons_self d ds))
        (hpres d (List.mem_cons_self d ds)) hd1]
      rw [ih (fun x hx => hp x (List.mem_cons_of_mem d hx))
        (fun x hx => hpres x (List.mem_cons_of_mem d hx)) hds1]
      rfl
  · intro st hino
    simp [StatEq, statZero, hino]

/-- Counterexample to C7 as stated: the working tree (clean tracked a.txt
plus untracked b.txt) is unchanged between the two calls on the same tree,
the fast path is enabled, yet the second call again reports b.txt — the
fast path re-pushes the cached unmatched paths — so it is not empty. -/
theorem second_scan_nonempty_c7_counterexample :
    (GetDirtyCandidates exFsU true (InitDirs [exA])
        (InitSplits ((InitDirs [exA]).map Weight) 1)).2 = ["b.txt".toList] ∧
    (GetDirtyCandidates exFsU true
        (GetDirtyCandidates exFsU true (InitDirs [exA])
          (InitSplits ((InitDirs [exA]).map Weight) 1)).1
        (InitSplits ((InitDirs [exA]).map Weight) 1)).2 = ["b.txt".toList] := by
  refine ⟨by decide, by decide⟩

/-- Witness for C7 on a clean working tree: both calls return nothing. -/
theorem second_scan_empty_c7_witness :
    (ScanDirs exFsClean true (ScanDirs exFsClean true (InitDirs [exA])).1).2.1 = [] := by
  apply second_scan_empty_c7.1 exFsClean (InitDirs [exA])
  · intro d hd
    have hl : InitDirs [exA] = [{ files := [exA] }] := by decide
    rw [hl] at hd
    have hd2 := List.mem_singleton.mp hd
    subst hd2
    exact List.pairwise_singleton _ _
  · intro d hd f hf fd raw hfd hraw
    have hl : InitDirs [exA] = [{ files := [exA] }] := by decide
    rw [hl] at hd
    have hd2 := List.mem_singleton.mp hd
    subst hd2
    have hf2 : f = exA := by
      have : f ∈ [exA] := hf
      exact List.mem_singleton.mp this
    subst hf2
    have hfd2 : fd = { st := { ino := 100 }, listing := some [("a.txt".toList, false)] } := by
      have : exFsClean.dirs [] =
          some { st := { ino := 100 }, listing := some [("a.txt".toList, false)] } := rfl
      rw [this] at hfd
      injection hfd with hfd
      exact hfd.symm
    subst hfd2
    have hraw2 : raw = [("a.txt".toList, false)] := by
      injection hraw with hraw
      exact hraw.symm
    subst hraw2
    exact ⟨false, by decide⟩
  · decide

/-! ### Segment-level path lemmas for the tree construction -/

theorem SegsToPath_cons (s : List Char) (segs : List (List Char)) :
    SegsToPath (s :: segs) = s ++ '/' :: SegsToPath segs := by
  simp [SegsToPath]

theorem SegsToPath_append (a b : List (List Char)) :
    SegsToPath (a ++ b) = SegsToPath a ++ SegsToPath b := by
  simp [SegsToPath]

theorem pfx_mem {p q : List Char} (h : pfx p q) {c : Char} (hc : c ∈ p) : c ∈ q := by
  obtain ⟨t, rfl⟩ := h
  exact List.mem_append_left t hc

theorem seg_slash_inj {s t x y : List Char} (hs : '/' ∉ s) (ht : '/' ∉ t)
    (h : s ++ '/' :: x = t ++ '/' :: y) : s = t ∧ x = y := by
  induction s generalizing t with
  | nil =>
    cases t with
    | nil => simp at h; exact ⟨rfl, h⟩
    | cons c t' =>
      exfalso
      simp only [List.nil_append, List.cons_append] at h
      injection h with hc _
      apply ht
      rw [← hc]
      exact List.mem_cons_self _ _
  | cons c s' ih =>
    cases t with
    | nil =>
      exfalso
      simp only [List.cons_append, List.nil_append] at h
      injection h with hc _
      apply hs
      rw [hc]
      exact List.mem_cons_self _ _
    | cons c' t' =>
      simp only [List.cons_append] at h
      injection h with hc h'
      have hs' : '/' ∉ s' := fun hm => hs (List.mem_cons_of_mem c hm)
      have ht' : '/' ∉ t' := fun hm => ht (List.mem_cons_of_mem c' hm)
      obtain ⟨h1, h2⟩ := ih hs' ht' h'
      exact ⟨by rw [hc, h1], h2⟩

theorem seg_slash_pfx {s t x y : List Char} (hs : '/' ∉ s) (ht : '/' ∉ t)
    (h : pfx (s ++ '/' :: x) (t ++ '/' :: y)) : s = t ∧ pfx x y := by
  obtain ⟨tail, heq⟩ := h
  have heq2 : t ++ '/' :: y = s ++ '/' :: (x ++ tail) := by
    rw [heq]; simp
  obtain ⟨h1, h2⟩ := seg_slash_inj ht hs heq2
  exact ⟨h1.symm, ⟨tail, h2⟩⟩

/-- Unique parsing: a directory path that is a string prefix of a valid
file path is a segment-list prefix of it. -/
theorem parse_pfx (segs1 segs2 : List (List Char)) (base : List Char)
    (h1 : ∀ s ∈ segs1, SegOk s) (h2 : ∀ s ∈ segs2, SegOk s) (hbase : '/' ∉ base)
    (h : pfx (SegsToPath segs1) (SegsToPath segs2 ++ base)) :
    segs1 = segs2.take segs1.length ∧ segs1.length ≤ segs2.length := by
  induction segs1 generalizing segs2 with
  | nil => exact ⟨rfl, Nat.zero_le _⟩
  | cons s ss ih =>
    cases segs2 with
    | nil =>
      exfalso
      rw [SegsToPath_cons] at h
      simp only [SegsToPath, List.map_nil, List.flatten_nil, List.nil_append] at h
      have : '/' ∈ base := pfx_mem h (by simp)
      exact hbase this
    | cons t ts =>
      rw [SegsToPath_cons] at h
      rw [SegsToPath_cons] at h
      have hss : '/' ∉ s := (h1 s (List.mem_cons_self s ss)).2
      have hts : '/' ∉ t := (h2 t (List.mem_cons_self t ts)).2
      have h' : pfx (s ++ '/' :: SegsToPath ss) (t ++ '/' :: (SegsToPath ts ++ base)) := by
        simpa using h
      obtain ⟨hst, hp⟩ := seg_slash_pfx hss hts h'
      obtain ⟨ha, hb⟩ := ih ts (fun u hu => h1 u (List.mem_cons_of_mem s hu))
        (fun u hu => h2 u (List.mem_cons_of_mem t hu)) hp
      subst hst
      refine ⟨?_, by simpa using Nat.succ_le_succ hb⟩
      simp only [List.length_cons, List.take_succ_cons]
      rw [← ha]

theorem commonSegs_length_le (a b : List (List Char)) :
    (commonSegs a b).length ≤ a.length ∧ (commonSegs a b).length ≤ b.length := by
  induction a generalizing b with
  | nil => cases b <;> simp [commonSegs]
  | cons s ss ih =>
    cases b with
    | nil => simp [commonSegs]
    | cons t ts =>
      by_cases hst : s = t
      · simp only [commonSegs, if_pos hst, List.length_cons]
        exact ⟨Nat.succ_le_succ (ih ts).1, Nat.succ_le_succ (ih ts).2⟩
      · simp [commonSegs, hst]

theorem commonSegs_take_left (a b : List (List Char)) :
    commonSegs a b = a.take (commonSegs a b).length := by
  induction a generalizing b with
  | nil => cases b <;> simp [commonSegs]
  | cons s ss ih =>
    cases b with
    | nil => simp [commonSegs]
    | cons t ts =>
      by_cases hst : s = t
      · simp only [commonSegs, if_pos hst, List.length_cons, List.take_succ_cons]
        rw [← ih ts]
      · simp [commonSegs, hst]

theorem commonSegs_ge_of_take {a b : List (List Char)} {j : Nat}
    (hja : j ≤ a.length) (hjb : j ≤ b.length) (h : a.take j = b.take j) :
    j ≤ (commonSegs a b).length := by
  induction j generalizing a b with
  | zero => exact Nat.zero_le _
  | succ k ih =>
    cases a with
    | nil => simp at hja
    | cons s ss =>
      cases b with
      | nil => simp at hjb
      | cons t ts =>
        simp only [List.take_succ_cons] at h
        injection h with h1 h2
        simp only [List.length_cons, Nat.succ_le_succ_iff] at hja hjb
        simp only [commonSegs, if_pos h1, List.length_cons]
        exact Nat.succ_le_succ (ih hja hjb h2)

/-! ### CommonDir against the segment structure -/

theorem CommonDir_no_slash {a b : List Char} (hb : '/' ∉ b) :
    CommonDir a b = (0, 0) := by
  induction a generalizing b with
  | nil => cases b <;> rfl
  | cons c a' ih =>
    cases b with
    | nil => rfl
    | cons d b' =>
      by_cases hcd : c = d
      · have hd : ¬ d = '/' := fun hc => hb (by rw [hc]; exact List.mem_cons_self _ _)
        have hb' : '/' ∉ b' := fun hm => hb (List.mem_cons_of_mem d hm)
        simp only [CommonDir, if_pos hcd, ih hb']
        rw [if_neg (hcd ▸ hd)]
        simp
      · simp [CommonDir, hcd]

theorem CommonDir_cons_seg {q a b : List Char} (hq : '/' ∉ q) :
    CommonDir (q ++ '/' :: a) (q ++ '/' :: b) =
      ((CommonDir a b).1 + (q.length + 1), (CommonDir a b).2 + 1) := by
  induction q with
  | nil => simp only [List.nil_append]; rfl
  | cons c q' ih =>
    have hc : ¬ c = '/' := fun hcc => hq (by rw [hcc]; exact List.mem_cons_self _ _)
    have hq' : '/' ∉ q' := fun hm => hq (List.mem_cons_of_mem c hm)
    have hne2 : ¬ ((CommonDir a b).1 + (q'.length + 1), (CommonDir a b).2 + 1).2 = 0 := by
      simp
    simp only [List.cons_append, CommonDir, List.append_eq, ih hq', eq_self_iff_true,
      if_true, hc, if_false, hne2]
    simp only [Prod.mk.injEq, List.length_cons]
    constructor
    · omega
    · trivial

theorem CommonDir_diverge {s t x y : List Char} (hs : '/' ∉ s) (ht : '/' ∉ t)
    (hne : s ≠ t) :
    CommonDir (s ++ '/' :: x) (t ++ '/' :: y) = (0, 0) := by
  induction s generalizing t with
  | nil =>
    cases t with
    | nil => exact absurd rfl hne
    | cons c t' =>
      have hc : ¬ ('/' : Char) = c := by
        intro hcc
        exact ht (by rw [← hcc]; exact List.mem_cons_self _ _)
      simp [CommonDir, hc]
  | cons c s' ih =>
    cases t with
    | nil =>
      have hc : ¬ c = '/' := fun hcc => hs (by rw [hcc]; exact List.mem_cons_self _ _)
      simp [CommonDir, hc]
    | cons d t' =>
      by_cases hcd : c = d
      · subst hcd
        have hs' : '/' ∉ s' := fun hm => hs (List.mem_cons_of_mem c hm)
        have ht' : '/' ∉ t' := fun hm => ht (List.mem_cons_of_mem c hm)
        have hne' : s' ≠ t' := fun hcc => hne (by rw [hcc])
        have hc : ¬ c = '/' := fun hcc => hs (by rw [hcc]; exact List.mem_cons_self _ _)
        have hrec := ih hs' ht' hne'
        simp only [List.cons_append, CommonDir, if_pos rfl, hrec]
        rw [if_neg hc]
        simp [hrec]
      · simp [CommonDir, hcd]

/-- CommonDir on a directory path against a valid file path computes the
segment-wise common directory: its byte length and its depth. -/
theorem CommonDir_segs (segsP segsE : List (List Char)) (base : List Char)
    (hP : ∀ s ∈ segsP, SegOk s) (hE : ∀ s ∈ segsE, SegOk s) (hbase : '/' ∉ base) :
    CommonDir (SegsToPath segsP) (SegsToPath segsE ++ base) =
      ((SegsToPath (commonSegs segsP segsE)).length, (commonSegs segsP segsE).length) := by
  induction segsP generalizing segsE base with
  | nil =>
    cases segsE with
    | nil => simp [SegsToPath, commonSegs, CommonDir]
    | cons t ts =>
      have : CommonDir (SegsToPath []) (SegsToPath (t :: ts) ++ base) = (0, 0) := by
        cases hcase : SegsToPath (t :: ts) ++ base <;> rfl
      rw [this]
      simp [commonSegs, SegsToPath]
  | cons s ss ih =>
    cases segsE with
    | nil =>
      rw [CommonDir_no_slash (by simpa [SegsToPath] using hbase)]
      simp [commonSegs, SegsToPath]
    | cons t ts =>
      have hss : '/' ∉ s := (hP s (List.mem_cons_self s ss)).2
      have hts : '/' ∉ t := (hE t (List.mem_cons_self t ts)).2
      by_cases hst : s = t
      · subst hst
        rw [SegsToPath_cons, SegsToPath_cons]
        have heq : (s ++ '/' :: SegsToPath ts) ++ base = s ++ '/' :: (SegsToPath ts ++ base) := by
          simp
        rw [heq, CommonDir_cons_seg hss]
        rw [ih ts base (fun u hu => hP u (List.mem_cons_of_mem s hu))
          (fun u hu => hE u (List.mem_cons_of_mem s hu)) hbase]
        simp only [Prod.mk.injEq]
        constructor
        · simp [commonSegs, SegsToPath_cons]; omega
        · simp [commonSegs]
      · rw [SegsToPath_cons, SegsToPath_cons]
        have heq : (t ++ '/' :: SegsToPath ts) ++ base = t ++ '/' :: (SegsToPath ts ++ base) := by
          simp
        rw [heq, CommonDir_diverge hss hts hst]
        simp [commonSegs, hst, SegsToPath]

/-! ### The slash loop of stepEntry as a segment recursion -/

theorem slashPosAux_no_slash {q : List Char} (hq : '/' ∉ q) (i : Nat) :
    slashPosAux q i = [] := by
  induction q generalizing i with
  | nil => rfl
  | cons c rest ih =>
    have hc : ¬ c = '/' := fun h => hq (by rw [h]; exact List.mem_cons_self _ _)
    simp only [slashPosAux, if_neg hc]
    exact ih (fun hm => hq (List.mem_cons_of_mem c hm)) (i + 1)

theorem slashPosAux_seg {q : List Char} (hq : '/' ∉ q) (rest : List Char) (i : Nat) :
    slashPosAux (q ++ '/' :: rest) i =
      (i + q.length) :: slashPosAux rest (i + q.length + 1) := by
  induction q generalizing i with
  | nil => simp [slashPosAux]
  | cons c q' ih =>
    have hc : ¬ c = '/' := fun h => hq (by rw [h]; exact List.mem_cons_self _ _)
    have hq' : '/' ∉ q' := fun hm => hq (List.mem_cons_of_mem c hm)
    simp only [List.cons_append, slashPosAux, if_neg hc, List.append_eq]
    rw [ih hq' (i + 1)]
    have h1 : i + 1 + q'.length = i + (c :: q').length := by simp; omega
    rw [h1]

/-- The strchr fold of stepEntry equals the segment-wise recursion
`pushSegs` when the record's path decomposes into the stack top's path,
further segments, and a basename. -/
theorem pushFold_eq_pushSegs (e : List Char) (segsB : List (List Char)) :
    ∀ (a base : List Char) (top : IndexDir) (rest : List IndexDir),
      (∀ s ∈ segsB, SegOk s) → '/' ∉ base →
      top.path = a → e = a ++ SegsToPath segsB ++ base →
      (slashPositionsFrom e a.length).foldl (pushOne e) (top :: rest) =
        pushSegs a segsB (top :: rest) := by
  induction segsB with
  | nil =>
    intro a base top rest _ hbase htop he
    have hdrop : e.drop a.length = base := by
      rw [he]
      simp [SegsToPath]
    unfold slashPositionsFrom
    rw [hdrop, slashPosAux_no_slash hbase]
    rfl
  | cons t ts ih =>
    intro a base top rest hsegs hbase htop he
    have ht : SegOk t := hsegs t (List.mem_cons_self t ts)
    have hshape : e = (a ++ t ++ ['/']) ++ (SegsToPath ts ++ base) := by
      rw [he, SegsToPath_cons]
      simp
    have hlen : (a ++ t ++ ['/']).length = a.length + t.length + 1 := by
      simp only [List.length_append, List.length_cons, List.length_nil]
    have hdrop : e.drop a.length = t ++ '/' :: (SegsToPath ts ++ base) := by
      rw [he, SegsToPath_cons]
      have h2 : a ++ (t ++ '/' :: SegsToPath ts) ++ base =
          a ++ (t ++ '/' :: (SegsToPath ts ++ base)) := by simp
      rw [h2, List.drop_left]
    have hpos : slashPositionsFrom e a.length =
        (a.length + t.length) ::
          slashPosAux (SegsToPath ts ++ base) (a.length + t.length + 1) := by
      unfold slashPositionsFrom
      rw [hdrop, slashPosAux_seg ht.2]
    have hdrop2 : e.drop (a ++ t ++ ['/']).length = SegsToPath ts ++ base := by
      rw [hshape, List.drop_left]
    have hpos2 : slashPosAux (SegsToPath ts ++ base) (a.length + t.length + 1) =
        slashPositionsFrom e (a ++ t ++ ['/']).length := by
      unfold slashPositionsFrom
      rw [hdrop2, hlen]
    have htake : e.take (a.length + t.length) = a ++ t := by
      have h2 : e = (a ++ t) ++ ('/' :: (SegsToPath ts ++ base)) := by
        rw [hshape]; simp
      have hl : (a ++ t).length = a.length + t.length := by simp
      rw [h2, ← hl, List.take_left]
    have htake1 : e.take (a.length + t.length + 1) = a ++ t ++ ['/'] := by
      rw [hshape, ← hlen, List.take_left]
    have hstep : pushOne e (top :: rest) (a.length + t.length) =
        ({ path := a ++ t ++ ['/'], depth := (top :: rest).length } ::
          { top with subdirs := top.subdirs ++ [t] } :: rest) := by
      simp only [pushOne, htake, htake1, htop]
      rw [List.drop_left]
    rw [hpos, List.foldl_cons, hstep, hpos2]
    exact ih (a ++ t ++ ['/']) base _ _
      (fun s hs => hsegs s (List.mem_cons_of_mem t hs)) hbase rfl
      (by rw [hshape]; simp)

/-! ### Small order and list facts for the tree construction -/

theorem leL_ne_lt {a b : List Char} (h : leL a b) (hne : a ≠ b) : ltL a b :=
  ((leL_iff a b).mp h).resolve_right hne

theorem ne_append_right {p x : List Char} (hx : x ≠ []) : p ≠ p ++ x := by
  intro h
  have hl := congrArg List.length h
  simp only [List.length_append] at hl
  have : x.length = 0 := by omega
  exact hx (List.length_eq_zero.mp this)

theorem ext_not_pfx {a b ext : List Char} (he : ext ≠ []) (h : a = b ++ ext) :
    ¬ pfx a b := by
  rintro ⟨t, ht⟩
  rw [h, List.append_assoc] at ht
  exact ne_append_right (by simp [he]) ht

/-- Divergent leading segments decide the slash-augmented comparison: the
order of two paths that disagree in their first segment equals the order of
the two slash-terminated segments alone. -/
theorem ltL_seg_ext {s t x y : List Char} (hs : '/' ∉ s) (ht : '/' ∉ t)
    (hne : s ≠ t) (h : ltL (s ++ '/' :: x) (t ++ '/' :: y)) :
    ltL (s ++ ['/']) (t ++ ['/']) := by
  induction s generalizing t with
  | nil =>
    cases t with
    | nil => exact absurd rfl hne
    | cons c t' =>
      have hc : c ≠ '/' := fun hcc => ht (by rw [hcc]; exact List.mem_cons_self _ _)
      unfold ltL cmpL at h ⊢
      rcases lt_trichotomy '/' c with hlt | heq | hgt
      · simp only [List.nil_append, List.cons_append, if_pos hlt]
      · exact absurd heq.symm hc
      · simp only [List.nil_append, List.cons_append, if_neg (lt_asymm hgt),
          if_pos hgt] at h
        exact absurd h (by decide)
  | cons c s' ih =>
    cases t with
    | nil =>
      have hc : c ≠ '/' := fun hcc => hs (by rw [hcc]; exact List.mem_cons_self _ _)
      unfold ltL cmpL at h ⊢
      rcases lt_trichotomy c '/' with hlt | heq | hgt
      · simp only [List.cons_append, List.nil_append, if_pos hlt]
      · exact absurd heq hc
      · simp only [List.cons_append, List.nil_append, if_neg (lt_asymm hgt),
          if_pos hgt] at h
        exact absurd h (by decide)
    | cons d t' =>
      by_cases hcd : c = d
      · subst hcd
        have hs' : '/' ∉ s' := fun hm => hs (List.mem_cons_of_mem c hm)
        have ht' : '/' ∉ t' := fun hm => ht (List.mem_cons_of_mem c hm)
        have hne' : s' ≠ t' := fun hcc => hne (by rw [hcc])
        unfold ltL cmpL at h ⊢
        simp only [List.cons_append, if_neg (lt_irrefl c)] at h ⊢
        exact ih hs' ht' hne' h
      · unfold ltL cmpL at h ⊢
        rcases lt_trichotomy c d with hlt | heq | hgt
        · simp only [List.cons_append, if_pos hlt]
        · exact absurd heq hcd
        · simp only [List.cons_append, if_neg (lt_asymm hgt), if_pos hgt] at h
          exact absurd h (by decide)

theorem commonSegs_take_right (a b : List (List Char)) :
    commonSegs a b = b.take (commonSegs a b).length := by
  induction a generalizing b with
  | nil => cases b <;> simp [commonSegs]
  | cons s ss ih =>
    cases b with
    | nil => simp [commonSegs]
    | cons t ts =>
      by_cases hst : s = t
      · simp only [commonSegs, if_pos hst, List.length_cons, List.take_succ_cons]
        rw [← ih ts, hst]
      · simp [commonSegs, hst]

theorem SegsToPath_take_pfx (l : List (List Char)) (k : Nat) :
    pfx (SegsToPath (l.take k)) (SegsToPath l) := by
  conv_rhs => rw [← List.take_append_drop k l]
  rw [SegsToPath_append]
  exact pfx_append _ _

theorem ValidPath_ne_nil {p : List Char} (h : ValidPath p) : p ≠ [] := by
  obtain ⟨segs, base, _, hbase, rfl⟩ := h
  intro hc
  exact hbase.1 (List.append_eq_nil.mp hc).2

theorem ltL_nil {p : List Char} (h : p ≠ []) : ltL [] p := by
  cases p with
  | nil => exact absurd rfl h
  | cons c cs => unfold ltL cmpL; rfl

theorem popN_eq (k : Nat) : ∀ (st out : List IndexDir),
    popN k st out = (st.drop k, out ++ (st.take k).map finalizeDir) := by
  induction k with
  | zero => intro st out; simp [popN]
  | succ m ih =>
    intro st out
    cases st with
    | nil => simp [popN, popDir, ih]
    | cons t rest => simp [popN, popDir, ih]

theorem popAll_eq : ∀ (st out : List IndexDir),
    popAll st out = out ++ st.map finalizeDir := by
  intro st
  induction st with
  | nil => intro out; simp [popAll]
  | cons t rest ih => intro out; simp [popAll, ih]

theorem finalizeDir_path (d : IndexDir) : (finalizeDir d).path = d.path := rfl

theorem finalizeDir_depth (d : IndexDir) : (finalizeDir d).depth = d.depth := rfl

theorem finalizeDir_files (d : IndexDir) : (finalizeDir d).files = d.files := rfl

theorem FilesOk_finalizeDir (d : IndexDir) : FilesOk (finalizeDir d) ↔ FilesOk d :=
  Iff.rfl

/-- Finalizing a node whose subdirectory names arrived in strictly
increasing slash-augmented order yields a sorted duplicate-free name
list. -/
theorem finalize_sub {d : IndexDir} (h : SubdirsRawOk d) :
    SubdirsFinOk (finalizeDir d) := by
  obtain ⟨hok, hpair⟩ := h
  have hnd : d.subdirs.Nodup := by
    refine hpair.imp ?_
    intro a b hab
    intro hcc
    rw [hcc] at hab
    exact ltL_irrefl _ hab
  refine ⟨?_, ?_, ?_⟩
  · intro s hsmem
    have : s ∈ d.subdirs := by
      by_cases hsor : subdirsSorted d.subdirs = true
      · simpa [finalizeDir, hsor] using hsmem
      · have := (List.mem_insertionSort leL (l := d.subdirs)).mp
          (by simpa [finalizeDir, hsor] using hsmem)
        exact this
    exact hok s this
  · by_cases hsor : subdirsSorted d.subdirs = true
    · have hch := (subdirsSorted_iff d.subdirs).mp hsor
      haveI : IsTrans (List Char) leL := ⟨fun a b c => leL_trans⟩
      have : d.subdirs.Pairwise leL := List.chain'_iff_pairwise.mp hch
      simpa [finalizeDir, hsor] using this
    · have : (d.subdirs.insertionSort leL).Pairwise leL := by
        haveI : IsTotal (List Char) leL := ⟨leL_total⟩
        haveI : IsTrans (List Char) leL := ⟨fun a b c => leL_trans⟩
        exact List.sorted_insertionSort leL d.subdirs
      simpa [finalizeDir, hsor] using this
  · by_cases hsor : subdirsSorted d.subdirs = true
    · simpa [finalizeDir, hsor] using hnd
    · have hperm : (d.subdirs.insertionSort leL).Perm d.subdirs :=
        List.perm_insertionSort leL d.subdirs
      have := hperm.nodup_iff.mpr hnd
      simpa [finalizeDir, hsor] using this

/-! ### Facts about the open-directory chain -/

theorem chain_tail {d : IndexDir} {st : List IndexDir} (h : StackChain (d :: st)) :
    StackChain st := by
  cases st with
  | nil => trivial
  | cons p rest => exact h.2.2

theorem chain_drop {st : List IndexDir} (h : StackChain st) (n : Nat) :
    StackChain (st.drop n) := by
  induction n generalizing st with
  | zero => exact h
  | succ m ih =>
    cases st with
    | nil => trivial
    | cons d rest =>
      simp only [List.drop_succ_cons]
      exact ih (chain_tail h)

theorem chain_head_depth {t : IndexDir} {rest : List IndexDir}
    (h : StackChain (t :: rest)) : t.depth = rest.length := by
  induction rest generalizing t with
  | nil => exact h.2
  | cons p rs ih =>
    obtain ⟨_, hdep, hch⟩ := h
    rw [hdep, ih hch]
    rfl

theorem chain_congr_head {a b : IndexDir} {st : List IndexDir}
    (h : StackChain (a :: st)) (hp : b.path = a.path) (hd : b.depth = a.depth) :
    StackChain (b :: st) := by
  cases st with
  | nil => exact ⟨hp.trans h.1, hd.trans h.2⟩
  | cons p rest =>
    obtain ⟨⟨seg, hseg, hpath⟩, hdep, hch⟩ := h
    exact ⟨⟨seg, hseg, hp.trans hpath⟩, hd.trans hdep, hch⟩

theorem chain_ext {st : List IndexDir} (h : StackChain st) :
    st.Pairwise (fun a b => ∃ ext, ext ≠ [] ∧ a.path = b.path ++ ext) := by
  induction st with
  | nil => exact List.Pairwise.nil
  | cons c rest ih =>
    cases rest with
    | nil => simp
    | cons p rs =>
      obtain ⟨⟨seg, hseg, hpath⟩, _, hch⟩ := h
      have hprev := ih hch
      refine List.pairwise_cons.mpr ⟨?_, hprev⟩
      intro b hb
      rcases List.mem_cons.mp hb with rfl | hb2
      · exact ⟨seg ++ ['/'], by simp [hseg.1], by rw [hpath]; simp⟩
      · obtain ⟨ext, hne, hpe⟩ := (List.pairwise_cons.mp hprev).1 b hb2
        exact ⟨ext ++ seg ++ ['/'], by simp, by rw [hpath, hpe]; simp⟩

theorem chain_mem_depth_le {t : IndexDir} {rest : List IndexDir}
    (h : StackChain (t :: rest)) : ∀ d ∈ t :: rest, d.depth ≤ t.depth := by
  induction rest generalizing t with
  | nil =>
    intro d hd
    rcases List.mem_cons.mp hd with rfl | hd2
    · exact le_refl _
    · cases hd2
  | cons p rs ih =>
    obtain ⟨_, hdep, hch⟩ := h
    intro d hd
    rcases List.mem_cons.mp hd with rfl | hd2
    · exact le_refl _
    · have := ih hch d hd2
      omega

theorem chain_adj {st : List IndexDir} (h : StackChain st) :
    st.Chain' (fun a b => a.depth = b.depth + 1 ∧ pfx b.path a.path) := by
  induction st with
  | nil => exact List.chain'_nil
  | cons c rest ih =>
    cases rest with
    | nil => simp
    | cons p rs =>
      obtain ⟨⟨seg, _, hpath⟩, hdep, hch⟩ := h
      exact List.chain'_cons.mpr
        ⟨⟨hdep, ⟨seg ++ ['/'], by rw [hpath]; simp⟩⟩, ih hch⟩

/-- The chain below a stack head is the segment decomposition of the head's
path: every open node's path spells the first `depth` segments. -/
theorem chain_head_segs {t : IndexDir} {rest : List IndexDir}
    (h : StackChain (t :: rest)) :
    ∃ segs : List (List Char), (∀ s ∈ segs, SegOk s) ∧
      t.path = SegsToPath segs ∧ t.depth = segs.length ∧
      (∀ d ∈ t :: rest, d.path = SegsToPath (segs.take d.depth) ∧
        d.depth ≤ segs.length) := by
  induction rest generalizing t with
  | nil =>
    obtain ⟨hpath, hdep⟩ := h
    refine ⟨[], by simp, by simp [hpath, SegsToPath], by simp [hdep], ?_⟩
    intro d hd
    rcases List.mem_cons.mp hd with rfl | hd2
    · simp [hpath, hdep, SegsToPath]
    · cases hd2
  | cons p rs ih =>
    obtain ⟨⟨seg, hseg, hpath⟩, hdep, hch⟩ := h
    obtain ⟨segs0, hok0, hp0, hd0, hmem0⟩ := ih hch
    refine ⟨segs0 ++ [seg], ?_, ?_, ?_, ?_⟩
    · intro s hs
      rcases List.mem_append.mp hs with hs1 | hs2
      · exact hok0 s hs1
      · rw [List.mem_singleton.mp hs2]; exact hseg
    · rw [hpath, hp0, SegsToPath_append]
      simp [SegsToPath]
    · rw [hdep, hd0]; simp
    · intro d hd
      rcases List.mem_cons.mp hd with rfl | hd2
      · constructor
        · rw [hdep, hd0]
          have hfull : (segs0 ++ [seg]).take (segs0.length + 1) = segs0 ++ [seg] := by
            apply List.take_of_length_le
            simp
          rw [hfull, hpath, hp0, SegsToPath_append]
          simp [SegsToPath]
        · rw [hdep, hd0]; simp
      · obtain ⟨hpd, hdd⟩ := hmem0 d hd2
        constructor
        · rw [hpd]
          congr 1
          rw [List.take_append_of_le_length hdd]
        · simp; omega

/-- Dropping to a prescribed depth: the stack below the head, cut `n`
levels down, starts with a node `n` shallower. -/
theorem chain_drop_head {t : IndexDir} {rest : List IndexDir}
    (h : StackChain (t :: rest)) :
    ∀ n ≤ t.depth, ∃ u urest, (t :: rest).drop n = u :: urest ∧
      u.depth = t.depth - n := by
  intro n
  induction n generalizing t rest with
  | zero => intro _; exact ⟨t, rest, rfl, rfl⟩
  | succ m ih =>
    intro hle
    have hlen : t.depth = rest.length := chain_head_depth h
    cases rest with
    | nil => rw [hlen] at hle; cases hle
    | cons r rs =>
      obtain ⟨_, hdep, hch⟩ := h
      have hm : m ≤ r.depth := by omega
      obtain ⟨u, urest, hdrop, hud⟩ := ih hch hm
      refine ⟨u, urest, ?_, ?_⟩
      · simpa using hdrop
      · omega

/-! ### The pop phase of one record step -/

/-- Popping the stack down to the common depth preserves the loop
invariant: each popped node is finalized and appended to the output, and
all output-side properties are re-established. -/
theorem pop_phase (hpath epath : List Char) (c2 : Nat) (hhe : leL hpath epath) :
    ∀ (n : Nat) (st out : List IndexDir),
      PopInv c2 st out hpath epath →
      (∀ hh : st ≠ [], (st.head hh).depth = c2 + n) →
      PopInv c2 (st.drop n) (out ++ (st.take n).map finalizeDir) hpath epath := by
  intro n
  induction n with
  | zero =>
    intro st out inv _
    simpa using inv
  | succ k ih =>
    intro st out inv hdep
    cases st with
    | nil => exact absurd rfl inv.ne
    | cons t rest =>
      have htdep : t.depth = c2 + (k + 1) := by
        have := hdep (List.cons_ne_nil t rest)
        simpa using this
      have hlen : t.depth = rest.length := chain_head_depth inv.chain
      cases rest with
      | nil => simp at hlen; omega
      | cons r rs =>
        obtain ⟨⟨seg, hseg, hpathEq⟩, hdepEq, hchainRest⟩ := inv.chain
        have inv' : PopInv c2 (r :: rs) (out ++ [finalizeDir t]) hpath epath := by
          refine ⟨List.cons_ne_nil r rs, hchainRest, ?_, ?_, ?_, ?_, ?_, ?_, ?_, ?_,
            ?_, ?_, ?_, ?_, ?_, ?_⟩
          · exact fun d hd => inv.stack_pfx_h d (List.mem_cons_of_mem t hd)
          · exact fun d hd => inv.far d (List.mem_cons_of_mem t hd)
          · exact fun d hd => inv.stack_files d (List.mem_cons_of_mem t hd)
          · exact fun d hd => inv.stack_files_le d (List.mem_cons_of_mem t hd)
          · exact fun d hd => inv.stack_sub d (List.mem_cons_of_mem t hd)
          · exact fun d hd => inv.stack_sub_le d (List.mem_cons_of_mem t hd)
          · intro d hd s hs
            rcases inv.stack_sub_child d (List.mem_cons_of_mem t hd) s hs with
              ⟨x, hx, hxe⟩ | ⟨t2, ht2, ht2e⟩
            · exact Or.inl ⟨x, List.mem_append_left _ hx, hxe⟩
            · rcases List.mem_cons.mp ht2 with rfl | ht2b
              · exact Or.inl ⟨finalizeDir t2, List.mem_append_right _ (by simp),
                  by rw [finalizeDir_path]; exact ht2e⟩
              · exact Or.inr ⟨t2, ht2b, ht2e⟩
          · intro x hx
            rcases List.mem_append.mp hx with hx1 | hx2
            · exact inv.out_files x hx1
            · rw [List.mem_singleton.mp hx2]
              exact (FilesOk_finalizeDir t).mpr (inv.stack_files t (by simp))
          · intro x hx
            rcases List.mem_append.mp hx with hx1 | hx2
            · exact inv.out_sub x hx1
            · rw [List.mem_singleton.mp hx2]
              exact finalize_sub (inv.stack_sub t (by simp))
          · intro x hx d hd
            rcases List.mem_append.mp hx with hx1 | hx2
            · exact inv.out_no_pfx_stack x hx1 d (List.mem_cons_of_mem t hd)
            · rw [List.mem_singleton.mp hx2, finalizeDir_path]
              obtain ⟨ext, hne, hext⟩ :=
                (List.pairwise_cons.mp (chain_ext inv.chain)).1 d hd
              exact ext_not_pfx hne hext
          · refine List.pairwise_append.mpr ⟨inv.out_pairwise, by simp, ?_⟩
            intro x hx b hb
            rw [List.mem_singleton.mp hb, finalizeDir_path]
            exact inv.out_no_pfx_stack x hx t (by simp)
          · refine List.chain'_append.mpr ⟨inv.out_adj, by simp, ?_⟩
            intro x hx y hy
            have hy' : y = finalizeDir t := by
              have := hy
              simp only [List.head?_cons] at this
              exact (by simpa using this : finalizeDir t = y).symm
            subst hy'
            intro hdp
            exact (inv.out_last x (by simpa using hx) t rfl).2 hdp
          · intro y hy t2 ht2
            have hyft : y = finalizeDir t := by
              rw [List.getLast?_concat] at hy
              exact (Option.some.inj hy).symm
            have ht2r : t2 = r := by
              simp only [List.head?_cons] at ht2
              exact (Option.some.inj ht2).symm
            subst hyft
            subst ht2r
            constructor
            · rw [finalizeDir_depth]; omega
            · intro _
              rw [finalizeDir_path]
              exact ⟨seg ++ ['/'], by rw [hpathEq]; simp⟩
          · intro x hx f hef
            rcases List.mem_append.mp hx with hx1 | hx2
            · exact inv.out_sep2 x hx1 f hef
            · rw [List.mem_singleton.mp hx2, finalizeDir_path]
              intro hpf
              have hth : pfx t.path hpath := inv.stack_pfx_h t (by simp)
              have hmid : pfx t.path epath := pfx_of_between hth hpf hhe hef
              exact (inv.far t (by simp)).1 (by omega) hmid
        have hrdep : ∀ hh : (r :: rs) ≠ [], ((r :: rs).head hh).depth = c2 + k := by
          intro hh
          simp only [List.head_cons]
          omega
        have hmain := ih (r :: rs) (out ++ [finalizeDir t]) inv' hrdep
        simpa [List.append_assoc] using hmain

/-! ### The push phase of one record step -/

/-- Pushing one open node per remaining segment of the record's path
preserves the mid-step invariant; afterwards the stack top's path is the
record's full directory path. -/
theorem push_phase (e base : List Char) (hbase : SegOk base) :
    ∀ (segs : List (List Char)) (pref : List Char) (st out : List IndexDir),
      (∀ s ∈ segs, SegOk s) →
      MidInv st out e →
      (∀ hh : st ≠ [], (st.head hh).path = pref) →
      e = pref ++ SegsToPath segs ++ base →
      MidInv (pushSegs pref segs st) out e ∧
        ∀ hh : pushSegs pref segs st ≠ [],
          ((pushSegs pref segs st).head hh).path = pref ++ SegsToPath segs := by
  intro segs
  induction segs with
  | nil =>
    intro pref st out _ inv hpref _
    refine ⟨inv, ?_⟩
    intro hh
    have h1 : (st.head hh).path = pref := hpref hh
    show (st.head hh).path = pref ++ SegsToPath []
    rw [h1]
    simp [SegsToPath]
  | cons t ts ih =>
    intro pref st out hsegs inv hpref he
    cases st with
    | nil => exact absurd rfl inv.ne
    | cons top rest =>
      have htop : top.path = pref := by
        have := hpref (List.cons_ne_nil top rest)
        simpa using this
      have ht : SegOk t := hsegs t (List.mem_cons_self t ts)
      have hts : ∀ s ∈ ts, SegOk s := fun s hs => hsegs s (List.mem_cons_of_mem t hs)
      have htd : top.depth = rest.length := chain_head_depth inv.chain
      set nd : IndexDir := { path := pref ++ t ++ ['/'], depth := (top :: rest).length }
        with hndDef
      set top2 : IndexDir := { top with subdirs := top.subdirs ++ [t] } with htop2Def
      have hnd_path : nd.path = pref ++ t ++ ['/'] := rfl
      have hnd_files : nd.files = [] := rfl
      have hnd_sub : nd.subdirs = [] := rfl
      have hnd_depth : nd.depth = rest.length + 1 := rfl
      have htop2_path : top2.path = top.path := rfl
      have htop2_depth : top2.depth = top.depth := rfl
      have he' : e = (pref ++ t ++ ['/']) ++ SegsToPath ts ++ base := by
        rw [he, SegsToPath_cons]
        simp
      have he2 : e = top.path ++ (t ++ '/' :: (SegsToPath ts ++ base)) := by
        rw [he', htop]
        simp
      have hpfx_nd : pfx nd.path e :=
        ⟨SegsToPath ts ++ base, by rw [he', hnd_path]; simp⟩
      have hXne : SegsToPath ts ++ base ≠ [] := by
        intro hc
        exact hbase.1 (List.append_eq_nil.mp hc).2
      have hfnd : FilesOk nd := by
        constructor
        · intro f hf
          rw [hnd_files] at hf
          cases hf
        · rw [hnd_files]
          exact List.Pairwise.nil
      have hsnd : SubdirsRawOk nd := by
        constructor
        · intro s hs
          rw [hnd_sub] at hs
          cases hs
        · rw [hnd_sub]
          exact List.Pairwise.nil
      have hmid2 : MidInv (nd :: top2 :: rest) out e := by
        refine ⟨List.cons_ne_nil nd (top2 :: rest), ?_, ?_, ?_, ?_, ?_, ?_, ?_,
          inv.out_files, inv.out_sub, ?_, inv.out_pairwise, inv.out_adj, ?_,
          inv.out_sep2⟩
        · -- chain
          refine ⟨⟨t, ht, by rw [hnd_path, htop2_path, htop]⟩, ?_, ?_⟩
          · rw [hnd_depth, htop2_depth, htd]
          · exact chain_congr_head inv.chain htop2_path htop2_depth
        · -- pfx_e
          intro d hd
          rcases List.mem_cons.mp hd with rfl | hd2
          · exact hpfx_nd
          · rcases List.mem_cons.mp hd2 with rfl | hd3
            · rw [htop2_path]
              exact inv.pfx_e top (by simp)
            · exact inv.pfx_e d (List.mem_cons_of_mem top hd3)
        · -- stack_files
          intro d hd
          rcases List.mem_cons.mp hd with rfl | hd2
          · exact hfnd
          · rcases List.mem_cons.mp hd2 with rfl | hd3
            · exact inv.stack_files top (by simp)
            · exact inv.stack_files d (List.mem_cons_of_mem top hd3)
        · -- files_lt
          intro d hd f hf
          rcases List.mem_cons.mp hd with rfl | hd2
          · rw [hnd_files] at hf
            cases hf
          · rcases List.mem_cons.mp hd2 with rfl | hd3
            · exact inv.files_lt top (by simp) f hf
            · exact inv.files_lt d (List.mem_cons_of_mem top hd3) f hf
        · -- stack_sub
          intro d hd
          rcases List.mem_cons.mp hd with rfl | hd2
          · exact hsnd
          · rcases List.mem_cons.mp hd2 with rfl | hd3
            · obtain ⟨hok, hpair⟩ := inv.stack_sub top (by simp)
              constructor
              · intro s hs
                rcases List.mem_append.mp hs with hs1 | hs2
                · exact hok s hs1
                · rw [List.mem_singleton.mp hs2]
                  exact ht
              · refine List.pairwise_append.mpr ⟨hpair, by simp, ?_⟩
                intro s hs b hb
                rw [List.mem_singleton.mp hb]
                have h1 : ltL (top.path ++ s ++ ['/']) e :=
                  inv.sub_lt top (by simp) s hs
                rw [he2, List.append_assoc] at h1
                have h3 := (ltL_append_iff _ _ _).mp h1
                have hst : s ≠ t := by
                  intro hstEq
                  subst hstEq
                  rcases inv.sub_child top (by simp) s hs with
                    ⟨x, hx, hxe⟩ | ⟨d2, hd2c, hde⟩
                  · have hxp : pfx x.path e := by
                      rw [hxe]
                      exact ⟨SegsToPath ts ++ base, by rw [he2]; simp⟩
                    exact inv.out_sep2 x hx e (leL_refl e) hxp
                  · rcases List.mem_cons.mp hd2c with rfl | hd2b
                    · have hne2 : d2.path ≠ d2.path ++ (s ++ ['/']) :=
                        ne_append_right (by simp)
                      rw [List.append_assoc] at hde
                      exact hne2 hde
                    · obtain ⟨ext, hne2, hext⟩ :=
                        (List.pairwise_cons.mp (chain_ext inv.chain)).1 d2 hd2b
                      have hl1 := congrArg List.length hde
                      have hl2 := congrArg List.length hext
                      have hlp := List.length_pos.mpr hne2
                      simp only [List.length_append, List.length_cons,
                        List.length_nil] at hl1 hl2
                      omega
                exact ltL_seg_ext (hok s hs).2 ht.2 hst h3
            · exact inv.stack_sub d (List.mem_cons_of_mem top hd3)
        · -- sub_lt
          intro d hd s hs
          rcases List.mem_cons.mp hd with rfl | hd2
          · rw [hnd_sub] at hs
            cases hs
          · rcases List.mem_cons.mp hd2 with rfl | hd3
            · rcases List.mem_append.mp hs with hs1 | hs2
              · rw [htop2_path]
                exact inv.sub_lt top (by simp) s hs1
              · rw [List.mem_singleton.mp hs2, htop2_path]
                apply ltL_of_pfx_ne
                · exact ⟨SegsToPath ts ++ base, by rw [he2]; simp⟩
                · intro hc
                  have : e = (top.path ++ t ++ ['/']) ++ (SegsToPath ts ++ base) := by
                    rw [he2]
                    simp
                  rw [← hc] at this
                  exact ne_append_right hXne this
            · exact inv.sub_lt d (List.mem_cons_of_mem top hd3) s hs
        · -- sub_child
          intro d hd s hs
          rcases List.mem_cons.mp hd with rfl | hd2
          · rw [hnd_sub] at hs
            cases hs
          · rcases List.mem_cons.mp hd2 with rfl | hd3
            · rcases List.mem_append.mp hs with hs1 | hs2
              · rcases inv.sub_child top (by simp) s hs1 with
                  ⟨x, hx, hxe⟩ | ⟨d2, hd2c, hde⟩
                · exact Or.inl ⟨x, hx, by rw [htop2_path]; exact hxe⟩
                · rcases List.mem_cons.mp hd2c with rfl | hd2b
                  · exact Or.inr ⟨top2, by simp,
                      by rw [htop2_path, htop2_path]; exact hde⟩
                  · exact Or.inr ⟨d2, by simp [hd2b], by rw [htop2_path]; exact hde⟩
              · rw [List.mem_singleton.mp hs2]
                exact Or.inr ⟨nd, by simp,
                  by rw [hnd_path, htop2_path, htop]⟩
            · rcases inv.sub_child d (List.mem_cons_of_mem top hd3) s hs with
                ⟨x, hx, hxe⟩ | ⟨d2, hd2c, hde⟩
              · exact Or.inl ⟨x, hx, hxe⟩
              · rcases List.mem_cons.mp hd2c with rfl | hd2b
                · exact Or.inr ⟨top2, by simp, by rw [htop2_path]; exact hde⟩
                · exact Or.inr ⟨d2, by simp [hd2b], hde⟩
        · -- out_no_pfx_stack
          intro x hx d hd
          rcases List.mem_cons.mp hd with rfl | hd2
          · intro hp
            exact inv.out_sep2 x hx e (leL_refl e) (pfx_trans hp hpfx_nd)
          · rcases List.mem_cons.mp hd2 with rfl | hd3
            · rw [htop2_path]
              exact inv.out_no_pfx_stack x hx top (by simp)
            · exact inv.out_no_pfx_stack x hx d (List.mem_cons_of_mem top hd3)
        · -- out_last
          intro y hy t2 ht2
          have ht2nd : t2 = nd := by
            simp only [List.head?_cons] at ht2
            exact (Option.some.inj ht2).symm
          subst ht2nd
          obtain ⟨hle, _⟩ := inv.out_last y hy top rfl
          constructor
          · rw [hnd_depth]
            omega
          · intro hdp
            exfalso
            rw [hnd_depth] at hdp
            omega
      have hpref2 : ∀ hh : (nd :: top2 :: rest) ≠ [],
          ((nd :: top2 :: rest).head hh).path = pref ++ t ++ ['/'] := by
        intro hh
        exact hnd_path
      have hrec := ih (pref ++ t ++ ['/']) (nd :: top2 :: rest) out hts hmid2 hpref2 he'
      have hpush : pushSegs pref (t :: ts) (top :: rest) =
          pushSegs (pref ++ t ++ ['/']) ts (nd :: top2 :: rest) := rfl
      rw [hpush]
      refine ⟨hrec.1, ?_⟩
      intro hh
      have h2 := hrec.2 hh
      rw [h2, SegsToPath_cons]
      simp

/-! ### Assembling one record step -/

/-- After the pops, once the stack head sits at the common depth, every
remaining node's path is a prefix of the incoming record and the file and
subdirectory bounds become strict. -/
theorem popinv_to_midinv {c2 : Nat} {st out : List IndexDir} {hpath epath : List Char}
    (inv : PopInv c2 st out hpath epath) (hlt : ltL hpath epath)
    (hhead : ∀ hh : st ≠ [], (st.head hh).depth = c2) :
    MidInv st out epath := by
  cases st with
  | nil => exact absurd rfl inv.ne
  | cons t rest =>
  have htdep : t.depth = c2 := by
    have := hhead (List.cons_ne_nil t rest)
    simpa using this
  refine ⟨inv.ne, inv.chain, ?_, inv.stack_files, ?_, inv.stack_sub, ?_,
    inv.stack_sub_child, inv.out_files, inv.out_sub, inv.out_no_pfx_stack,
    inv.out_pairwise, inv.out_adj, inv.out_last, inv.out_sep2⟩
  · intro d hd
    have hdle : d.depth ≤ t.depth := chain_mem_depth_le inv.chain d hd
    exact (inv.far d hd).2 (by omega)
  · intro d hd f hf
    exact leL_lt_trans (inv.stack_files_le d hd f hf) hlt
  · intro d hd s hs
    exact leL_lt_trans (inv.stack_sub_le d hd s hs) hlt

/-- Attaching the record to the stack top after the pushes restores the
full loop invariant, with the record's own path as the new bound. -/
theorem addfile_build {st2 out1 : List IndexDir} {e : Entry} {dirE base : List Char}
    (hmid : MidInv st2 out1 e.path)
    (hhead : ∀ hh : st2 ≠ [], (st2.head hh).path = dirE)
    (hbase : SegOk base) (hpe : e.path = dirE ++ base) :
    BuildInv (addFile e st2) out1 e.path := by
  cases st2 with
  | nil => exact absurd rfl hmid.ne
  | cons topF restF =>
  have htopF : topF.path = dirE := by
    have := hhead (List.cons_ne_nil topF restF)
    simpa using this
  set topF2 : IndexDir := { topF with files := topF.files ++ [e] } with htopF2Def
  have htopF2_path : topF2.path = topF.path := rfl
  have htopF2_depth : topF2.depth = topF.depth := rfl
  have htopF2_files : topF2.files = topF.files ++ [e] := rfl
  have haf : addFile e (topF :: restF) = topF2 :: restF := rfl
  rw [haf]
  obtain ⟨hshapeF, hpairF⟩ := hmid.stack_files topF (by simp)
  refine ⟨List.cons_ne_nil topF2 restF,
    chain_congr_head hmid.chain htopF2_path htopF2_depth, ?_, ?_, ?_, ?_, ?_, ?_,
    hmid.out_files, hmid.out_sub, ?_, hmid.out_pairwise, hmid.out_adj, ?_, ?_⟩
  · -- stack_pfx_h (with h := e.path)
    intro d hd
    rcases List.mem_cons.mp hd with rfl | hd2
    · rw [htopF2_path]
      exact hmid.pfx_e topF (by simp)
    · exact hmid.pfx_e d (List.mem_cons_of_mem topF hd2)
  · -- stack_files
    intro d hd
    rcases List.mem_cons.mp hd with rfl | hd2
    · constructor
      · intro f hf
        rw [htopF2_files] at hf
        rcases List.mem_append.mp hf with hf1 | hf2
        · obtain ⟨bf, hbf, hfp⟩ := hshapeF f hf1
          exact ⟨bf, hbf, by rw [hfp, htopF2_path]⟩
        · rw [List.mem_singleton.mp hf2]
          exact ⟨base, hbase, by rw [hpe, htopF2_path, htopF]⟩
      · rw [htopF2_files]
        refine List.pairwise_append.mpr ⟨?_, by simp, ?_⟩
        · exact hpairF.imp (by rw [htopF2_path]; exact fun hab => hab)
        · intro f hf g hg
          rw [List.mem_singleton.mp hg]
          have hflt := hmid.files_lt topF (by simp) f hf
          obtain ⟨bf, hbf, hfp⟩ := hshapeF f hf
          rw [hfp, hpe, ← htopF] at hflt
          have hbb := (ltL_append_iff topF.path bf base).mp hflt
          have hb1 : Basename topF2.path.length f = bf := by
            unfold Basename
            rw [htopF2_path, hfp, List.drop_left]
          have hb2 : Basename topF2.path.length e = base := by
            unfold Basename
            rw [htopF2_path, hpe, ← htopF, List.drop_left]
          rw [hb1, hb2]
          exact hbb
    · exact hmid.stack_files d (List.mem_cons_of_mem topF hd2)
  · -- stack_files_le
    intro d hd f hf
    rcases List.mem_cons.mp hd with rfl | hd2
    · rw [htopF2_files] at hf
      rcases List.mem_append.mp hf with hf1 | hf2
      · exact ltL_le (hmid.files_lt topF (by simp) f hf1)
      · rw [List.mem_singleton.mp hf2]
        exact leL_refl _
    · exact ltL_le (hmid.files_lt d (List.mem_cons_of_mem topF hd2) f hf)
  · -- stack_sub
    intro d hd
    rcases List.mem_cons.mp hd with rfl | hd2
    · exact hmid.stack_sub topF (by simp)
    · exact hmid.stack_sub d (List.mem_cons_of_mem topF hd2)
  · -- stack_sub_le
    intro d hd s hs
    rcases List.mem_cons.mp hd with rfl | hd2
    · rw [htopF2_path]
      exact ltL_le (hmid.sub_lt topF (by simp) s hs)
    · exact ltL_le (hmid.sub_lt d (List.mem_cons_of_mem topF hd2) s hs)
  · -- stack_sub_child
    intro d hd s hs
    have hmap : ∀ d2 ∈ topF :: restF, ∀ q : List Char,
        d2.path = q → ∃ t2 ∈ topF2 :: restF, t2.path = q := by
      intro d2 hd2 q hq
      rcases List.mem_cons.mp hd2 with rfl | hd2b
      · exact ⟨topF2, by simp, by rw [htopF2_path]; exact hq⟩
      · exact ⟨d2, by simp [hd2b], hq⟩
    rcases List.mem_cons.mp hd with rfl | hd2
    · rcases hmid.sub_child topF (by simp) s hs with ⟨x, hx, hxe⟩ | ⟨d2, hd2c, hde⟩
      · exact Or.inl ⟨x, hx, by rw [htopF2_path]; exact hxe⟩
      · obtain ⟨t2, ht2, ht2e⟩ := hmap d2 hd2c _ hde
        exact Or.inr ⟨t2, ht2, by rw [htopF2_path] at ht2e ⊢; exact ht2e⟩
    · rcases hmid.sub_child d (List.mem_cons_of_mem topF hd2) s hs with
        ⟨x, hx, hxe⟩ | ⟨d2, hd2c, hde⟩
      · exact Or.inl ⟨x, hx, hxe⟩
      · obtain ⟨t2, ht2, ht2e⟩ := hmap d2 hd2c _ hde
        exact Or.inr ⟨t2, ht2, ht2e⟩
  · -- out_no_pfx_stack
    intro x hx d hd
    rcases List.mem_cons.mp hd with rfl | hd2
    · rw [htopF2_path]
      exact hmid.out_no_pfx_stack x hx topF (by simp)
    · exact hmid.out_no_pfx_stack x hx d (List.mem_cons_of_mem topF hd2)
  · -- out_last
    intro y hy t2 ht2
    have ht2f : t2 = topF2 := by
      simp only [List.head?_cons] at ht2
      exact (Option.some.inj ht2).symm
    subst ht2f
    have := hmid.out_last y hy topF rfl
    rw [htopF2_depth, htopF2_path]
    exact this
  · -- out_sep
    intro x hx f hf
    exact hmid.out_sep2 x hx f (ltL_le hf)

/-- One iteration of the InitDirs record loop preserves the loop
invariant: processing a record strictly above the previous bound yields the
invariant with the record's path as the new bound. -/
theorem step_preserve (st out : List IndexDir) (h : List Char) (e : Entry)
    (inv : BuildInv st out h) (hv : ValidPath e.path) (hlt : ltL h e.path) :
    BuildInv (stepEntry (st, out) e).1 (stepEntry (st, out) e).2 e.path := by
  obtain ⟨segsE, base, hsegsE, hbase, hpe⟩ := hv
  cases st with
  | nil => exact absurd rfl inv.ne
  | cons prev tail =>
  obtain ⟨segsP, hokP, hppath, hpdepth, hmemP⟩ := chain_head_segs inv.chain
  have hcd : CommonDir prev.path e.path =
      ((SegsToPath (commonSegs segsP segsE)).length,
        (commonSegs segsP segsE).length) := by
    rw [hppath, hpe]
    exact CommonDir_segs segsP segsE base hokP hsegsE hbase.2
  have hc2P : (commonSegs segsP segsE).length ≤ segsP.length :=
    (commonSegs_length_le segsP segsE).1
  have hc2E : (commonSegs segsP segsE).length ≤ segsE.length :=
    (commonSegs_length_le segsP segsE).2
  have hfar : ∀ d ∈ prev :: tail,
      ((commonSegs segsP segsE).length < d.depth → ¬ pfx d.path e.path) ∧
      (d.depth ≤ (commonSegs segsP segsE).length → pfx d.path e.path) := by
    intro d hd
    obtain ⟨hdp, hdle⟩ := hmemP d hd
    constructor
    · intro hgt hpf
      rw [hdp, hpe] at hpf
      have hlen_take : (segsP.take d.depth).length = d.depth := by
        simp [List.length_take]
        omega
      obtain ⟨hagree, hle2⟩ := parse_pfx (segsP.take d.depth) segsE base
        (fun s hs => hokP s (List.mem_of_mem_take hs)) hsegsE hbase.2 hpf
      rw [hlen_take] at hagree hle2
      have hge := commonSegs_ge_of_take hdle hle2 hagree
      omega
    · intro hle2
      rw [hdp]
      have h1 : segsP.take d.depth = (commonSegs segsP segsE).take d.depth := by
        conv_rhs => rw [commonSegs_take_left segsP segsE]
        rw [List.take_take]
        congr 1
        omega
      have h2 : (commonSegs segsP segsE).take d.depth = segsE.take d.depth := by
        conv_lhs => rw [commonSegs_take_right segsP segsE]
        rw [List.take_take]
        congr 1
        omega
      rw [h1, h2, hpe]
      exact pfx_trans (SegsToPath_take_pfx segsE d.depth) (pfx_append _ base)
  have hpop0 : PopInv (commonSegs segsP segsE).length (prev :: tail) out h e.path := by
    refine ⟨inv.ne, inv.chain, inv.stack_pfx_h, hfar, inv.stack_files,
      inv.stack_files_le, inv.stack_sub, inv.stack_sub_le, inv.stack_sub_child,
      inv.out_files, inv.out_sub, inv.out_no_pfx_stack, inv.out_pairwise,
      inv.out_adj, inv.out_last, ?_⟩
    intro x hx f hef
    exact inv.out_sep x hx f (ltL_le_trans hlt hef)
  have hdep0 : ∀ hh : (prev :: tail) ≠ [], ((prev :: tail).head hh).depth =
      (commonSegs segsP segsE).length +
        (prev.depth - (commonSegs segsP segsE).length) := by
    intro hh
    simp only [List.head_cons]
    omega
  have hpop := pop_phase h e.path (commonSegs segsP segsE).length (ltL_le hlt)
    (prev.depth - (commonSegs segsP segsE).length) (prev :: tail) out hpop0 hdep0
  obtain ⟨topK, restK, hdropEq, htopKdep⟩ := chain_drop_head inv.chain
    (prev.depth - (commonSegs segsP segsE).length) (by omega)
  have htopKdep2 : topK.depth = (commonSegs segsP segsE).length := by omega
  have htopKmem : topK ∈ prev :: tail := by
    have hmem : topK ∈ (prev :: tail).drop
        (prev.depth - (commonSegs segsP segsE).length) := by
      rw [hdropEq]
      simp
    exact List.mem_of_mem_drop hmem
  have htopKpath : topK.path = SegsToPath (commonSegs segsP segsE) := by
    obtain ⟨hp, _⟩ := hmemP topK htopKmem
    rw [hp, htopKdep2]
    exact congrArg SegsToPath (commonSegs_take_left segsP segsE).symm
  have hshape : e.path = topK.path ++
      SegsToPath (segsE.drop (commonSegs segsP segsE).length) ++ base := by
    rw [htopKpath, hpe]
    conv_lhs => rw [← List.take_append_drop (commonSegs segsP segsE).length segsE]
    rw [SegsToPath_append]
    rw [(commonSegs_take_right segsP segsE).symm]
  rw [hdropEq] at hpop
  have hmid : MidInv (topK :: restK)
      (out ++ (((prev :: tail).take
        (prev.depth - (commonSegs segsP segsE).length)).map finalizeDir)) e.path :=
    popinv_to_midinv hpop hlt (by intro hh; simpa using htopKdep2)
  have hpushed := push_phase e.path base hbase
    (segsE.drop (commonSegs segsP segsE).length) topK.path (topK :: restK)
    (out ++ (((prev :: tail).take
      (prev.depth - (commonSegs segsP segsE).length)).map finalizeDir))
    (fun s hs => hsegsE s (List.mem_of_mem_drop hs)) hmid
    (by intro hh; simp) hshape
  have hstep : stepEntry (prev :: tail, out) e =
      (addFile e ((slashPositionsFrom e.path (CommonDir prev.path e.path).1).foldl
        (pushOne e.path)
        (popN (prev.depth - (CommonDir prev.path e.path).2) (prev :: tail) out).1),
       (popN (prev.depth - (CommonDir prev.path e.path).2) (prev :: tail) out).2) :=
    rfl
  have hstep2 : stepEntry (prev :: tail, out) e =
      (addFile e ((slashPositionsFrom e.path
          (SegsToPath (commonSegs segsP segsE)).length).foldl
        (pushOne e.path)
        (popN (prev.depth - (commonSegs segsP segsE).length) (prev :: tail) out).1),
       (popN (prev.depth - (commonSegs segsP segsE).length) (prev :: tail) out).2) := by
    rw [hstep, hcd]
  have hpop1 : (popN (prev.depth - (commonSegs segsP segsE).length)
      (prev :: tail) out).1 = topK :: restK := by
    rw [popN_eq]
    exact hdropEq
  have hpop2 : (popN (prev.depth - (commonSegs segsP segsE).length)
      (prev :: tail) out).2 =
      out ++ (((prev :: tail).take
        (prev.depth - (commonSegs segsP segsE).length)).map finalizeDir) := by
    rw [popN_eq]
  have hfold : (slashPositionsFrom e.path
      (SegsToPath (commonSegs segsP segsE)).length).foldl
      (pushOne e.path) (topK :: restK) =
      pushSegs topK.path (segsE.drop (commonSegs segsP segsE).length)
        (topK :: restK) := by
    have hidx : (SegsToPath (commonSegs segsP segsE)).length = topK.path.length := by
      rw [htopKpath]
    rw [hidx]
    exact pushFold_eq_pushSegs e.path (segsE.drop (commonSegs segsP segsE).length)
      topK.path base topK restK (fun s hs => hsegsE s (List.mem_of_mem_drop hs))
      hbase.2 rfl hshape
  have hstep3 : stepEntry (prev :: tail, out) e =
      (addFile e (pushSegs topK.path (segsE.drop (commonSegs segsP segsE).length)
        (topK :: restK)),
       out ++ (((prev :: tail).take
         (prev.depth - (commonSegs segsP segsE).length)).map finalizeDir)) := by
    rw [hstep2, hpop1, hpop2, hfold]
  rw [hstep3]
  exact addfile_build hpushed.1 hpushed.2 hbase hshape

/-! ### The record fold and the final tree shape -/

theorem pairwise_lt_of_le_nodup {l : List (List Char)} (h1 : l.Pairwise leL)
    (h2 : l.Nodup) : l.Pairwise ltL := by
  induction l with
  | nil => exact List.Pairwise.nil
  | cons a as ih =>
    obtain ⟨ha1, h1'⟩ := List.pairwise_cons.mp h1
    obtain ⟨ha2, h2'⟩ := List.pairwise_cons.mp h2
    exact List.pairwise_cons.mpr
      ⟨fun b hb => leL_ne_lt (ha1 b hb) (ha2 b hb), ih h1' h2'⟩

/-- The whole record loop of InitDirs preserves the invariant. -/
theorem buildInv_fold :
    ∀ (es : List Entry) (st out : List IndexDir) (h : List Char),
      BuildInv st out h →
      (∀ e ∈ es, ValidPath e.path) →
      es.Pairwise (fun a b => ltL a.path b.path) →
      (∀ e ∈ es, ltL h e.path) →
      ∃ h2, BuildInv (es.foldl stepEntry (st, out)).1
        (es.foldl stepEntry (st, out)).2 h2 := by
  intro es
  induction es with
  | nil =>
    intro st out h inv _ _ _
    exact ⟨h, inv⟩
  | cons e es ih =>
    intro st out h inv hv hs hgt
    have hstep := step_preserve st out h e inv (hv e (List.mem_cons_self e es))
      (hgt e (List.mem_cons_self e es))
    exact ih (stepEntry (st, out) e).1 (stepEntry (st, out) e).2 e.path hstep
      (fun f hf => hv f (List.mem_cons_of_mem e hf))
      (List.pairwise_cons.mp hs).2
      (fun f hf => (List.pairwise_cons.mp hs).1 f hf)

/-- C5: for every tracked-record list of well-formed paths, strictly
sorted by raw path bytes, the constructed tree satisfies the three claimed
invariants: (a) every node's subdirectory names and file basenames are
strictly sorted (hence duplicate-free); (b) the flattened node list places
every node whose path properly prefixes another node's path strictly
before it (every child after its parent); (c) whenever a node immediately
follows another with depth exactly one greater, its path extends the
predecessor's path (the fd-reuse precondition). -/
theorem tree_construction_c5 (es : List Entry)
    (hv : ∀ e ∈ es, ValidPath e.path)
    (hs : es.Pairwise (fun a b => ltL a.path b.path)) :
    (∀ d ∈ InitDirs es,
        d.subdirs.Pairwise ltL ∧ d.subdirs.Nodup ∧
        (d.files.map (Basename d.path.length)).Pairwise ltL ∧
        (d.files.map (Basename d.path.length)).Nodup) ∧
    (∀ (i j : Nat) (hi : i < (InitDirs es).length) (hj : j < (InitDirs es).length),
        pfx ((InitDirs es).get ⟨i, hi⟩).path ((InitDirs es).get ⟨j, hj⟩).path →
        ((InitDirs es).get ⟨i, hi⟩).path ≠ ((InitDirs es).get ⟨j, hj⟩).path →
        i < j) ∧
    (InitDirs es).Chain' (fun a b => b.depth = a.depth + 1 → pfx a.path b.path) := by
  have hinit : BuildInv [{}] [] [] := by
    refine ⟨List.cons_ne_nil _ _, ⟨rfl, rfl⟩, ?_, ?_, ?_, ?_, ?_, ?_, ?_, ?_, ?_,
      ?_, ?_, ?_, ?_⟩
    · intro d hd
      rw [List.mem_singleton.mp hd]
      exact pfx_nil _
    · intro d hd
      rw [List.mem_singleton.mp hd]
      exact ⟨fun f hf => absurd hf (List.not_mem_nil f), List.Pairwise.nil⟩
    · intro d hd f hf
      rw [List.mem_singleton.mp hd] at hf
      cases hf
    · intro d hd
      rw [List.mem_singleton.mp hd]
      exact ⟨fun s hs2 => absurd hs2 (List.not_mem_nil s), List.Pairwise.nil⟩
    · intro d hd s hs2
      rw [List.mem_singleton.mp hd] at hs2
      cases hs2
    · intro d hd s hs2
      rw [List.mem_singleton.mp hd] at hs2
      cases hs2
    · intro x hx
      cases hx
    · intro x hx
      cases hx
    · intro x hx d _
      cases hx
    · exact List.Pairwise.nil
    · exact List.chain'_nil
    · intro y hy
      simp at hy
    · intro x hx
      cases hx
  obtain ⟨h2, inv⟩ := buildInv_fold es [{}] [] [] hinit hv hs
    (fun e he => ltL_nil (ValidPath_ne_nil (hv e he)))
  have hID : InitDirs es =
      ((es.foldl stepEntry ([{}], [])).2 ++
        (es.foldl stepEntry ([{}], [])).1.map finalizeDir).reverse := by
    simp only [InitDirs]
    rw [popAll_eq]
  have hL_pairwise : ((es.foldl stepEntry ([{}], [])).2 ++
      (es.foldl stepEntry ([{}], [])).1.map finalizeDir).Pairwise
      (fun a b => ¬ pfx a.path b.path) := by
    refine List.pairwise_append.mpr ⟨inv.out_pairwise, ?_, ?_⟩
    · refine List.pairwise_map.mpr ?_
      refine (chain_ext inv.chain).imp ?_
      intro a b hab
      obtain ⟨ext, hne, hext⟩ := hab
      rw [finalizeDir_path, finalizeDir_path]
      exact ext_not_pfx hne hext
    · intro x hx b hb
      obtain ⟨t, ht, rfl⟩ := List.mem_map.mp hb
      rw [finalizeDir_path]
      exact inv.out_no_pfx_stack x hx t ht
  have hL_adj : ((es.foldl stepEntry ([{}], [])).2 ++
      (es.foldl stepEntry ([{}], [])).1.map finalizeDir).Chain'
      (fun a b => a.depth = b.depth + 1 → pfx b.path a.path) := by
    refine List.chain'_append.mpr ⟨inv.out_adj, ?_, ?_⟩
    · refine (List.chain'_map _).mpr ?_
      refine (chain_adj inv.chain).imp ?_
      intro a b hab _
      rw [finalizeDir_path, finalizeDir_path]
      exact hab.2
    · intro x hx y hy
      cases hS1 : (es.foldl stepEntry ([{}], [])).1 with
      | nil => exact absurd hS1 inv.ne
      | cons t rest =>
        rw [hS1] at hy
        have hy' : y = finalizeDir t := by
          simp only [List.map_cons, List.head?_cons] at hy
          exact (by simpa using hy : finalizeDir t = y).symm
        subst hy'
        intro hdp
        have := inv.out_last x (by simpa using hx) t (by rw [hS1]; rfl)
        rw [finalizeDir_path]
        exact this.2 hdp
  have hnode : ∀ d ∈ InitDirs es, SubdirsFinOk d ∧ FilesOk d := by
    intro d hd
    rw [hID, List.mem_reverse] at hd
    rcases List.mem_append.mp hd with hd1 | hd2
    · exact ⟨inv.out_sub d hd1, inv.out_files d hd1⟩
    · obtain ⟨t, ht, rfl⟩ := List.mem_map.mp hd2
      exact ⟨finalize_sub (inv.stack_sub t ht),
        (FilesOk_finalizeDir t).mpr (inv.stack_files t ht)⟩
  refine ⟨?_, ?_, ?_⟩
  · intro d hd
    obtain ⟨⟨hok, hle, hnd⟩, ⟨hfshape, hfpair⟩⟩ := hnode d hd
    have hlt := pairwise_lt_of_le_nodup hle hnd
    have hmap : (d.files.map (Basename d.path.length)).Pairwise ltL :=
      List.pairwise_map.mpr hfpair
    exact ⟨hlt, hnd, hmap, hmap.imp (fun hab => ltL_ne hab)⟩
  · have hrev : (InitDirs es).Pairwise (fun a b => ¬ pfx b.path a.path) := by
      rw [hID]
      exact List.pairwise_reverse.mpr hL_pairwise
    intro i j hi hj hpfx hne
    rcases Nat.lt_trichotomy i j with hlt | heq | hgt
    · exact hlt
    · exfalso
      subst heq
      exact hne rfl
    · exfalso
      have := (List.pairwise_iff_get.mp hrev) ⟨j, hj⟩ ⟨i, hi⟩ hgt
      exact this hpfx
  · rw [hID]
    exact List.chain'_reverse.mpr hL_adj

/-- C5 witness: the two-record index {a.txt, dir/b.txt} satisfies the
hypotheses, and the constructed tree has the claimed shape. -/
theorem tree_construction_c5_witness :
    (∀ e ∈ [exA, exB], ValidPath e.path) ∧
    ([exA, exB].Pairwise (fun a b => ltL a.path b.path)) ∧
    ((∀ d ∈ InitDirs [exA, exB],
        d.subdirs.Pairwise ltL ∧ d.subdirs.Nodup ∧
        (d.files.map (Basename d.path.length)).Pairwise ltL ∧
        (d.files.map (Basename d.path.length)).Nodup) ∧
    (∀ (i j : Nat) (hi : i < (InitDirs [exA, exB]).length)
        (hj : j < (InitDirs [exA, exB]).length),
        pfx ((InitDirs [exA, exB]).get ⟨i, hi⟩).path
          ((InitDirs [exA, exB]).get ⟨j, hj⟩).path →
        ((InitDirs [exA, exB]).get ⟨i, hi⟩).path ≠
          ((InitDirs [exA, exB]).get ⟨j, hj⟩).path →
        i < j) ∧
    (InitDirs [exA, exB]).Chain'
      (fun a b => b.depth = a.depth + 1 → pfx a.path b.path)) := by
  have hv : ∀ e ∈ [exA, exB], ValidPath e.path := by
    intro e he
    rcases List.mem_cons.mp he with rfl | he2
    · refine ⟨[], "a.txt".toList, ?_, ⟨by decide, by decide⟩, rfl⟩
      intro s hs
      cases hs
    · rcases List.mem_cons.mp he2 with rfl | he3
      · refine ⟨[['d', 'i', 'r']], "b.txt".toList, ?_, ⟨by decide, by decide⟩, by decide⟩
        intro s hs
        rw [List.mem_singleton.mp hs]
        exact ⟨by decide, by decide⟩
      · cases he3
  have hsrt : [exA, exB].Pairwise (fun a b => ltL a.path b.path) := by
    refine List.pairwise_cons.mpr ⟨?_, ?_⟩
    · intro b hb
      rw [List.mem_singleton.mp hb]
      decide
    · simp
  exact ⟨hv, hsrt, tree_construction_c5 [exA, exB] hv hsrt⟩

/-! ### Candidate shapes: parsing and disjointness -/

theorem pairwise_conj {α : Type} {R S : α → α → Prop} {l : List α}
    (h1 : l.Pairwise R) (h2 : l.Pairwise S) :
    l.Pairwise (fun a b => R a b ∧ S a b) := by
  induction l with
  | nil => exact List.Pairwise.nil
  | cons a as ih =>
    obtain ⟨ha1, h1'⟩ := List.pairwise_cons.mp h1
    obtain ⟨ha2, h2'⟩ := List.pairwise_cons.mp h2
    exact List.pairwise_cons.mpr ⟨fun b hb => ⟨ha1 b hb, ha2 b hb⟩, ih h1' h2'⟩

theorem subdirRun_none (n : List Char) : ∀ (subdirs : List (List Char)),
    subdirs.Pairwise ltL → (subdirRun n subdirs).1 = false → n ∉ subdirs := by
  intro subdirs
  induction subdirs with
  | nil => intro _ _; simp
  | cons s ss ih =>
    intro hsp h
    obtain ⟨hs1, hsp'⟩ := List.pairwise_cons.mp hsp
    intro hmem
    rcases hcm : cmpL s n with _ | _ | _
    · have h' : (subdirRun n ss).1 = false := by simpa [subdirRun, hcm] using h
      rcases List.mem_cons.mp hmem with rfl | hm2
      · rw [cmpL_self] at hcm; cases hcm
      · exact ih hsp' h' hm2
    · simp [subdirRun, hcm] at h
    · rcases List.mem_cons.mp hmem with rfl | hm2
      · rw [cmpL_self] at hcm; cases hcm
      · exact ltL_asymm (hs1 n hm2) ((cmpL_swap n s).mpr hcm)

theorem subdirRun_keep (n : List Char) : ∀ (subdirs : List (List Char)),
    ∀ s ∈ subdirs, s ∈ (subdirRun n subdirs).2 ∨ leL s n := by
  intro subdirs
  induction subdirs with
  | nil => intro s hs; cases hs
  | cons t ts ih =>
    intro s hs
    rcases hcm : cmpL t n with _ | _ | _
    · rcases List.mem_cons.mp hs with rfl | hs2
      · exact Or.inr (ltL_le hcm)
      · rcases ih s hs2 with h | h
        · left; simpa [subdirRun, hcm] using h
        · exact Or.inr h
    · rcases List.mem_cons.mp hs with rfl | hs2
      · refine Or.inr ?_
        unfold leL
        rw [hcm]
        intro hc
        cases hc
      · left; simpa [subdirRun, hcm] using hs2
    · left
      simpa [subdirRun, hcm] using hs

theorem subdirRun_sub (n : List Char) : ∀ (subdirs : List (List Char)),
    (subdirRun n subdirs).2.Sublist subdirs := by
  intro subdirs
  induction subdirs with
  | nil => simp [subdirRun]
  | cons t ts ih =>
    rcases hcm : cmpL t n with _ | _ | _
    · simp only [subdirRun, hcm]
      exact ih.cons t
    · simp only [subdirRun, hcm]
      exact List.sublist_cons_self t ts
    · simp only [subdirRun, hcm]
      exact List.Sublist.refl _

theorem SegsToPath_concat (segs : List (List Char)) (h : segs ≠ []) :
    ∃ q, SegsToPath segs = q ++ ['/'] := by
  induction segs with
  | nil => exact absurd rfl h
  | cons s ss ih =>
    cases ss with
    | nil => exact ⟨s, by simp [SegsToPath]⟩
    | cons t ts =>
      obtain ⟨q, hq⟩ := ih (by simp)
      exact ⟨s ++ '/' :: q, by rw [SegsToPath_cons, hq]; simp⟩

/-- A path extended by a nonempty slash-free name is never a
slash-terminated directory path. -/
theorem file_ne_dir {x nm : List Char} {segs : List (List Char)}
    (hnm : SegOk nm) (h : x ++ nm = SegsToPath segs) : False := by
  cases segs with
  | nil =>
    have h0 : x ++ nm = [] := h
    exact hnm.1 (List.append_eq_nil.mp h0).2
  | cons s ss =>
    obtain ⟨q, hq⟩ := SegsToPath_concat (s :: ss) (by simp)
    rw [hq] at h
    rcases List.eq_nil_or_concat nm with rfl | ⟨y, c, rfl⟩
    · exact hnm.1 rfl
    · have h2 : (x ++ y) ++ [c] = q ++ ['/'] := by rw [← h]; simp
      have h3 := congrArg List.getLast? h2
      rw [List.getLast?_concat, List.getLast?_concat] at h3
      have hc : c = '/' := Option.some.inj h3
      exact hnm.2 (by rw [← hc]; simp)

/-- Unique parsing of a directory path plus a slash-free basename. -/
theorem parse_unique {s1 s2 : List (List Char)} {b1 b2 : List Char}
    (h1 : ∀ s ∈ s1, SegOk s) (h2 : ∀ s ∈ s2, SegOk s)
    (hb1 : SegOk b1) (hb2 : SegOk b2)
    (h : SegsToPath s1 ++ b1 = SegsToPath s2 ++ b2) :
    s1 = s2 ∧ b1 = b2 := by
  have hp1 : pfx (SegsToPath s1) (SegsToPath s2 ++ b2) := ⟨b1, h.symm⟩
  have hp2 : pfx (SegsToPath s2) (SegsToPath s1 ++ b1) := ⟨b2, h⟩
  obtain ⟨ha1, hl1⟩ := parse_pfx s1 s2 b2 h1 h2 hb2.2 hp1
  obtain ⟨ha2, hl2⟩ := parse_pfx s2 s1 b1 h2 h1 hb1.2 hp2
  have hlen : s1.length = s2.length := le_antisymm hl1 hl2
  have hs : s1 = s2 := by
    rw [ha1, hlen, List.take_length]
  refine ⟨hs, ?_⟩
  rw [hs] at h
  exact append_left_cancel_ch h

theorem SegsToPath_inj {s1 s2 : List (List Char)}
    (h1 : ∀ s ∈ s1, SegOk s) (h2 : ∀ s ∈ s2, SegOk s)
    (h : SegsToPath s1 = SegsToPath s2) : s1 = s2 := by
  have hx : SegsToPath s1 ++ ['x'] = SegsToPath s2 ++ ['x'] := by rw [h]
  exact (parse_unique h1 h2 ⟨by decide, by decide⟩ ⟨by decide, by decide⟩ hx).1

theorem unmatchedName_inj {n1 n2 : List Char} (h1 : '/' ∉ n1) (h2 : '/' ∉ n2)
    {b1 b2 : Bool} (h : unmatchedName n1 b1 = unmatchedName n2 b2) : n1 = n2 := by
  cases b1 <;> cases b2 <;> simp only [unmatchedName, if_true, if_false,
    Bool.false_eq_true, Bool.true_eq_false] at h
  · exact h
  · exfalso
    exact h1 (h ▸ (by simp : '/' ∈ n2 ++ ['/']))
  · exfalso
    exact h2 (h ▸ (by simp : '/' ∈ n1 ++ ['/']))
  · exact (List.append_inj' h rfl).1

/-- The slash-terminated extension of one path by two names: equality
forces the names to coincide. -/
theorem dir_ext_inj {p nm1 nm2 : List Char}
    (h : p ++ nm1 ++ ['/'] = p ++ nm2 ++ ['/']) : nm1 = nm2 := by
  have h2 : p ++ (nm1 ++ ['/']) = p ++ (nm2 ++ ['/']) := by
    rw [← List.append_assoc, ← List.append_assoc, h]
  have h3 := append_left_cancel_ch h2
  exact (List.append_inj' h3 rfl).1

/-- Two distinct directory nodes with well-formed paths and mutually
registered children never contribute the same candidate shape. -/
theorem candshape_disjoint {d1 d2 : IndexDir} {c : List Char}
    {segs1 segs2 : List (List Char)}
    (hs1 : ∀ s ∈ segs1, SegOk s) (hp1 : d1.path = SegsToPath segs1)
    (hs2 : ∀ s ∈ segs2, SegOk s) (hp2 : d2.path = SegsToPath segs2)
    (hne : d1.path ≠ d2.path)
    (hch12 : ∀ nm, SegOk nm → d2.path = d1.path ++ nm ++ ['/'] → nm ∈ d1.subdirs)
    (hch21 : ∀ nm, SegOk nm → d1.path = d2.path ++ nm ++ ['/'] → nm ∈ d2.subdirs)
    (h1 : CandShape d1 c) (h2 : CandShape d2 c) : False := by
  have hBpath : ∀ (p : List Char) (segs : List (List Char)) (nm : List Char),
      p = SegsToPath segs →
      p ++ nm ++ ['/'] = SegsToPath (segs ++ [nm]) := by
    intro p segs nm hp
    rw [SegsToPath_append, hp]
    simp [SegsToPath]
  rcases h1 with rfl | ⟨nm1, hnm1, hA1 | ⟨hB1, hnin1⟩⟩
  · rcases h2 with he2 | ⟨nm2, hnm2, hA2 | ⟨hB2, hnin2⟩⟩
    · exact hne he2
    · exact file_ne_dir hnm2 (by rw [← hA2, hp1])
    · exact hnin2 (hch21 nm2 hnm2 hB2)
  · rcases h2 with he2 | ⟨nm2, hnm2, hA2 | ⟨hB2, hnin2⟩⟩
    · exact file_ne_dir hnm1 (by rw [← hA1, he2, hp2])
    · have h0 : SegsToPath segs1 ++ nm1 = SegsToPath segs2 ++ nm2 := by
        rw [← hp1, ← hp2, ← hA1, ← hA2]
      obtain ⟨hseq, _⟩ := parse_unique hs1 hs2 hnm1 hnm2 h0
      exact hne (by rw [hp1, hp2, hseq])
    · have h0 : d1.path ++ nm1 = SegsToPath (segs2 ++ [nm2]) := by
        rw [← hA1, hB2]
        exact hBpath d2.path segs2 nm2 hp2
      exact file_ne_dir hnm1 h0
  · rcases h2 with he2 | ⟨nm2, hnm2, hA2 | ⟨hB2, hnin2⟩⟩
    · exact hnin1 (hch12 nm1 hnm1 (he2.symm.trans hB1))
    · have h0 : d2.path ++ nm2 = SegsToPath (segs1 ++ [nm1]) := by
        rw [← hA2, hB1]
        exact hBpath d1.path segs1 nm1 hp1
      exact file_ne_dir hnm2 h0
    · have h0 : SegsToPath (segs1 ++ [nm1]) = SegsToPath (segs2 ++ [nm2]) := by
        rw [← hBpath d1.path segs1 nm1 hp1, ← hBpath d2.path segs2 nm2 hp2,
          ← hB1, ← hB2]
      have hok1 : ∀ s ∈ segs1 ++ [nm1], SegOk s := by
        intro s hs
        rcases List.mem_append.mp hs with hs' | hs'
        · exact hs1 s hs'
        · rw [List.mem_singleton.mp hs']; exact hnm1
      have hok2 : ∀ s ∈ segs2 ++ [nm2], SegOk s := by
        intro s hs
        rcases List.mem_append.mp hs with hs' | hs'
        · exact hs2 s hs'
        · rw [List.mem_singleton.mp hs']; exact hnm2
      have hseq := SegsToPath_inj hok1 hok2 h0
      obtain ⟨hseq1, _⟩ := List.append_inj' hseq rfl
      exact hne (by rw [hp1, hp2, hseq1])

/-! ### Shape of the merge output -/

/-- Master characterization of the merge loop over strictly sorted
entries, files and subdirectory names: the inline pushes are a sublist of
the tracked file paths; the unmatched records are a sublist of the
entry-derived paths; and every unmatched record comes from an entry whose
name matches no subdirectory and no tracked basename. -/
theorem mergeLoop_shape (fs : Fs) (dpath : List Char) (dlen : Nat) :
    ∀ (entries : List (List Char × Bool)) (files : List Entry)
      (subdirs : List (List Char)),
      entries.Pairwise (fun a b => ltL a.1 b.1) →
      files.Pairwise (fun f g => ltL (Basename dlen f) (Basename dlen g)) →
      subdirs.Pairwise ltL →
      (mergeLoop fs dpath dlen entries files subdirs).res.Sublist
        (files.map (fun f => f.path)) ∧
      (mergeLoop fs dpath dlen entries files subdirs).unmatched.Sublist
        (entries.map (fun p => dpath ++ unmatchedName p.1 p.2)) ∧
      (∀ u ∈ (mergeLoop fs dpath dlen entries files subdirs).unmatched,
        ∃ n isDir, (n, isDir) ∈ entries ∧ u = dpath ++ unmatchedName n isDir ∧
          n ∉ subdirs ∧ ∀ f ∈ files, Basename dlen f ≠ n) := by
  intro entries
  induction entries with
  | nil =>
    intro files subdirs _ _ _
    refine ⟨?_, ?_, ?_⟩ <;> simp [mergeLoop]
  | cons e es ih =>
    intro files subdirs hef hfp hsp
    obtain ⟨n, isDir⟩ := e
    obtain ⟨hhead, hef'⟩ := List.pairwise_cons.mp hef
    rw [mergeLoop_cons]
    obtain ⟨pre, hdec, hdel, hprelt, hmeq⟩ := fileRun_spec dlen n files
    have hfp' : (fileRun dlen n files).2.2.Pairwise
        (fun f g => ltL (Basename dlen f) (Basename dlen g)) :=
      hfp.sublist (fileRun_rest_sublist dlen n files)
    rcases mergeStep_cases fs dpath dlen n isDir files subdirs with
      ⟨f, hfr, hracy, heq⟩ | ⟨f, hfr, hracy, heq⟩ | ⟨hfr, hsr, heq⟩ |
      ⟨hfr, hsr, heq⟩
    · -- racy match
      have hsres : (mergeStep fs dpath dlen n isDir files subdirs).res =
          (fileRun dlen n files).1 ++ [f.path] := by rw [heq]
      have hsunm : (mergeStep fs dpath dlen n isDir files subdirs).unmatched =
          [] := by rw [heq]
      have hsfil : (mergeStep fs dpath dlen n isDir files subdirs).files =
          (fileRun dlen n files).2.2 := by rw [heq]
      have hssub : (mergeStep fs dpath dlen n isDir files subdirs).subdirs =
          subdirs := by rw [heq]
      obtain ⟨ihres, ihunm, ihchar⟩ :=
        ih (fileRun dlen n files).2.2 subdirs hef' hfp' hsp
      rw [hsres, hsunm, hsfil, hssub]
      have hmap : files.map (fun g => g.path) =
          pre.map (fun g => g.path) ++
            f.path :: (fileRun dlen n files).2.2.map (fun g => g.path) := by
        conv_lhs => rw [hdec]
        rw [hfr]
        simp
      refine ⟨?_, ?_, ?_⟩
      · rw [hmap, hdel, List.append_assoc]
        exact List.Sublist.append_left (List.Sublist.cons₂ f.path ihres) _
      · simp only [List.nil_append, List.map_cons]
        exact List.Sublist.cons _ ihunm
      · intro u hu
        rw [List.nil_append] at hu
        obtain ⟨n2, d2, hmem2, hueq, hnsub2, hfile2⟩ := ihchar u hu
        have hnn2 : ltL n n2 := hhead (n2, d2) hmem2
        refine ⟨n2, d2, List.mem_cons_of_mem _ hmem2, hueq, hnsub2, ?_⟩
        intro f0 hf0
        rw [hdec, hfr] at hf0
        rcases List.mem_append.mp hf0 with hf1 | hf2
        · rcases List.mem_append.mp hf1 with hf1a | hf1b
          · exact fun hc => ltL_ne (ltL_trans (hprelt f0 hf1a) hnn2) hc
          · have : f0 = f := by simpa using hf1b
            subst this
            rw [hmeq f0 hfr]
            exact ltL_ne hnn2
        · exact hfile2 f0 hf2
    · -- non-racy match, stat and compare
      have hsres : (mergeStep fs dpath dlen n isDir files subdirs).res =
          (fileRun dlen n files).1 ++
            (if IsModified f (fstatD fs (dpath ++ n)) then [f.path] else []) := by
        rw [heq]
      have hsunm : (mergeStep fs dpath dlen n isDir files subdirs).unmatched =
          [] := by rw [heq]
      have hsfil : (mergeStep fs dpath dlen n isDir files subdirs).files =
          (fileRun dlen n files).2.2 := by rw [heq]
      have hssub : (mergeStep fs dpath dlen n isDir files subdirs).subdirs =
          subdirs := by rw [heq]
      obtain ⟨ihres, ihunm, ihchar⟩ :=
        ih (fileRun dlen n files).2.2 subdirs hef' hfp' hsp
      rw [hsres, hsunm, hsfil, hssub]
      have hmap : files.map (fun g => g.path) =
          pre.map (fun g => g.path) ++
            f.path :: (fileRun dlen n files).2.2.map (fun g => g.path) := by
        conv_lhs => rw [hdec]
        rw [hfr]
        simp
      refine ⟨?_, ?_, ?_⟩
      · rw [hmap, hdel, List.append_assoc]
        refine List.Sublist.append_left ?_ _
        by_cases hmod : IsModified f (fstatD fs (dpath ++ n)) = true
        · rw [if_pos hmod]
          exact List.Sublist.cons₂ f.path ihres
        · rw [if_neg hmod]
          simp only [List.nil_append]
          exact List.Sublist.cons _ ihres
      · simp only [List.nil_append, List.map_cons]
        exact List.Sublist.cons _ ihunm
      · intro u hu
        rw [List.nil_append] at hu
        obtain ⟨n2, d2, hmem2, hueq, hnsub2, hfile2⟩ := ihchar u hu
        have hnn2 : ltL n n2 := hhead (n2, d2) hmem2
        refine ⟨n2, d2, List.mem_cons_of_mem _ hmem2, hueq, hnsub2, ?_⟩
        intro f0 hf0
        rw [hdec, hfr] at hf0
        rcases List.mem_append.mp hf0 with hf1 | hf2
        · rcases List.mem_append.mp hf1 with hf1a | hf1b
          · exact fun hc => ltL_ne (ltL_trans (hprelt f0 hf1a) hnn2) hc
          · have : f0 = f := by simpa using hf1b
            subst this
            rw [hmeq f0 hfr]
            exact ltL_ne hnn2
        · exact hfile2 f0 hf2
    · -- subdirectory match
      have hsres : (mergeStep fs dpath dlen n isDir files subdirs).res =
          (fileRun dlen n files).1 := by rw [heq]
      have hsunm : (mergeStep fs dpath dlen n isDir files subdirs).unmatched =
          [] := by rw [heq]
      have hsfil : (mergeStep fs dpath dlen n isDir files subdirs).files =
          (fileRun dlen n files).2.2 := by rw [heq]
      have hssub : (mergeStep fs dpath dlen n isDir files subdirs).subdirs =
          (subdirRun n subdirs).2 := by rw [heq]
      have hsp' : (subdirRun n subdirs).2.Pairwise ltL :=
        hsp.sublist (subdirRun_sub n subdirs)
      obtain ⟨ihres, ihunm, ihchar⟩ :=
        ih (fileRun dlen n files).2.2 (subdirRun n subdirs).2 hef' hfp' hsp'
      rw [hsres, hsunm, hsfil, hssub]
      have hmap : files.map (fun g => g.path) =
          pre.map (fun g => g.path) ++
            (fileRun dlen n files).2.2.map (fun g => g.path) := by
        conv_lhs => rw [hdec]
        rw [hfr]
        simp
      refine ⟨?_, ?_, ?_⟩
      · rw [hmap, hdel]
        exact List.Sublist.append_left ihres _
      · simp only [List.nil_append, List.map_cons]
        exact List.Sublist.cons _ ihunm
      · intro u hu
        rw [List.nil_append] at hu
        obtain ⟨n2, d2, hmem2, hueq, hnsub2, hfile2⟩ := ihchar u hu
        have hnn2 : ltL n n2 := hhead (n2, d2) hmem2
        refine ⟨n2, d2, List.mem_cons_of_mem _ hmem2, hueq, ?_, ?_⟩
        · intro hmemsub
          rcases subdirRun_keep n subdirs n2 hmemsub with hk | hk
          · exact hnsub2 hk
          · exact ltL_irrefl n (ltL_le_trans hnn2 hk)
        · intro f0 hf0
          rw [hdec, hfr] at hf0
          rcases List.mem_append.mp hf0 with hf1 | hf2
          · rcases List.mem_append.mp hf1 with hf1a | hf1b
            · exact fun hc => ltL_ne (ltL_trans (hprelt f0 hf1a) hnn2) hc
            · simp at hf1b
          · exact hfile2 f0 hf2
    · -- unmatched entry
      have hsres : (mergeStep fs dpath dlen n isDir files subdirs).res =
          (fileRun dlen n files).1 := by rw [heq]
      have hsunm : (mergeStep fs dpath dlen n isDir files subdirs).unmatched =
          (if unmatchedName n isDir = ['.', 'g', 'i', 't', '/'] then []
            else [dpath ++ unmatchedName n isDir]) := by rw [heq]
      have hsfil : (mergeStep fs dpath dlen n isDir files subdirs).files =
          (fileRun dlen n files).2.2 := by rw [heq]
      have hssub : (mergeStep fs dpath dlen n isDir files subdirs).subdirs =
          (subdirRun n subdirs).2 := by rw [heq]
      have hsp' : (subdirRun n subdirs).2.Pairwise ltL :=
        hsp.sublist (subdirRun_sub n subdirs)
      obtain ⟨ihres, ihunm, ihchar⟩ :=
        ih (fileRun dlen n files).2.2 (subdirRun n subdirs).2 hef' hfp' hsp'
      rw [hsres, hsunm, hsfil, hssub]
      have hmap : files.map (fun g => g.path) =
          pre.map (fun g => g.path) ++
            (fileRun dlen n files).2.2.map (fun g => g.path) := by
        conv_lhs => rw [hdec]
        rw [hfr]
        simp
      have hnofile : ∀ f0 ∈ files, Basename dlen f0 ≠ n := by
        intro f0 hf0
        rw [hdec, hfr] at hf0
        rcases List.mem_append.mp hf0 with hf1 | hf2
        · rcases List.mem_append.mp hf1 with hf1a | hf1b
          · exact ltL_ne (hprelt f0 hf1a)
          · simp at hf1b
        · exact (ltL_ne (fileRun_rest_gt dlen n files hfp f0 hf2)).symm
      have hlift : ∀ u ∈ (mergeLoop fs dpath dlen es (fileRun dlen n files).2.2
          (subdirRun n subdirs).2).unmatched,
          ∃ n2 d2, (n2, d2) ∈ (n, isDir) :: es ∧
            u = dpath ++ unmatchedName n2 d2 ∧ n2 ∉ subdirs ∧
            ∀ f0 ∈ files, Basename dlen f0 ≠ n2 := by
        intro u hu
        obtain ⟨n2, d2, hmem2, hueq, hnsub2, hfile2⟩ := ihchar u hu
        have hnn2 : ltL n n2 := hhead (n2, d2) hmem2
        refine ⟨n2, d2, List.mem_cons_of_mem _ hmem2, hueq, ?_, ?_⟩
        · intro hmemsub
          rcases subdirRun_keep n subdirs n2 hmemsub with hk | hk
          · exact hnsub2 hk
          · exact ltL_irrefl n (ltL_le_trans hnn2 hk)
        · intro f0 hf0
          rw [hdec, hfr] at hf0
          rcases List.mem_append.mp hf0 with hf1 | hf2
          · rcases List.mem_append.mp hf1 with hf1a | hf1b
            · exact fun hc => ltL_ne (ltL_trans (hprelt f0 hf1a) hnn2) hc
            · simp at hf1b
          · exact hfile2 f0 hf2
      refine ⟨?_, ?_, ?_⟩
      · rw [hmap, hdel]
        exact List.Sublist.append_left ihres _
      · by_cases hgit : unmatchedName n isDir = ['.', 'g', 'i', 't', '/']
        · rw [if_pos hgit]
          simp only [List.nil_append, List.map_cons]
          exact List.Sublist.cons _ ihunm
        · rw [if_neg hgit]
          simp only [List.singleton_append, List.map_cons]
          exact List.Sublist.cons₂ _ ihunm
      · intro u hu
        by_cases hgit : unmatchedName n isDir = ['.', 'g', 'i', 't', '/']
        · rw [if_pos hgit, List.nil_append] at hu
          exact hlift u hu
        · rw [if_neg hgit, List.singleton_append] at hu
          rcases List.mem_cons.mp hu with rfl | hu2
          · exact ⟨n, isDir, List.mem_cons_self _ _, rfl,
              subdirRun_none n subdirs hsp hsr, hnofile⟩
          · exact hlift u hu2

/-! ### Per-directory candidate lists -/

theorem sortEntries_shape (raw : List (List Char × Bool))
    (hnd : (raw.map Prod.fst).Nodup) :
    (sortEntries raw).Pairwise (fun a b => ltL a.1 b.1) ∧
    ∀ p ∈ sortEntries raw, p ∈ raw := by
  have hperm : (sortEntries raw).Perm raw :=
    List.perm_insertionSort (fun (a b : List Char × Bool) => leL a.1 b.1) raw
  constructor
  · haveI : IsTotal (List Char × Bool) (fun a b => leL a.1 b.1) :=
      ⟨fun a b => leL_total a.1 b.1⟩
    haveI : IsTrans (List Char × Bool) (fun a b => leL a.1 b.1) :=
      ⟨fun a b c hab hbc => leL_trans hab hbc⟩
    have hsorted : (sortEntries raw).Pairwise (fun a b => leL a.1 b.1) :=
      List.sorted_insertionSort (fun (a b : List Char × Bool) => leL a.1 b.1) raw
    have hnd2 : ((sortEntries raw).map Prod.fst).Nodup :=
      (List.Perm.nodup_iff (hperm.map Prod.fst)).mpr hnd
    have hne : (sortEntries raw).Pairwise (fun a b => a.1 ≠ b.1) :=
      List.pairwise_map.mp hnd2
    exact (pairwise_conj hsorted hne).imp (fun hab => leL_ne_lt hab.1 hab.2)
  · intro p hp
    exact hperm.subset hp

theorem files_paths_nodup {d : IndexDir}
    (hshape : ∀ f ∈ d.files, ∃ b, SegOk b ∧ f.path = d.path ++ b)
    (hpair : d.files.Pairwise (fun f g =>
      ltL (Basename d.path.length f) (Basename d.path.length g))) :
    (d.files.map (fun f => f.path)).Nodup := by
  refine List.pairwise_map.mpr ?_
  refine List.Pairwise.imp_of_mem ?_ hpair
  intro f g hf hg hlt heq
  obtain ⟨bf, _, hfp⟩ := hshape f hf
  obtain ⟨bg, _, hgp⟩ := hshape g hg
  have hbf : Basename d.path.length f = bf := by
    unfold Basename
    rw [hfp, List.drop_left]
  have hbg : Basename d.path.length g = bg := by
    unfold Basename
    rw [hgp, List.drop_left]
  rw [hbf, hbg] at hlt
  rw [hfp, hgp] at heq
  exact ltL_ne hlt (append_left_cancel_ch heq)

/-- Every candidate contributed by one directory scan has one of the
three claimed shapes, and one directory's candidate list is
duplicate-free. -/
theorem scanOne_shape (fs : Fs) (uc : Bool) (d : IndexDir) (hwf : DirWF fs d) :
    (∀ c ∈ (scanOne fs uc d).2.1, CandShape d c) ∧
    (scanOne fs uc d).2.1.Nodup := by
  obtain ⟨⟨segs, hsegs, hdpath⟩, hfshape, hfpair, hspair, hunm, hund, hlist⟩ := hwf
  rcases hdir : fs.dirs d.path with _ | fd
  · rw [scanOne_failure fs uc d hdir]
    constructor
    · intro c hc
      rw [List.mem_singleton.mp hc]
      exact Or.inl rfl
    · simp
  · by_cases hfast : (uc && StatEq fd.st d.st) = true
    · have hs1 : scanOne fs uc d = (d,
          (d.files.filter (fun f =>
            IsModified f (fstatD fs (d.path ++ Basename d.path.length f)))).map
              (fun f => f.path) ++ d.unmatched,
          { listed := [],
            statted := d.files.map (fun f =>
              d.path ++ Basename d.path.length f) }) := by
        simp [scanOne, hdir, hfast]
      rw [hs1]
      constructor
      · intro c hc
        rcases List.mem_append.mp hc with hc1 | hc2
        · obtain ⟨f, hf, rfl⟩ := List.mem_map.mp hc1
          have hf' : f ∈ d.files := List.mem_of_mem_filter hf
          obtain ⟨b, hb, hfp⟩ := hfshape f hf'
          exact Or.inr ⟨b, hb, Or.inl hfp⟩
        · obtain ⟨nm, hnm, hnsub, hform⟩ := hunm c hc2
          rcases hform with ⟨hfe, _⟩ | hde
          · exact Or.inr ⟨nm, hnm, Or.inl hfe⟩
          · exact Or.inr ⟨nm, hnm, Or.inr ⟨hde, hnsub⟩⟩
      · refine (List.nodup_append).mpr ⟨?_, hund, ?_⟩
        · have hsub : ((d.files.filter (fun f =>
              IsModified f (fstatD fs (d.path ++ Basename d.path.length f)))).map
                (fun f => f.path)).Sublist (d.files.map (fun f => f.path)) :=
            (List.filter_sublist _).map _
          exact (files_paths_nodup hfshape hfpair).sublist hsub
        · intro c hc1 hc2
          obtain ⟨f, hf, rfl⟩ := List.mem_map.mp hc1
          have hf' : f ∈ d.files := List.mem_of_mem_filter hf
          obtain ⟨b, hb, hfp⟩ := hfshape f hf'
          obtain ⟨nm, hnm, hnsub, hform⟩ := hunm _ hc2
          rcases hform with ⟨hfe, hnofile⟩ | hde
          · have hbnm : b = nm := append_left_cancel_ch (hfp.symm.trans hfe)
            have hbase : Basename d.path.length f = b := by
              unfold Basename
              rw [hfp, List.drop_left]
            exact hnofile f hf' (by rw [hbase, hbnm])
          · have hb2 : b = nm ++ ['/'] := by
              have h0 := hfp.symm.trans hde
              rw [List.append_assoc] at h0
              exact append_left_cancel_ch h0
            exact hb.2 (by rw [hb2]; simp)
    · rcases hlst : fd.listing with _ | raw
      · have hs1 : scanOne fs uc d =
            ({ d with st := statZero, unmatched := [d.path] }, [d.path],
              { listed := [d.path], statted := [] }) := by
          simp [scanOne, hdir, hfast, hlst]
        rw [hs1]
        constructor
        · intro c hc
          rw [List.mem_singleton.mp hc]
          exact Or.inl rfl
        · simp
      · have hnc : (uc && StatEq fd.st d.st) = false := by
          rcases hb : (uc && StatEq fd.st d.st) with _ | _
          · rfl
          · exact absurd hb hfast
        rw [scanOne_full fs uc d fd raw hdir hlst hnc]
        obtain ⟨hrnd, hrok⟩ := hlist fd raw hdir hlst
        obtain ⟨hepair, hemem⟩ := sortEntries_shape raw hrnd
        obtain ⟨hres_sub, hunm_sub, hchar⟩ := mergeLoop_shape fs d.path
          d.path.length (sortEntries raw) d.files d.subdirs hepair hfpair hspair
        constructor
        · intro c hc
          rcases List.mem_append.mp hc with hc1 | hc2
          · obtain ⟨f, hf, rfl⟩ := List.mem_map.mp (hres_sub.subset hc1)
            obtain ⟨b, hb, hfp⟩ := hfshape f hf
            exact Or.inr ⟨b, hb, Or.inl hfp⟩
          · obtain ⟨n2, d2, hmem2, hueq, hnsub2, _⟩ := hchar c hc2
            have hok2 : SegOk n2 := hrok (n2, d2) (hemem (n2, d2) hmem2)
            cases d2 with
            | false =>
              refine Or.inr ⟨n2, hok2, Or.inl ?_⟩
              rw [hueq]
              simp [unmatchedName]
            | true =>
              refine Or.inr ⟨n2, hok2, Or.inr ⟨?_, hnsub2⟩⟩
              rw [hueq]
              simp [unmatchedName]
        · refine (List.nodup_append).mpr ⟨?_, ?_, ?_⟩
          · exact (files_paths_nodup hfshape hfpair).sublist hres_sub
          · have hmapnd : ((sortEntries raw).map
                (fun p => d.path ++ unmatchedName p.1 p.2)).Nodup := by
              refine List.pairwise_map.mpr ?_
              refine List.Pairwise.imp_of_mem ?_ hepair
              intro p q hp hq hlt heq
              have h2 := append_left_cancel_ch heq
              have hpok := hrok p (hemem p hp)
              have hqok := hrok q (hemem q hq)
              exact ltL_ne hlt (unmatchedName_inj hpok.2 hqok.2 h2)
            exact hmapnd.sublist hunm_sub
          · intro c hc1 hc2
            obtain ⟨f, hf, rfl⟩ := List.mem_map.mp (hres_sub.subset hc1)
            obtain ⟨b, hb, hfp⟩ := hfshape f hf
            obtain ⟨n2, d2, hmem2, hueq, _, hnofile⟩ := hchar _ hc2
            cases d2 with
            | false =>
              have hueq' : f.path = d.path ++ n2 := by
                rw [hueq]
                simp [unmatchedName]
              have hbnm : b = n2 := append_left_cancel_ch (hfp.symm.trans hueq')
              have hbase : Basename d.path.length f = b := by
                unfold Basename
                rw [hfp, List.drop_left]
              exact hnofile f hf (by rw [hbase, hbnm])
            | true =>
              have hueq' : f.path = d.path ++ (n2 ++ ['/']) := by
                rw [hueq]
                simp [unmatchedName]
              have hb2 : b = n2 ++ ['/'] :=
                append_left_cancel_ch (hfp.symm.trans hueq')
              exact hb.2 (by rw [hb2]; simp)

/-! ### Cross-directory disjointness and the full call -/

theorem ScanDirs_cands (fs : Fs) (uc : Bool) : ∀ (ds : List IndexDir),
    (ScanDirs fs uc ds).2.1 =
      (ds.map (fun d => (scanOne fs uc d).2.1)).flatten := by
  intro ds
  induction ds with
  | nil => rfl
  | cons d ds ih => simp [ScanDirs, ih]

theorem flat_comm (fs : Fs) (uc : Bool) : ∀ (sls : List (List IndexDir)),
    (sls.map (fun sl => (ScanDirs fs uc sl).2.1)).flatten =
      ((sls.flatten).map (fun d => (scanOne fs uc d).2.1)).flatten := by
  intro sls
  induction sls with
  | nil => rfl
  | cons sl sls ih =>
    simp only [List.map_cons, List.flatten_cons]
    rw [ih, ScanDirs_cands fs uc sl]
    simp [List.map_append, List.flatten_append]

theorem flat_cands_nodup (fs : Fs) (uc : Bool) : ∀ (ds : List IndexDir),
    (∀ d ∈ ds, DirWF fs d) →
    ds.Pairwise (fun a b => a.path ≠ b.path) →
    (∀ d1 ∈ ds, ∀ d2 ∈ ds, ∀ nm, SegOk nm →
      d2.path = d1.path ++ nm ++ ['/'] → nm ∈ d1.subdirs) →
    ((ds.map (fun d => (scanOne fs uc d).2.1)).flatten).Nodup := by
  intro ds
  induction ds with
  | nil => intro _ _ _; simp
  | cons d ds ih =>
    intro hwf hdist hch
    simp only [List.map_cons, List.flatten_cons]
    obtain ⟨hd1, hdist'⟩ := List.pairwise_cons.mp hdist
    refine (List.nodup_append).mpr
      ⟨(scanOne_shape fs uc d (hwf d (by simp))).2, ?_, ?_⟩
    · exact ih (fun x hx => hwf x (List.mem_cons_of_mem d hx)) hdist'
        (fun d1 h1 d2 h2 => hch d1 (List.mem_cons_of_mem d h1) d2
          (List.mem_cons_of_mem d h2))
    · intro c hc1 hc2
      rw [List.mem_flatten] at hc2
      obtain ⟨l, hl, hcl⟩ := hc2
      obtain ⟨d2, hd2, rfl⟩ := List.mem_map.mp hl
      have hw1 := hwf d (by simp)
      have hw2 := hwf d2 (List.mem_cons_of_mem d hd2)
      obtain ⟨segs1, hs1, hp1⟩ := hw1.1
      obtain ⟨segs2, hs2, hp2⟩ := hw2.1
      exact candshape_disjoint hs1 hp1 hs2 hp2 (hd1 d2 hd2)
        (fun nm hnm he => hch d (by simp) d2 (List.mem_cons_of_mem d hd2) nm hnm he)
        (fun nm hnm he => hch d2 (List.mem_cons_of_mem d hd2) d (by simp) nm hnm he)
        ((scanOne_shape fs uc d hw1).1 c hc1)
        ((scanOne_shape fs uc d2 hw2).1 c hcl)

theorem shardSlices_sublist (dirs : List IndexDir) :
    ∀ (sp : List Nat) (a : Nat), sp.Chain' (· ≤ ·) →
      (∀ x ∈ sp.head?, a ≤ x) →
      ((shardSlices dirs sp).flatten).Sublist (dirs.drop a) := by
  intro sp
  induction sp with
  | nil => intro a _ _; simp [shardSlices]
  | cons x rest ih =>
    intro a hch hhd
    cases rest with
    | nil => simp [shardSlices]
    | cons y rest2 =>
      have hxy : x ≤ y := (List.chain'_cons.mp hch).1
      have hch' : (y :: rest2).Chain' (· ≤ ·) := (List.chain'_cons.mp hch).2
      have hax : a ≤ x := hhd x rfl
      have hsl : shardSlices dirs (x :: y :: rest2) =
          ((dirs.drop x).take (y - x)) :: shardSlices dirs (y :: rest2) := by
        simp [shardSlices]
      rw [hsl]
      simp only [List.flatten_cons]
      have hrec := ih y hch' (by intro z hz; simp at hz; omega)
      have h1 : dirs.drop x = (dirs.drop x).take (y - x) ++ dirs.drop y := by
        conv_lhs => rw [← List.take_append_drop (y - x) (dirs.drop x)]
        congr 1
        rw [List.drop_drop]
        congr 1
        omega
      have h2 : ((dirs.drop x).take (y - x) ++
          (shardSlices dirs (y :: rest2)).flatten).Sublist (dirs.drop x) := by
        conv_rhs => rw [h1]
        exact List.Sublist.append_left hrec _
      have h3 : (dirs.drop x).Sublist (dirs.drop a) := by
        have hre : dirs.drop x = (dirs.drop a).drop (x - a) := by
          rw [List.drop_drop]
          congr 1
          omega
        rw [hre]
        exact List.drop_sublist _ _
      exact h2.trans h3

/-- C8: a successful scan call over well-formed program state — every
node shaped and cached as the program maintains it, pairwise-distinct node
paths, every existing child directory registered in its parent's
subdirectory list, and monotone shard boundaries — produces a candidate
list that is sorted and contains no duplicate paths. -/
theorem scan_sorted_nodup_c8 (fs : Fs) (uc : Bool) (dirs : List IndexDir)
    (splits : List Nat)
    (hwf : ∀ d ∈ dirs, DirWF fs d)
    (hdist : dirs.Pairwise (fun a b => a.path ≠ b.path))
    (hch : ∀ d1 ∈ dirs, ∀ d2 ∈ dirs, ∀ nm, SegOk nm →
      d2.path = d1.path ++ nm ++ ['/'] → nm ∈ d1.subdirs)
    (hsp : splits.Chain' (· ≤ ·)) :
    (GetDirtyCandidates fs uc dirs splits).2.Pairwise leL ∧
    (GetDirtyCandidates fs uc dirs splits).2.Nodup := by
  have hgdc : (GetDirtyCandidates fs uc dirs splits).2 =
      (((shardSlices dirs splits).map
        (fun sl => (ScanDirs fs uc sl).2.1)).flatten).insertionSort leL := by
    show ((((shardSlices dirs splits).map (ScanDirs fs uc)).map
        (fun r => r.2.1)).flatten).insertionSort leL = _
    rw [List.map_map]
    rfl
  rw [hgdc]
  constructor
  · haveI : IsTotal (List Char) leL := ⟨leL_total⟩
    haveI : IsTrans (List Char) leL := ⟨fun a b c => leL_trans⟩
    exact List.sorted_insertionSort leL _
  · have hperm := List.perm_insertionSort leL
      (((shardSlices dirs splits).map (fun sl => (ScanDirs fs uc sl).2.1)).flatten)
    refine (hperm.nodup_iff).mpr ?_
    rw [flat_comm fs uc]
    have hsub : ((shardSlices dirs splits).flatten).Sublist dirs := by
      have h0 := shardSlices_sublist dirs splits 0 hsp (fun x _ => Nat.zero_le x)
      simpa using h0
    exact flat_cands_nodup fs uc ((shardSlices dirs splits).flatten)
      (fun d hd => hwf d (hsub.subset hd))
      (hdist.sublist hsub)
      (fun d1 h1 d2 h2 => hch d1 (hsub.subset h1) d2 (hsub.subset h2))

/-- C8 witness: the two-node tree {root, dir/} over the concrete
filesystem of the worked example, split into two shards. -/
theorem scan_sorted_nodup_c8_witness :
    (∀ d ∈ [exRoot8, exDir8], DirWF exFsC1 d) ∧
    ([exRoot8, exDir8].Pairwise (fun a b => a.path ≠ b.path)) ∧
    (([0, 2] : List Nat).Chain' (· ≤ ·)) ∧
    ((GetDirtyCandidates exFsC1 true [exRoot8, exDir8] [0, 2]).2.Pairwise leL ∧
     (GetDirtyCandidates exFsC1 true [exRoot8, exDir8] [0, 2]).2.Nodup) := by
  have hwfr : DirWF exFsC1 exRoot8 := by
    refine ⟨⟨[], ?_, rfl⟩, ?_, ?_, ?_, ?_, ?_, ?_⟩
    · intro s hs
      cases hs
    · intro f hf
      rw [List.mem_singleton.mp hf]
      exact ⟨"a.txt".toList, ⟨by decide, by decide⟩, rfl⟩
    · exact List.pairwise_singleton _ _
    · exact List.pairwise_singleton _ _
    · intro u hu
      cases hu
    · exact List.nodup_nil
    · intro fd raw h1 h2
      have h0 : exFsC1.dirs exRoot8.path = some { st := { ino := 100 }, listing := some [("a.txt".toList, false), ("dir".toList, true)] } := rfl
      rw [h0] at h1
      have hfl : fd.listing = some [("a.txt".toList, false), ("dir".toList, true)] := by
        rw [← Option.some.inj h1]
      have hraw : raw = [("a.txt".toList, false), ("dir".toList, true)] :=
        Option.some.inj (h2.symm.trans hfl)
      subst hraw
      refine ⟨by decide, ?_⟩
      intro p hp
      rcases List.mem_cons.mp hp with rfl | hp2
      · exact ⟨by decide, by decide⟩
      · rcases List.mem_cons.mp hp2 with rfl | hp3
        · exact ⟨by decide, by decide⟩
        · cases hp3
  have hwfd : DirWF exFsC1 exDir8 := by
    refine ⟨⟨[['d', 'i', 'r']], ?_, by decide⟩, ?_, ?_, ?_, ?_, ?_, ?_⟩
    · intro s hs
      rw [List.mem_singleton.mp hs]
      exact ⟨by decide, by decide⟩
    · intro f hf
      rw [List.mem_singleton.mp hf]
      exact ⟨"b.txt".toList, ⟨by decide, by decide⟩, by decide⟩
    · exact List.pairwise_singleton _ _
    · exact List.Pairwise.nil
    · intro u hu
      cases hu
    · exact List.nodup_nil
    · intro fd raw h1 h2
      have h0 : exFsC1.dirs exDir8.path = some { st := { ino := 101 }, listing := some [("c.txt".toList, false)] } := rfl
      rw [h0] at h1
      have hfl : fd.listing = some [("c.txt".toList, false)] := by
        rw [← Option.some.inj h1]
      have hraw : raw = [("c.txt".toList, false)] :=
        Option.some.inj (h2.symm.trans hfl)
      subst hraw
      refine ⟨by decide, ?_⟩
      intro p hp
      rcases List.mem_cons.mp hp with rfl | hp2
      · exact ⟨by decide, by decide⟩
      · cases hp2
  have hwf : ∀ d ∈ [exRoot8, exDir8], DirWF exFsC1 d := by
    intro d hd
    rcases List.mem_cons.mp hd with rfl | hd2
    · exact hwfr
    · rcases List.mem_cons.mp hd2 with rfl | hd3
      · exact hwfd
      · cases hd3
  have hdist : [exRoot8, exDir8].Pairwise (fun a b => a.path ≠ b.path) := by
    refine List.pairwise_cons.mpr ⟨?_, by simp⟩
    intro b hb
    rw [List.mem_singleton.mp hb]
    decide
  have hch : ∀ d1 ∈ [exRoot8, exDir8], ∀ d2 ∈ [exRoot8, exDir8], ∀ nm,
      SegOk nm → d2.path = d1.path ++ nm ++ ['/'] → nm ∈ d1.subdirs := by
    intro d1 h1 d2 h2 nm hnm heq
    have hcase : ∀ (p1 p2 : List Char), p1 = exRoot8.path ∨ p1 = exDir8.path →
        True := fun _ _ _ => trivial
    clear hcase
    rcases List.mem_cons.mp h1 with rfl | h1b
    · rcases List.mem_cons.mp h2 with rfl | h2b
      · exfalso
        have h0 : ((exRoot8.path ++ nm) ++ ['/']) = ([] : List Char) := heq.symm
        exact absurd (List.append_eq_nil.mp h0).2 (by decide)
      · rcases List.mem_cons.mp h2b with rfl | h2c
        · have h0 : exDir8.path = nm ++ ['/'] := by simpa using heq
          have h0' : ['d', 'i', 'r'] ++ ['/'] = nm ++ ['/'] := by
            rw [← h0]
            decide
          obtain ⟨hh, _⟩ := List.append_inj' h0' rfl
          rw [← hh]
          decide
        · cases h2c
    · rcases List.mem_cons.mp h1b with rfl | h1c
      · exfalso
        rcases List.mem_cons.mp h2 with rfl | h2b
        · have h0 : ((exDir8.path ++ nm) ++ ['/']) = ([] : List Char) := heq.symm
          exact absurd (List.append_eq_nil.mp h0).2 (by decide)
        · rcases List.mem_cons.mp h2b with rfl | h2c
          · rw [List.append_assoc] at heq
            exact ne_append_right (by simp) heq
          · cases h2c
      · cases h1c
  have hsp : ([0, 2] : List Nat).Chain' (· ≤ ·) :=
    List.chain'_cons.mpr ⟨by omega, List.chain'_singleton 2⟩
  exact ⟨hwf, hdist, hsp,
    scan_sorted_nodup_c8 exFsC1 true [exRoot8, exDir8] [0, 2] hwf hdist hch hsp⟩

/-! ### Claim C10: mode normalization -/

/-- C10: the metadata comparison normalizes a regular file's mode to 0755
when any execute bit is set and to 0644 otherwise, and to the file-type
bits alone for non-regular files; consequently a permission change on a
regular file that does not toggle executability never changes the verdict
of `IsModified` (e.g. 0644 → 0600). -/
theorem mode_normalization_c10 :
    (∀ m : Nat, m &&& 0o170000 = 0o100000 →
      Mode m = if m &&& 0o111 ≠ 0 then 0o100755 else 0o100644) ∧
    (∀ m : Nat, m &&& 0o170000 ≠ 0o100000 → Mode m = m &&& 0o170000) ∧
    (∀ (e : Entry) (st : Stat) (m : Nat),
      st.mode &&& 0o170000 = 0o100000 → m &&& 0o170000 = 0o100000 →
      (st.mode &&& 0o111 = 0 ↔ m &&& 0o111 = 0) →
      IsModified e { st with mode := m } = IsModified e st) := by
  have hMode : ∀ m : Nat, m &&& 0o170000 = 0o100000 →
      Mode m = if m &&& 0o111 ≠ 0 then 0o100755 else 0o100644 := by
    intro m h
    simp only [Mode, h]
    norm_num
    by_cases hx : m &&& 0o111 = 0
    · simp [hx]
    · simp [hx]
  refine ⟨hMode, ?_, ?_⟩
  · intro m h
    simp only [Mode]
    rw [if_neg]
    simp [h]
  · intro e st m hst hm hiff
    have h1 := hMode st.mode hst
    have h2 := hMode m hm
    have hMM : Mode m = Mode st.mode := by
      rw [h1, h2]
      by_cases hx : st.mode &&& 0o111 = 0
      · have hx' : m &&& 0o111 = 0 := hiff.mp hx
        simp [hx, hx']
      · have hx' : ¬ m &&& 0o111 = 0 := fun hc => hx (hiff.mpr hc)
        simp [hx, hx']
    simp [IsModified, hMM]

/-- Witness for C10 at a concrete input: mode 0600 versus a tracked record
checked against mode 0644 (no executability change). -/
theorem mode_normalization_c10_witness :
    IsModified { path := ['a'] }
        { ({ mode := 0o100644 } : Stat) with mode := 0o100600 } =
      IsModified { path := ['a'] } { mode := 0o100644 } :=
  mode_normalization_c10.2.2 { path := ['a'] } { mode := 0o100644 } 0o100600
    (by decide) (by decide) (by decide)

/-! ### Claim C4: shard boundaries (InitSplits) -/

/-- C4 (failing input): with worker capacity 1 (16 shards) and directory
weights `[18, 494, 512 ×15, 3]` (total 8195, shard weight 512), InitSplits
builds 18 boundaries — more than the 16·1 + 1 = 17 allowed by the claim and
by the code's own `CHECK(splits_.size() <= kNumShards + 1)`, which
therefore fails.  Such weights arise from a real record list, e.g. a root
with 17 subdirectories `a` … `q` holding 493, 511 ×15 and 2 files. -/
theorem initSplits_overflow_c4 :
    InitSplits ([18, 494] ++ List.replicate 15 512 ++ [3]) 1 =
      [0, 2, 3, 4, 5, 6, 7, 8, 9, 10, 11, 12, 13, 14, 15, 16, 17, 18] ∧
    (InitSplits ([18, 494] ++ List.replicate 15 512 ++ [3]) 1).length = 16 * 1 + 2 ∧
    splitsSizeOk ([18, 494] ++ List.replicate 15 512 ++ [3]) 1 = false := by
  refine ⟨by decide, by decide, by decide⟩

/-! ### Claim C6: unavailable directory -/

/-- C6: a directory whose open (or fstat) fails contributes exactly one
dirty candidate — its own slash-terminated path — no file of it is passed
to fstatat, and the scan continues with the remaining directories. -/
theorem scan_open_failure_c6 (fs : Fs) (uc : Bool) (pre post : List IndexDir)
    (d : IndexDir) (h : fs.dirs d.path = none) :
    (ScanDirs fs uc (pre ++ d :: post)).2.1 =
      (ScanDirs fs uc pre).2.1 ++ d.path :: (ScanDirs fs uc post).2.1 ∧
    (ScanDirs fs uc (pre ++ d :: post)).2.2.statted =
      (ScanDirs fs uc pre).2.2.statted ++ (ScanDirs fs uc post).2.2.statted := by
  rw [ScanDirs_append]
  have hone : ScanDirs fs uc (d :: post) =
      (({ d with st := statZero, unmatched := [d.path] }) :: (ScanDirs fs uc post).1,
       d.path :: (ScanDirs fs uc post).2.1,
       { listed := (ScanDirs fs uc post).2.2.listed,
         statted := (ScanDirs fs uc post).2.2.statted }) := by
    simp [ScanDirs, scanOne_failure fs uc d h, ScanLog.mk.injEq]
  rw [hone]
  exact ⟨rfl, rfl⟩

/-- Witness for C6: a tree whose only directory cannot be opened. -/
theorem scan_open_failure_c6_witness :
    (ScanDirs { dirs := fun _ => none, fstat := fun _ => none } true
        ([] ++ ({ path := ['x', '/'], files := [{ path := ['x', '/', 'f'] }] } : IndexDir) :: [])).2.1 =
      (ScanDirs { dirs := fun _ => none, fstat := fun _ => none } true []).2.1 ++
        ['x', '/'] :: (ScanDirs { dirs := fun _ => none, fstat := fun _ => none } true []).2.1 ∧
    (ScanDirs { dirs := fun _ => none, fstat := fun _ => none } true
        ([] ++ ({ path := ['x', '/'], files := [{ path := ['x', '/', 'f'] }] } : IndexDir) :: [])).2.2.statted =
      (ScanDirs { dirs := fun _ => none, fstat := fun _ => none } true []).2.2.statted ++
        (ScanDirs { dirs := fun _ => none, fstat := fun _ => none } true []).2.2.statted :=
  scan_open_failure_c6 { dirs := fun _ => none, fstat := fun _ => none } true [] []
    { path := ['x', '/'], files := [{ path := ['x', '/', 'f'] }] } rfl

/-! ### Claim C3: untracked-cache fast path -/

/-- C3: when the untracked-cache mode is enabled and the fresh stat of a
directory equals its cached stat, the listing primitive is not invoked for
it; every tracked file is individually re-stat'd (failure giving zero
metadata) and exactly the files whose metadata mismatches under
`IsModified` are reported as modified candidates (followed by the
still-cached unmatched paths of the previous rescan). -/
theorem fast_path_c3 (fs : Fs) (d : IndexDir) (fd : FsDir)
    (hd : fs.dirs d.path = some fd) (hst : StatEq fd.st d.st = true) :
    scanOne fs true d =
      (d,
       (d.files.filter (fun f =>
           IsModified f (fstatD fs (d.path ++ Basename d.path.length f)))).map (fun f => f.path)
         ++ d.unmatched,
       { listed := [],
         statted := d.files.map (fun f => d.path ++ Basename d.path.length f) }) := by
  simp [scanOne, hd, hst]

/-- Witness for C3: a directory with one clean and one modified file; the
listing primitive is not consulted and only the modified file is reported. -/
theorem fast_path_c3_witness :
    scanOne
        { dirs := fun p => if p = [] then some { st := { ino := 5 }, listing := none } else none,
          fstat := fun p => if p = ['a'] then some { ino := 1 } else none }
        true { st := { ino := 5 }, files := [{ path := ['a'], ino := 1 }, { path := ['b'], ino := 2 }] } =
      (({ st := { ino := 5 }, files := [{ path := ['a'], ino := 1 }, { path := ['b'], ino := 2 }] } : IndexDir),
       [['b']],
       { listed := [], statted := [['a'], ['b']] }) := by
  have h := fast_path_c3
    { dirs := fun p => if p = [] then some { st := { ino := 5 }, listing := none } else none,
      fstat := fun p => if p = ['a'] then some { ino := 1 } else none }
    { st := { ino := 5 }, files := [{ path := ['a'], ino := 1 }, { path := ['b'], ino := 2 }] }
    { st := { ino := 5 }, listing := none } (by rfl) (by decide)
  rw [h]
  refine congrArg _ ?_
  refine congrArg _ ?_
  constructor

/-! ### Claim C9: shard failure aggregation -/

/-- C9: if any shard raises an internal failure the whole call fails with
no candidate list at all (`Except.error ()` carries no partial result);
when no shard fails the call returns exactly the sorted merged candidates
of every shard.  The parallel fan-out is sequentialized here; failure
injection is modelled from the spec (see `GetDirtyCandidatesE`). -/
theorem shard_failure_c9 (fs : Fs) (uc : Bool) (dirs : List IndexDir)
    (splits : List Nat) (fail : Nat → Bool) :
    ((∃ i, i < (shardSlices dirs splits).length ∧ fail i = true) →
      (GetDirtyCandidatesE fs uc dirs splits fail).2 = Except.error ()) ∧
    ((∀ i, i < (shardSlices dirs splits).length → fail i = false) →
      (GetDirtyCandidatesE fs uc dirs splits fail).2 =
        Except.ok (GetDirtyCandidates fs uc dirs splits).2) := by
  constructor
  · rintro ⟨i, hi, hf⟩
    have hany : (List.range (shardSlices dirs splits).length).any fail = true := by
      rw [List.any_eq_true]
      exact ⟨i, List.mem_range.mpr hi, hf⟩
    simp only [GetDirtyCandidatesE, hany]
    rfl
  · intro hnone
    have hany : (List.range (shardSlices dirs splits).length).any fail = false := by
      by_contra hc
      rw [Bool.not_eq_false, List.any_eq_true] at hc
      obtain ⟨i, hi, hf⟩ := hc
      rw [hnone i (List.mem_range.mp hi)] at hf
      exact absurd hf (by decide)
    simp only [GetDirtyCandidatesE, hany, Bool.false_eq_true, if_false,
      GetDirtyCandidates]
    refine congrArg _ (congrArg _ (congrArg _ ?_))
    rw [List.map_map, List.map_map]
    have hstep : ∀ i ∈ List.range (shardSlices dirs splits).length,
        ((fun r => (Prod.snd r).getD []) ∘ fun i =>
          if fail i then ((shardSlices dirs splits).getD i [], none)
          else
            let r := ScanDirs fs uc ((shardSlices dirs splits).getD i [])
            (r.1, some r.2.1)) i =
        (fun i => (ScanDirs fs uc ((shardSlices dirs splits).getD i [])).2.1) i := by
      intro i hi
      simp [hnone i (List.mem_range.mp hi)]
    rw [List.map_congr_left hstep]
    exact map_range_getD (shardSlices dirs splits) [] (fun s => (ScanDirs fs uc s).2.1)

/-- Witness for C9: one failing shard of two gives an aggregate failure;
with no failing shard the call returns the plain scan result. -/
theorem shard_failure_c9_witness :
    (GetDirtyCandidatesE { dirs := fun _ => none, fstat := fun _ => none } true
        [{ path := ['x', '/'] }, { path := ['y', '/'], depth := 0 }] [0, 1, 2]
        (fun i => i == 0)).2 = Except.error () ∧
    (GetDirtyCandidatesE { dirs := fun _ => none, fstat := fun _ => none } true
        [{ path := ['x', '/'] }, { path := ['y', '/'], depth := 0 }] [0, 1, 2]
        (fun _ => false)).2 =
      Except.ok (GetDirtyCandidates { dirs := fun _ => none, fstat := fun _ => none } true
        [{ path := ['x', '/'] }, { path := ['y', '/'], depth := 0 }] [0, 1, 2]).2 :=
  ⟨(shard_failure_c9 { dirs := fun _ => none, fstat := fun _ => none } true
      [{ path := ['x', '/'] }, { path := ['y', '/'], depth := 0 }] [0, 1, 2]
      (fun i => i == 0)).1 ⟨0, by decide, rfl⟩,
   (shard_failure_c9 { dirs := fun _ => none, fstat := fun _ => none } true
      [{ path := ['x', '/'] }, { path := ['y', '/'], depth := 0 }] [0, 1, 2]
      (fun _ => false)).2 (fun i _ => rfl)⟩

end Gitstatus
